import Mathlib

/-!
# Mutable BSON document tree: a shallow embedding of `document.cpp`

This file embeds the core of `src/mongo/bson/mutable/document.cpp` — the
element arena (`Impl`), lazy child/sibling materialization, topology edits,
in-place damage recording, and serialization — and proves properties of the
embedded operations.

Byte buffers are `List Nat` (each entry one byte).  The wire-format
encoder/decoder (`BSONElement`, `BSONObjBuilder`, `StringData`) is out of
scope of `document.cpp` and is modelled from the spec where noted.
Stateful C++ methods become pure functions threading an explicit `Impl`
state; loops whose termination relies on well-formedness of the data are
written with an explicit fuel parameter and return `none` when the fuel
runs out (or where the C++ would abort via `verify`/`massert`).
-/

namespace MutableBson

/-- A byte buffer: each entry is one byte value. -/
abbrev Buf := List Nat

/-- Read a byte of a buffer, defaulting to 0 out of range. -/
def byteAt (b : Buf) (i : Nat) : Nat := b.getD i 0

/-- The `len` bytes of `b` starting at offset `off`. -/
def slice (b : Buf) (off len : Nat) : Buf := (b.drop off).take len

/-- Modelled from the spec: little-endian `int32` encoding used by the wire
format's length prefixes. -/
def encInt32 (n : Nat) : Buf :=
  [n % 256, n / 256 % 256, n / 256 ^ 2 % 256, n / 256 ^ 3 % 256]

/-- Modelled from the spec: read a little-endian `int32` at offset `off`. -/
def decInt32 (b : Buf) (off : Nat) : Nat :=
  byteAt b off + 256 * byteAt b (off + 1) + 256 ^ 2 * byteAt b (off + 2) +
    256 ^ 3 * byteAt b (off + 3)

/-- Length of the null-terminated string starting at offset `i` (number of
bytes before the first zero byte). -/
def cstrLen (b : Buf) (i : Nat) : Nat := ((b.drop i).takeWhile (· ≠ 0)).length

/-! ### Wire-format type bytes (bsonspec.org, as used by the source) -/

def tEOO : Nat := 0
def tDouble : Nat := 1
def tString : Nat := 2
def tObject : Nat := 3
def tArray : Nat := 4
def tBinData : Nat := 5
def tUndefined : Nat := 6
def tOID : Nat := 7
def tBool : Nat := 8
def tDate : Nat := 9
def tNull : Nat := 10
def tRegex : Nat := 11
def tDBRef : Nat := 12
def tCode : Nat := 13
def tSymbol : Nat := 14
def tCodeWScope : Nat := 15
def tInt : Nat := 16
def tTimestamp : Nat := 17
def tLong : Nat := 18
def tMaxKey : Nat := 127
def tMinKey : Nat := 255

/-- Modelled from the spec: the size of an element's value payload, as the
wire-format decoder computes it — fixed by the type byte, with an `int32`
length prefix for variable-length payloads.  `valOff` is the offset of the
first payload byte.  `none` for an unknown type byte (where the decoder
would abort). -/
def payloadSize (b : Buf) (t valOff : Nat) : Option Nat :=
  if t = tDouble ∨ t = tDate ∨ t = tTimestamp ∨ t = tLong then some 8
  else if t = tString ∨ t = tCode ∨ t = tSymbol then some (4 + decInt32 b valOff)
  else if t = tObject ∨ t = tArray ∨ t = tCodeWScope then some (decInt32 b valOff)
  else if t = tBinData then some (4 + 1 + decInt32 b valOff)
  else if t = tUndefined ∨ t = tNull ∨ t = tMinKey ∨ t = tMaxKey then some 0
  else if t = tOID then some 12
  else if t = tBool then some 1
  else if t = tInt then some 4
  else if t = tRegex then
    some (cstrLen b valOff + 1 + cstrLen b (valOff + cstrLen b valOff + 1) + 1)
  else if t = tDBRef then some (4 + decInt32 b valOff + 12)
  else none

/-- Type byte of the element encoded at `off`. -/
def eltType (b : Buf) (off : Nat) : Nat := byteAt b off

/-- `BSONElement::fieldNameSize()`: name bytes plus the null terminator. -/
def eltFieldNameSize (b : Buf) (off : Nat) : Nat := cstrLen b (off + 1) + 1

/-- The field-name bytes (without terminator) of the element at `off`. -/
def eltName (b : Buf) (off : Nat) : Buf := slice b (off + 1) (cstrLen b (off + 1))

/-- Offset of the first value-payload byte of the element at `off`. -/
def eltValueOff (b : Buf) (off : Nat) : Nat := off + 1 + eltFieldNameSize b off

/-- `BSONElement::valuesize()` of the element at `off`. -/
def eltValueSize (b : Buf) (off : Nat) : Option Nat :=
  payloadSize b (eltType b off) (eltValueOff b off)

/-- `BSONElement::size()`: total encoded size (type byte + name + terminator
+ payload) of the element at `off`; `none` on the terminator or an unknown
type byte. -/
def eltSize (b : Buf) (off : Nat) : Option Nat :=
  if eltType b off = tEOO then none
  else (eltValueSize b off).map (fun vs => 1 + eltFieldNameSize b off + vs)

/-! ### Element records and arena constants (`ElementRep` and friends) -/

/-- `Element::RepIdx` is a `uint32_t`; sentinels below mirror the source. -/
abbrev RepIdx := Nat

/-- The ElementRep for the root element is always zero. -/
def kRootRepIdx : RepIdx := 0

/-- A rep for entries that do not exist (`RepIdx(-1)` in the source). -/
def kInvalidRepIdx : RepIdx := 2 ^ 32 - 1

/-- A rep that points to an unexamined entity (`RepIdx(-2)`). -/
def kOpaqueRepIdx : RepIdx := 2 ^ 32 - 2

/-- The highest valid rep that does not overlap flag values (`RepIdx(-3)`). -/
def kMaxRepIdx : RepIdx := 2 ^ 32 - 3

/-- `Element::ok()`: the rep index denotes a real element. -/
def repOk (i : RepIdx) : Bool := i ≤ kMaxRepIdx

/-- The object index for elements in the leaf heap. -/
def kLeafObjIdx : Nat := 0

/-- Sentinel: no supporting BSONObj (`ObjIdx(-1)` over `uint16_t`). -/
def kInvalidObjIdx : Nat := 2 ^ 16 - 1

/-- An `ElementRep`: location of an element's data plus its topology links.
The C++ packs `serialized`/`array` as bits; we use `Bool` fields. -/
structure ElementRep where
  objIdx : Nat
  serialized : Bool
  array : Bool
  offset : Nat
  siblingLeft : RepIdx
  siblingRight : RepIdx
  childLeft : RepIdx
  childRight : RepIdx
  parent : RepIdx
deriving Repr, DecidableEq

/-- `makeRep()`: the default-initialized record. -/
def makeRep : ElementRep :=
  { objIdx := kInvalidObjIdx, serialized := false, array := false, offset := 0,
    siblingLeft := kInvalidRepIdx, siblingRight := kInvalidRepIdx,
    childLeft := kInvalidRepIdx, childRight := kInvalidRepIdx,
    parent := kInvalidRepIdx }

/-- `canAttach`: the rep is detached from all other elements and may be
added as a child; the root is never attachable. -/
def canAttach (id : RepIdx) (rep : ElementRep) : Bool :=
  id ≠ kRootRepIdx ∧ rep.siblingLeft = kInvalidRepIdx ∧
    rep.siblingRight = kInvalidRepIdx ∧ rep.parent = kInvalidRepIdx

/-- The recoverable `IllegalOperation` error kinds raised by the source. -/
inductive ErrKind where
  | danglingLeftSibling
  | danglingRightSibling
  | danglingParent
  | cannotAttachRoot
  | siblingOfParentless
  | removeParentless
  | addChildToLeaf
  | setValueRoot
deriving Repr, DecidableEq

/-- Operation outcome: `Status::OK()` or an `IllegalOperation` kind. -/
abbrev OpStatus := Except ErrKind Unit

/-- `getAttachmentError`: why `canAttach` returned false, checking the
conditions in the source's order. -/
def getAttachmentError (rep : ElementRep) : ErrKind :=
  if rep.siblingLeft ≠ kInvalidRepIdx then .danglingLeftSibling
  else if rep.siblingRight ≠ kInvalidRepIdx then .danglingRightSibling
  else if rep.parent ≠ kInvalidRepIdx then .danglingParent
  else .cannotAttachRoot

/-- A damage event: copy `size` bytes from the leaf-builder buffer at
`sourceOffset` to the original input buffer at `targetOffset`. -/
structure DamageEvent where
  targetOffset : Nat
  sourceOffset : Nat
  size : Nat
deriving Repr, DecidableEq

/-! ### `Document::Impl` state -/

/-- The document state: elements vector, objects vector, field-name heap,
the element bytes accumulated in the leaf builder (after the builder's
4-byte length prefix), and the damage queue (`none` once in-place updates
are disabled). -/
structure Impl where
  elements : List ElementRep
  objects : List Buf
  fieldNames : Buf
  leafElts : Buf
  damages : Option (List DamageEvent)
deriving Repr, DecidableEq

/-- Modelled from the spec: the leaf builder's `asTempObj()` — the object
framing the element bytes appended so far (`int32` total size, elements,
terminator). -/
def leafTempObj (elts : Buf) : Buf := encInt32 (4 + elts.length + 1) ++ elts ++ [0]

/-- `Impl::Impl(inPlaceMode)`: empty arenas, the leaf builder's (empty)
temp object registered at object id 0, a damage vector iff in-place mode
is enabled. -/
def Impl.mkImpl (inPlaceEnabled : Bool) : Impl :=
  { elements := [], objects := [leafTempObj []], fieldNames := [], leafElts := [],
    damages := if inPlaceEnabled then some [] else none }

/-- `getElementRep`: O(1) lookup (callers guarantee the index is in range;
out of range we return the default record). -/
def Impl.getElementRep (s : Impl) (id : RepIdx) : ElementRep := s.elements.getD id makeRep

/-- Write back one element record (the C++ mutates through the reference
returned by `getElementRep`). -/
def Impl.setElementRep (s : Impl) (id : RepIdx) (r : ElementRep) : Impl :=
  { s with elements := s.elements.set id r }

/-- `insertElement`: append a record, returning its new index. -/
def Impl.insertElement (s : Impl) (rep : ElementRep) : RepIdx × Impl :=
  (s.elements.length, { s with elements := s.elements ++ [rep] })

/-- `getObject`: the BSONObj registered under `objIdx`. -/
def Impl.getObject (s : Impl) (objIdx : Nat) : Buf := s.objects.getD objIdx []

/-- `insertObject`: register a buffer, returning its id. -/
def Impl.insertObject (s : Impl) (o : Buf) : Nat × Impl :=
  (s.objects.length, { s with objects := s.objects ++ [o] })

/-- `insertLeafElement(offset)`: new serialized record pointing into the
leaf builder; the registry entry for object id 0 is refreshed first. -/
def Impl.insertLeafElement (s : Impl) (offset : Nat) : RepIdx × Impl :=
  let rep := { makeRep with objIdx := kLeafObjIdx, serialized := true, offset := offset }
  let s := { s with objects := s.objects.set kLeafObjIdx (leafTempObj s.leafElts) }
  s.insertElement rep

/-- Modelled from the spec: `BSONObjBuilder::append` of one typed element
(type byte, name, terminator, payload bytes). -/
def encodeElt (t : Nat) (name payload : Buf) : Buf := t :: (name ++ [0] ++ payload)

/-- Common body of `Document::makeElementInt` / `Long` / `Double` / `Bool`:
record the builder's current length (`leafRef`), append the encoded
element to the leaf builder, and insert a leaf record at that offset.  The
builder's length counts its 4-byte length prefix. -/
def Impl.makeLeafElt (s : Impl) (t : Nat) (name payload : Buf) : RepIdx × Impl :=
  let leafRef := 4 + s.leafElts.length
  let s := { s with leafElts := s.leafElts ++ encodeElt t name payload }
  s.insertLeafElement leafRef

/-- `insertFieldName` (the private heap primitive): returns the heap length
as the id, appends the name bytes when non-empty, then a null byte. -/
def insertFieldNameHeap (heap name : Buf) : Nat × Buf :=
  (heap.length, heap ++ (if name.isEmpty then [] else name) ++ [0])

/-- `hasValue`: the rep's value is available as a serialized element.  The
root may be marked serialized but has no element representation. -/
def Impl.hasValue (s : Impl) (id : RepIdx) : Bool :=
  if id = kRootRepIdx then false else (s.getElementRep id).serialized

/-- `getType` on a record that is not the root slot (the C++ takes the rep
by reference and address-compares against the root slot; this version is
used where the source passes a temporary record). -/
def Impl.typeOfRep (s : Impl) (rep : ElementRep) : Nat :=
  if rep.serialized ∨ rep.objIdx ≠ kInvalidObjIdx then
    byteAt (s.getObject rep.objIdx) rep.offset
  else if rep.array then tArray else tObject

/-- `getType`, index-based: the root is always an Object. -/
def Impl.getType (s : Impl) (id : RepIdx) : Nat :=
  if id = kRootRepIdx then tObject else s.typeOfRep (s.getElementRep id)

/-- `isLeaf` on a temporary record (not the root slot). -/
def Impl.isLeafRep (s : Impl) (rep : ElementRep) : Bool :=
  s.typeOfRep rep ≠ tObject ∧ s.typeOfRep rep ≠ tArray

/-- `isLeaf`, index-based. -/
def Impl.isLeaf (s : Impl) (id : RepIdx) : Bool :=
  s.getType id ≠ tObject ∧ s.getType id ≠ tArray

/-- `getFieldName`: empty for the root; read from the serialized bytes when
available, otherwise from the field-name heap. -/
def Impl.getFieldNameAt (s : Impl) (id : RepIdx) : Buf :=
  if id = kRootRepIdx then []
  else
    let rep := s.getElementRep id
    if rep.serialized ∨ rep.objIdx ≠ kInvalidObjIdx then
      eltName (s.getObject rep.objIdx) rep.offset
    else
      slice s.fieldNames rep.offset (cstrLen s.fieldNames rep.offset)

/-- `Element::getValue`: the serialized element (buffer, offset) when the
rep has a value, otherwise the empty `BSONElement` (`none`). -/
def Impl.getValueOpt (s : Impl) (id : RepIdx) : Option (Buf × Nat) :=
  if s.hasValue id then
    some (s.getObject (s.getElementRep id).objIdx, (s.getElementRep id).offset)
  else none

/-! ### Lazy materialization -/

/-- `resolveLeftChild(index)`: if the left child is opaque, parse the first
embedded element of the child region (the element's own payload when the
rep has a value, else — for the root — the backing buffer itself), insert
a record for it, and install it as the left child; an empty region sets
both children invalid. -/
def Impl.resolveLeftChild (s : Impl) (index : RepIdx) : RepIdx × Impl :=
  let rep := s.getElementRep index
  if rep.childLeft ≠ kOpaqueRepIdx then (rep.childLeft, s)
  else
    let b := s.getObject rep.objIdx
    let childOff : Nat :=
      if s.hasValue index then eltValueOff b rep.offset + 4 else 4
    if byteAt b childOff ≠ 0 then
      let newRep := { makeRep with
        serialized := true, objIdx := rep.objIdx, offset := childOff,
        parent := index, siblingRight := kOpaqueRepIdx }
      let newRep := if ¬ s.isLeafRep newRep then
          { newRep with childLeft := kOpaqueRepIdx, childRight := kOpaqueRepIdx }
        else newRep
      let (inserted, s) := s.insertElement newRep
      (inserted, s.setElementRep index { (s.getElementRep index) with childLeft := inserted })
    else
      (kInvalidRepIdx, s.setElementRep index
        { rep with childLeft := kInvalidRepIdx, childRight := kInvalidRepIdx })

/-- `resolveRightSibling(index)`: if the right sibling is opaque, parse the
element immediately after ours; on the container terminator, set our right
sibling invalid and install ourselves as the parent's right child; else
insert a record for the sibling.  `none` where `BSONElement::size()` would
abort on an undecodable element. -/
def Impl.resolveRightSibling (s : Impl) (index : RepIdx) : Option (RepIdx × Impl) :=
  let rep := s.getElementRep index
  if rep.siblingRight ≠ kOpaqueRepIdx then some (rep.siblingRight, s)
  else
    let b := s.getObject rep.objIdx
    match eltSize b rep.offset with
    | none => none
    | some sz =>
      let rightOff := rep.offset + sz
      if byteAt b rightOff ≠ 0 then
        let newRep := { makeRep with
          serialized := true, objIdx := rep.objIdx, offset := rightOff,
          parent := rep.parent, siblingLeft := index,
          siblingRight := kOpaqueRepIdx }
        let newRep := if ¬ s.isLeafRep newRep then
            { newRep with childLeft := kOpaqueRepIdx, childRight := kOpaqueRepIdx }
          else newRep
        let (inserted, s) := s.insertElement newRep
        some (inserted,
          s.setElementRep index { (s.getElementRep index) with siblingRight := inserted })
      else
        let s := s.setElementRep index { rep with siblingRight := kInvalidRepIdx }
        let s := s.setElementRep rep.parent
          { (s.getElementRep rep.parent) with childRight := index }
        some (kInvalidRepIdx, s)

/-- The walk in `resolveRightChild`: follow right siblings until the end of
the child list; the last visited index is the right child. -/
def Impl.rightChildWalk : Nat → Impl → RepIdx → Option (RepIdx × Impl)
  | 0, _, _ => none
  | fuel + 1, s, current =>
    if current = kInvalidRepIdx then some (current, s)
    else
      match s.resolveRightSibling current with
      | none => none
      | some (next, s1) =>
        if next = kInvalidRepIdx then some (current, s1)
        else Impl.rightChildWalk fuel s1 next

/-- `resolveRightChild(index)`: resolve an opaque right child by walking the
(resolved) left child's right siblings to the end. -/
def Impl.resolveRightChild (fuel : Nat) (s : Impl) (index : RepIdx) :
    Option (RepIdx × Impl) :=
  let current := (s.getElementRep index).childRight
  if current ≠ kOpaqueRepIdx then some (current, s)
  else
    let r := s.resolveLeftChild index
    Impl.rightChildWalk fuel r.2 r.1

/-- `deserialize(index)`: walk up the parent chain clearing `serialized`
until the root or an already-clear record.  The source's loop terminates by
acyclicity of the parent links; fuel bounds the walk here. -/
def Impl.deserialize : Nat → Impl → RepIdx → Impl
  | 0, s, _ => s
  | fuel + 1, s, index =>
    if index = kInvalidRepIdx then s
    else
      let rep := s.getElementRep index
      if ¬ rep.serialized then s
      else Impl.deserialize fuel (s.setElementRep index { rep with serialized := false })
        rep.parent

/-! ### In-place update machinery -/

/-- `disableInPlaceUpdates`: drop the damage vector. -/
def Impl.disableInPlaceUpdates (s : Impl) : Impl := { s with damages := none }

/-- `isInPlaceModeEnabled`: a damage vector is still allocated. -/
def Impl.isInPlaceModeEnabled (s : Impl) : Bool := s.damages.isSome

/-- `recordDamageEvent`: push one event.  The source dereferences the
damage vector unconditionally and is only called with in-place mode
enabled; with it disabled this model leaves the state unchanged. -/
def Impl.recordDamageEvent (s : Impl) (targetOffset sourceOffset size : Nat) : Impl :=
  { s with damages := s.damages.map (· ++ [⟨targetOffset, sourceOffset, size⟩]) }

/-- The out-parameters of `getInPlaceUpdates`: the returned flag, the damage
vector handed to the caller, and the source pointer/size (`none` models the
null pointer and the size out-parameter being left untouched). -/
structure InPlaceResult where
  ret : Bool
  damages : List DamageEvent
  source : Option Buf
  sourceSize : Option Nat
deriving Repr, DecidableEq

/-- `getInPlaceUpdates(damages, source, size)`: hand over the accumulated
damage and the leaf-builder buffer when in-place mode is still enabled
(resetting the internal queue); otherwise clear the out-vector, null the
source, and return false. -/
def Impl.getInPlaceUpdates (s : Impl) : InPlaceResult × Impl :=
  match s.damages with
  | none => ({ ret := false, damages := [], source := none, sourceSize := none }, s)
  | some d =>
    ({ ret := true, damages := d, source := some (s.getObject 0),
       sourceSize := some (decInt32 (s.getObject 0) 0) },
     { s with damages := some [] })

/-! ### Document construction -/

/-- `Document::Document(value, inPlaceMode)` followed by the root branch of
`makeElementObject(kRootFieldName, value)`: the input buffer is registered
(id 1), the empty root name seeds the field-name heap, the root record is
marked serialized (the useful fiction), and its children are opaque. -/
def Document.mkDoc (value : Buf) (inPlaceEnabled : Bool) : Impl :=
  let s := Impl.mkImpl inPlaceEnabled
  let (objIdx, s) := s.insertObject value
  let (nameOff, heap) := insertFieldNameHeap s.fieldNames []
  let s := { s with fieldNames := heap }
  let rep := { makeRep with objIdx := objIdx, offset := nameOff, serialized := true }
  let (idx, s) := s.insertElement rep
  s.setElementRep idx
    { (s.getElementRep idx) with childLeft := kOpaqueRepIdx, childRight := kOpaqueRepIdx }

/-! ### Topology edits -/

/-- `Element::addSiblingLeft(e)`: check attachability and that we have a
parent, disable in-place updates, and wire the new element in to our left,
updating the parent's left child if needed.  On the error paths the state
is returned unchanged (the source returns before mutating). -/
def Impl.addSiblingLeft (s : Impl) (thisIdx eIdx : RepIdx) : OpStatus × Impl :=
  let newRep := s.getElementRep eIdx
  if ¬ canAttach eIdx newRep then (.error (getAttachmentError newRep), s)
  else
    let thisRep := s.getElementRep thisIdx
    if thisRep.parent = kInvalidRepIdx then (.error .siblingOfParentless, s)
    else
      let s := s.disableInPlaceUpdates
      let newRep := { newRep with
        parent := thisRep.parent, siblingRight := thisIdx,
        siblingLeft := thisRep.siblingLeft }
      let s := s.setElementRep eIdx newRep
      let s := if newRep.siblingLeft ≠ kInvalidRepIdx then
          s.setElementRep thisRep.siblingLeft
            { (s.getElementRep thisRep.siblingLeft) with siblingRight := eIdx }
        else s
      let s := s.setElementRep thisIdx
        { (s.getElementRep thisIdx) with siblingLeft := eIdx }
      let s := if (s.getElementRep thisRep.parent).childLeft = thisIdx then
          s.setElementRep thisRep.parent
            { (s.getElementRep thisRep.parent) with childLeft := eIdx }
        else s
      (.ok (), s.deserialize s.elements.length thisRep.parent)

/-- `Element::addSiblingRight(e)`: like `addSiblingLeft` mirrored, but an
opaque right sibling is resolved first. -/
def Impl.addSiblingRight (s : Impl) (thisIdx eIdx : RepIdx) :
    Option (OpStatus × Impl) :=
  let newRep := s.getElementRep eIdx
  if ¬ canAttach eIdx newRep then some (.error (getAttachmentError newRep), s)
  else
    let thisRep := s.getElementRep thisIdx
    if thisRep.parent = kInvalidRepIdx then some (.error .siblingOfParentless, s)
    else
      let s := s.disableInPlaceUpdates
      let step : Option (RepIdx × Impl) :=
        if thisRep.siblingRight = kOpaqueRepIdx then s.resolveRightSibling thisIdx
        else some (thisRep.siblingRight, s)
      match step with
      | none => none
      | some (rightSiblingIdx, s) =>
        let thisRep := s.getElementRep thisIdx
        let newRep := s.getElementRep eIdx
        let newRep := { newRep with
          parent := thisRep.parent, siblingLeft := thisIdx,
          siblingRight := rightSiblingIdx }
        let s := s.setElementRep eIdx newRep
        let s := s.setElementRep thisIdx
          { (s.getElementRep thisIdx) with siblingRight := eIdx }
        let s := if rightSiblingIdx ≠ kInvalidRepIdx then
            s.setElementRep rightSiblingIdx
              { (s.getElementRep rightSiblingIdx) with siblingLeft := eIdx }
          else s
        let s := if (s.getElementRep thisRep.parent).childRight = thisIdx then
            s.setElementRep thisRep.parent
              { (s.getElementRep thisRep.parent) with childRight := eIdx }
          else s
        some (.ok (), s.deserialize s.elements.length thisRep.parent)

/-- `Element::remove()`: resolve our (possibly opaque) right sibling, fail
on a parentless element, otherwise unlink ourselves from siblings and
parent, mark the parent dirty, and clear our own topology to detached. -/
def Impl.removeOp (s : Impl) (idx : RepIdx) : Option (OpStatus × Impl) :=
  match s.resolveRightSibling idx with
  | none => none
  | some (_, s) =>
    let thisRep := s.getElementRep idx
    if thisRep.parent = kInvalidRepIdx then some (.error .removeParentless, s)
    else
      let s := s.disableInPlaceUpdates
      let s := if thisRep.siblingRight ≠ kInvalidRepIdx then
          s.setElementRep thisRep.siblingRight
            { (s.getElementRep thisRep.siblingRight) with siblingLeft := thisRep.siblingLeft }
        else s
      let s := if thisRep.siblingLeft ≠ kInvalidRepIdx then
          s.setElementRep thisRep.siblingLeft
            { (s.getElementRep thisRep.siblingLeft) with siblingRight := thisRep.siblingRight }
        else s
      let s := if (s.getElementRep thisRep.parent).childRight = idx then
          s.setElementRep thisRep.parent
            { (s.getElementRep thisRep.parent) with childRight := thisRep.siblingLeft }
        else s
      let s := if (s.getElementRep thisRep.parent).childLeft = idx then
          s.setElementRep thisRep.parent
            { (s.getElementRep thisRep.parent) with childLeft := thisRep.siblingRight }
        else s
      let s := s.deserialize s.elements.length thisRep.parent
      let s := s.setElementRep idx
        { (s.getElementRep idx) with
          parent := kInvalidRepIdx, siblingLeft := kInvalidRepIdx,
          siblingRight := kInvalidRepIdx }
      some (.ok (), s)

/-- `Element::addChild(e, front)`: fail unless `e` is attachable and this
element can hold children; disable in-place updates; then delegate to a
sibling insertion next to the resolved left/right child, or — with no
children — install `e` as both children directly. -/
def Impl.addChild (fuel : Nat) (s : Impl) (thisIdx eIdx : RepIdx) (front : Bool) :
    Option (OpStatus × Impl) :=
  let newRep := s.getElementRep eIdx
  if ¬ canAttach eIdx newRep then some (.error (getAttachmentError newRep), s)
  else if s.isLeaf thisIdx then some (.error .addChildToLeaf, s)
  else
    let s := s.disableInPlaceUpdates
    let branch : Option (Option (OpStatus × Impl) × Impl) :=
      if front then
        let r := s.resolveLeftChild thisIdx
        if repOk r.1 then some (some (r.2.addSiblingLeft r.1 eIdx), r.2)
        else some (none, r.2)
      else
        match s.resolveRightChild fuel thisIdx with
        | none => none
        | some (rc, s) =>
          if repOk rc then
            match s.addSiblingRight rc eIdx with
            | none => none
            | some r => some (some r, s)
          else some (none, s)
    match branch with
    | none => none
    | some (some r, _) => some r
    | some (none, s) =>
      let thisRep := s.getElementRep thisIdx
      let s := s.setElementRep thisIdx
        { thisRep with childLeft := eIdx, childRight := eIdx }
      let s := s.setElementRep eIdx
        { (s.getElementRep eIdx) with parent := thisIdx }
      some (.ok (), s.deserialize s.elements.length thisIdx)

/-- Modelled from the spec: `push_front(e)` forwards to `addChild(e, true)`
(the forwarding wrappers live in the header, outside this file's source). -/
def Impl.pushFront (fuel : Nat) (s : Impl) (thisIdx eIdx : RepIdx) :
    Option (OpStatus × Impl) :=
  Impl.addChild fuel s thisIdx eIdx true

/-- Modelled from the spec: `push_back(e)` forwards to `addChild(e, false)`. -/
def Impl.pushBack (fuel : Nat) (s : Impl) (thisIdx eIdx : RepIdx) :
    Option (OpStatus × Impl) :=
  Impl.addChild fuel s thisIdx eIdx false

/-! ### Value replacement -/

/-- `Element::setValue(value, inPlace)`: refuse on the root; otherwise
disable in-place updates when the caller was not eligible, resolve our
right sibling, wire the replacement into our topology slots, copy its
record over ours, clear the donor record, and mark the parent dirty. -/
def Impl.setValueOp (s0 : Impl) (idx valueIdx : RepIdx) (inPlace : Bool) :
    Option (OpStatus × Impl) :=
  if idx = kRootRepIdx then some (.error .setValueRoot, s0)
  else
    let s := if ¬ inPlace then s0.disableInPlaceUpdates else s0
    match s.resolveRightSibling idx with
    | none => none
    | some (_, s) =>
      let thisRep := s.getElementRep idx
      let valueRep := s.getElementRep valueIdx
      let valueRep := if thisRep.parent ≠ kInvalidRepIdx then
          { valueRep with
            parent := thisRep.parent, siblingLeft := thisRep.siblingLeft,
            siblingRight := thisRep.siblingRight }
        else valueRep
      let s := s.setElementRep idx valueRep
      let s := s.setElementRep valueIdx makeRep
      let s := s.deserialize s.elements.length valueRep.parent
      some (.ok (), s)

/-- Common body of `Element::setValueInt` / `setValueLong` /
`setValueDouble` / `setValueBool` (the source repeats this logic verbatim
per type; `t` is the new element's type byte and `payload` its encoded
value bytes).  With in-place mode enabled, a serialized target outside the
leaf heap, and size-compatible old and new elements, damage events are
recorded (an extra 1-byte event on a type change, then the value bytes)
and the replacement is spliced in with `inPlace = true`; otherwise the
replacement goes through the ordinary `setValue` path. -/
def Impl.setValueFixed (s : Impl) (idx : RepIdx) (t : Nat) (payload : Buf) :
    Option (OpStatus × Impl) :=
  let thisRep := s.getElementRep idx
  if s.isInPlaceModeEnabled then
    let inLeafHeap := thisRep.objIdx = kLeafObjIdx
    let hv := s.hasValue idx
    if hv ∧ ¬ inLeafHeap then
      let fieldName := s.getFieldNameAt idx
      let newIdx := (s.makeLeafElt t fieldName payload).1
      let s1 := (s.makeLeafElt t fieldName payload).2
      let thisRep1 := s1.getElementRep idx
      let newRep := s1.getElementRep newIdx
      let b := s1.getObject thisRep1.objIdx
      let nb := s1.getObject newRep.objIdx
      match eltSize b thisRep1.offset, eltSize nb newRep.offset,
          eltValueSize b thisRep1.offset with
      | some thisSz, some newSz, some vs =>
        if thisSz = newSz then
          let targetBase := thisRep1.offset
          let sourceBase := newRep.offset
          let s2 := if eltType b thisRep1.offset ≠ eltType nb newRep.offset then
              s1.recordDamageEvent targetBase sourceBase 1
            else s1
          let s3 := s2.recordDamageEvent
            (targetBase + eltFieldNameSize b thisRep1.offset + 1)
            (sourceBase + eltFieldNameSize b thisRep1.offset + 1) vs
          s3.setValueOp idx newIdx true
        else
          s1.setValueOp idx newIdx false
      | _, _, _ => none
    else
      let fieldName := s.getFieldNameAt idx
      let newIdx := (s.makeLeafElt t fieldName payload).1
      let s1 := (s.makeLeafElt t fieldName payload).2
      s1.setValueOp idx newIdx false
  else
    let fieldName := s.getFieldNameAt idx
    let newIdx := (s.makeLeafElt t fieldName payload).1
    let s1 := (s.makeLeafElt t fieldName payload).2
    s1.setValueOp idx newIdx false

/-- `Element::setValueInt(value)` with the value already encoded little
endian (the integer encoder itself is part of the out-of-scope wire-format
layer). -/
def Impl.setValueIntOp (s : Impl) (idx : RepIdx) (value : Nat) :
    Option (OpStatus × Impl) :=
  s.setValueFixed idx tInt (encInt32 (value % 2 ^ 32))

/-- `Element::setValueBool(value)`. -/
def Impl.setValueBoolOp (s : Impl) (idx : RepIdx) (value : Bool) :
    Option (OpStatus × Impl) :=
  s.setValueFixed idx tBool [if value then 1 else 0]

/-! ### Serialization -/

/-- Modelled from the spec: `BSONObjBuilder::obj()` / `done()` framing —
the `int32` total size (4 size bytes + elements + terminator), the element
bytes, the terminator. -/
def objFrame (body : Buf) : Buf := encInt32 (body.length + 5) ++ body ++ [0]

/-- Decimal ASCII digits of `n`: the names a `BSONArrayBuilder` synthesizes
for array children. -/
def decimalBytes (n : Nat) : Buf := (Nat.toDigits 10 n).map Char.toNat

mutual

/-- `Element::writeElement(builder, fieldName)`, fuelled and mutually
recursive with `writeChildren`.  A rep with a value is byte-copied
verbatim (or re-named via `appendAs` when the builder supplies a name); a
dirty container opens a sub-object or sub-array, writes its children left
to right (resolving lazily), and closes it.  Inside an array builder
children are named by a running decimal index. -/
def writeElementF : Nat → Impl → RepIdx → Option Buf → Option (Impl × Buf)
  | 0, _, _, _ => none
  | fuel + 1, s, idx, nameOv =>
    if s.hasValue idx then
      let rep := s.getElementRep idx
      let b := s.getObject rep.objIdx
      match nameOv with
      | none => (eltSize b rep.offset).map (fun sz => (s, slice b rep.offset sz))
      | some nm =>
        match eltValueSize b rep.offset with
        | none => none
        | some vs =>
          some (s, eltType b rep.offset :: (nm ++ [0] ++ slice b (eltValueOff b rep.offset) vs))
    else
      let ty := s.getType idx
      let subName := nameOv.getD (s.getFieldNameAt idx)
      if ty = tArray then
        (writeChildrenF fuel s idx true).map
          (fun r => (r.1, tArray :: (subName ++ [0] ++ objFrame r.2)))
      else if ty = tObject then
        (writeChildrenF fuel s idx false).map
          (fun r => (r.1, tObject :: (subName ++ [0] ++ objFrame r.2)))
      else none

/-- The child loop of `writeChildren`: start from the resolved left child
and walk right siblings, appending each child's bytes. -/
def writeChildrenF : Nat → Impl → RepIdx → Bool → Option (Impl × Buf)
  | 0, _, _, _ => none
  | fuel + 1, s, idx, arrayMode =>
    let r := s.resolveLeftChild idx
    writeLoopF fuel r.2 r.1 arrayMode 0

/-- One iteration of the `writeChildren` while-loop. -/
def writeLoopF : Nat → Impl → RepIdx → Bool → Nat → Option (Impl × Buf)
  | 0, _, _, _, _ => none
  | fuel + 1, s, cur, arrayMode, counter =>
    if ¬ repOk cur then some (s, [])
    else
      match writeElementF fuel s cur
          (if arrayMode then some (decimalBytes counter) else none) with
      | none => none
      | some (s1, bytes) =>
        match s1.resolveRightSibling cur with
        | none => none
        | some (next, s2) =>
          (writeLoopF fuel s2 next arrayMode (counter + 1)).map
            (fun r => (r.1, bytes ++ r.2))

end

/-- `Element::writeTo(builder)` on element `idx`: the root embeds its
children directly (no name, no type byte); any other Object element is
written as an ordinary element. -/
def writeToF (fuel : Nat) (s : Impl) (idx : RepIdx) : Option (Impl × Buf) :=
  if s.getType idx ≠ tObject then none
  else if (s.getElementRep idx).parent = kInvalidRepIdx ∧ idx = kRootRepIdx then
    writeChildrenF fuel s idx false
  else
    writeElementF fuel s idx none

/-- Serialize a whole document: `BSONObjBuilder b; doc.root().writeTo(&b);
b.obj()` — the children bytes wrapped in the builder's object framing. -/
def serializeDoc (fuel : Nat) (s : Impl) : Option (Impl × Buf) :=
  (writeToF fuel s kRootRepIdx).map (fun r => (r.1, objFrame r.2))

/-! ### Well-formed input buffers (for the round-trip property) -/

/-- The bytes of `B` from offset `o` up to `stop` decompose into encoded
elements of the given sizes. -/
def tilesB (B : Buf) : Nat → Nat → List Nat → Bool
  | o, stop, [] => o == stop
  | o, stop, sz :: rest => (eltSize B o == some sz) && tilesB B (o + sz) stop rest

/-- The `int32` total-size prefix of a wire-format buffer. -/
def totalSizeOf (B : Buf) : Nat := decInt32 B 0

/-- A well-formed wire-format buffer, witnessed by the sizes of its
top-level elements: byte-valued entries, a sane total-size prefix (within
`int32` range and covered by the buffer), the element tiling, and the
terminator byte. -/
def wfBson (B : Buf) (sizes : List Nat) : Bool :=
  B.all (· < 256) && decide (5 ≤ totalSizeOf B) &&
    decide (totalSizeOf B ≤ B.length) && decide (B.length < 2 ^ 31) &&
    tilesB B 4 (totalSizeOf B - 1) sizes && (byteAt B (totalSizeOf B - 1) == 0)

/-! ### Fixed-size replacement values (for the in-place `setValue` family) -/

/-- The `(type byte, payload)` combinations produced by the four in-place
capable `setValue` operations: `setValueInt`, `setValueLong`,
`setValueDouble`, `setValueBool`. -/
def FixedSized (t : Nat) (payload : Buf) : Prop :=
  (t = tInt ∧ payload.length = 4) ∨ (t = tLong ∧ payload.length = 8) ∨
    (t = tDouble ∧ payload.length = 8) ∨ (t = tBool ∧ payload.length = 1)

/-! ### Tree operations as a reified type (for the monotone-disable claim) -/

/-- One call of the outward API (or of the internal materializer) on the
tree, with its arguments. -/
inductive DocOp where
  | disableInPlace
  | getUpdates
  | siblingLeft (t e : RepIdx)
  | siblingRight (t e : RepIdx)
  | child (fuel : Nat) (t e : RepIdx) (front : Bool)
  | removeElt (i : RepIdx)
  | setFixed (i : RepIdx) (t : Nat) (payload : Buf)
  | resolveLC (i : RepIdx)
  | resolveRS (i : RepIdx)
  | makeLeaf (t : Nat) (name payload : Buf)
  | writeOut (fuel : Nat) (i : RepIdx)
deriving Repr, DecidableEq

/-- Apply one operation to the state, keeping the state component of the
result (operations whose model aborts leave the state unchanged). -/
def applyDocOp (s : Impl) : DocOp → Impl
  | .disableInPlace => s.disableInPlaceUpdates
  | .getUpdates => (s.getInPlaceUpdates).2
  | .siblingLeft t e => (s.addSiblingLeft t e).2
  | .siblingRight t e => match s.addSiblingRight t e with
    | none => s
    | some r => r.2
  | .child fuel t e front => match Impl.addChild fuel s t e front with
    | none => s
    | some r => r.2
  | .removeElt i => match s.removeOp i with
    | none => s
    | some r => r.2
  | .setFixed i t payload => match s.setValueFixed i t payload with
    | none => s
    | some r => r.2
  | .resolveLC i => (s.resolveLeftChild i).2
  | .resolveRS i => match s.resolveRightSibling i with
    | none => s
    | some r => r.2
  | .makeLeaf t name payload => (s.makeLeafElt t name payload).2
  | .writeOut fuel i => match writeToF fuel s i with
    | none => s
    | some r => r.1

/-- Apply a sequence of operations left to right. -/
def applyDocOps (s : Impl) (ops : List DocOp) : Impl := ops.foldl applyDocOp s

/-! ### Denotational values and comparison -/

mutual

/-- A parsed wire-format value: a primitive leaf (type byte plus payload
bytes) or a container with named children. -/
inductive BVal where
  | prim (t : Nat) (value : Buf)
  | cont (isArray : Bool) (children : BEntries)
deriving Repr, DecidableEq

/-- The (name, value) entries of a container. -/
inductive BEntries where
  | nil
  | cons (name : Buf) (v : BVal) (rest : BEntries)
deriving Repr, DecidableEq

end

/-- The wire-format type byte a value presents. -/
def BVal.typeOf : BVal → Nat
  | .prim t _ => t
  | .cont ar _ => if ar then tArray else tObject

/-- Modelled from the spec: `canonicalizeBSONType` — the canonical type
order used by native comparison. -/
def canonType (t : Nat) : Int :=
  if t = tMinKey then -1
  else if t = tEOO ∨ t = tUndefined then 0
  else if t = tNull then 5
  else if t = tDouble ∨ t = tInt ∨ t = tLong then 10
  else if t = tString ∨ t = tSymbol then 15
  else if t = tObject then 20
  else if t = tArray then 25
  else if t = tBinData then 30
  else if t = tOID then 35
  else if t = tBool then 40
  else if t = tDate ∨ t = tTimestamp then 45
  else if t = tRegex then 50
  else if t = tDBRef then 55
  else if t = tCode then 60
  else if t = tCodeWScope then 65
  else if t = tMaxKey then 127
  else 0

/-- Modelled from the spec: `StringData::compare` / raw byte comparison —
lexicographic on bytes, shorter side less. -/
def lexBytes : Buf → Buf → Int
  | [], [] => 0
  | [], _ :: _ => -1
  | _ :: _, [] => 1
  | a :: as, b :: bs => if a < b then -1 else if b < a then 1 else lexBytes as bs

mutual

/-- Modelled from the spec: the value part of native comparison —
primitive payload bytes lexicographically; containers child by child,
ignoring child names when both sides are arrays. -/
def valueCompare : BVal → BVal → Int
  | .prim _ a, .prim _ b => lexBytes a b
  | .cont ar1 ch1, .cont ar2 ch2 => entriesCompare (¬ ar1 ∧ ¬ ar2) ch1 ch2
  | .prim _ _, .cont _ _ => 0
  | .cont _ _, .prim _ _ => 0

/-- Modelled from the spec: lockstep comparison of two child lists; a
length mismatch makes the shorter side less.  Each entry pair compares
canonical type order, then the field name if requested, then the value
(the per-entry logic is inlined here so the mutual recursion is
structural; `entryCompare` below is the same logic as a standalone
function). -/
def entriesCompare (consider : Bool) : BEntries → BEntries → Int
  | .nil, .nil => 0
  | .nil, .cons _ _ _ => -1
  | .cons _ _ _, .nil => 1
  | .cons n1 v1 r1, .cons n2 v2 r2 =>
    let d := canonType v1.typeOf - canonType v2.typeOf
    let r := if d ≠ 0 then d
      else if consider ∧ lexBytes n1 n2 ≠ 0 then lexBytes n1 n2
      else valueCompare v1 v2
    if r ≠ 0 then r else entriesCompare consider r1 r2

end

/-- Modelled from the spec: native comparison of one named value against
another — canonical type order, then the field name if requested, then the
value. -/
def entryCompare (consider : Bool) (n1 : Buf) (v1 : BVal) (n2 : Buf) (v2 : BVal) : Int :=
  let d := canonType v1.typeOf - canonType v2.typeOf
  if d ≠ 0 then d
  else if consider ∧ lexBytes n1 n2 ≠ 0 then lexBytes n1 n2
  else valueCompare v1 v2

mutual

/-- Parse the value of the element encoded at `(b, off)` into a `BVal`. -/
def parseVal : Nat → Buf → Nat → Option BVal
  | 0, _, _ => none
  | fuel + 1, b, off =>
    let t := eltType b off
    if t = tObject ∨ t = tArray then
      (parseEntries fuel b (eltValueOff b off + 4)).map (fun es => .cont (t = tArray) es)
    else if t = tEOO then none
    else
      match eltValueSize b off with
      | none => none
      | some vs => some (.prim t (slice b (eltValueOff b off) vs))

/-- Parse the elements of a container body starting at `off` up to the
terminator byte. -/
def parseEntries : Nat → Buf → Nat → Option BEntries
  | 0, _, _ => none
  | fuel + 1, b, off =>
    if byteAt b off = 0 then some .nil
    else
      match eltSize b off with
      | none => none
      | some sz =>
        match parseVal fuel b off, parseEntries fuel b (off + sz) with
        | some v, some rest => some (.cons (eltName b off) v rest)
        | _, _ => none

end

mutual

/-- The value a rep denotes: parse its serialized bytes when it has a
value; otherwise (a dirty container, or the root) collect its children.
`none` on opaque links, undecodable bytes, or fuel exhaustion — i.e. the
denotation is defined exactly on fully materialized, decodable subtrees. -/
def denoteIdx : Nat → Impl → RepIdx → Option BVal
  | 0, _, _ => none
  | fuel + 1, s, i =>
    if s.hasValue i then
      parseVal fuel (s.getObject (s.getElementRep i).objIdx) (s.getElementRep i).offset
    else
      let t := s.getType i
      if t = tObject ∨ t = tArray then
        (denoteChildren fuel s (s.getElementRep i).childLeft).map
          (fun es => .cont (t = tArray) es)
      else none

/-- Denote the sibling chain starting at `i` as container entries. -/
def denoteChildren : Nat → Impl → RepIdx → Option BEntries
  | 0, _, _ => none
  | fuel + 1, s, i =>
    if i = kInvalidRepIdx then some .nil
    else if ¬ repOk i then none
    else
      match denoteIdx fuel s i,
          denoteChildren fuel s (s.getElementRep i).siblingRight with
      | some v, some rest => some (.cons (s.getFieldNameAt i) v rest)
      | _, _ => none

end

/-- Modelled from the spec: `BSONElement::woCompare` — native comparison
of two serialized elements, via their parsed values. -/
def woCompareF (fuel : Nat) (consider : Bool) (b : Buf) (off : Nat) (b2 : Buf)
    (off2 : Nat) : Option Int :=
  match parseVal fuel b off, parseVal fuel b2 off2 with
  | some v1, some v2 =>
    some (entryCompare consider (eltName b off) v1 (eltName b2 off2) v2)
  | _, _ => none

mutual

/-- `Element::compareWithElement(other, considerFieldName)` for two
elements of the same document, fuelled.  A side with a value delegates to
native comparison (negated when it is the left side); two dirty containers
compare canonical types, then names, then children in lockstep (ignoring
child names when both are arrays). -/
def cmpElemsF : Nat → Impl → RepIdx → RepIdx → Bool → Option (Int × Impl)
  | 0, _, _, _, _ => none
  | fuel + 1, s, a, b, consider =>
    if a = b then some (0, s)
    else if s.hasValue a then
      (cmpWithEltF fuel s b (s.getObject (s.getElementRep a).objIdx)
          (s.getElementRep a).offset consider).map (fun r => (-r.1, r.2))
    else if s.hasValue b then
      cmpWithEltF fuel s a (s.getObject (s.getElementRep b).objIdx)
        (s.getElementRep b).offset consider
    else
      let d := canonType (s.getType a) - canonType (s.getType b)
      if d ≠ 0 then some (d, s)
      else if consider ∧ lexBytes (s.getFieldNameAt a) (s.getFieldNameAt b) ≠ 0 then
        some (lexBytes (s.getFieldNameAt a) (s.getFieldNameAt b), s)
      else
        let cc : Bool := s.getType a ≠ tArray ∧ s.getType b ≠ tArray
        let ra := s.resolveLeftChild a
        let rb := ra.2.resolveLeftChild b
        cmpWalkF fuel rb.2 ra.1 rb.1 cc

/-- `Element::compareWithBSONElement(other, considerFieldName)`. -/
def cmpWithEltF : Nat → Impl → RepIdx → Buf → Nat → Bool → Option (Int × Impl)
  | 0, _, _, _, _, _ => none
  | fuel + 1, s, a, b2, off2, consider =>
    if s.hasValue a then
      (woCompareF fuel consider (s.getObject (s.getElementRep a).objIdx)
          (s.getElementRep a).offset b2 off2).map (fun r => (r, s))
    else
      let d := canonType (s.getType a) - canonType (eltType b2 off2)
      if d ≠ 0 then some (d, s)
      else if consider ∧ lexBytes (s.getFieldNameAt a) (eltName b2 off2) ≠ 0 then
        some (lexBytes (s.getFieldNameAt a) (eltName b2 off2), s)
      else
        let cc : Bool := s.getType a ≠ tArray ∧ eltType b2 off2 ≠ tArray
        let ra := s.resolveLeftChild a
        cmpObjWalkF fuel ra.2 ra.1 b2 (eltValueOff b2 off2 + 4) cc

/-- The lockstep child walk of `compareWithElement`. -/
def cmpWalkF : Nat → Impl → RepIdx → RepIdx → Bool → Option (Int × Impl)
  | 0, _, _, _, _ => none
  | fuel + 1, s, i, j, consider =>
    if ¬ repOk i then some (if ¬ repOk j then 0 else -1, s)
    else if ¬ repOk j then some (1, s)
    else
      match cmpElemsF fuel s i j consider with
      | none => none
      | some (r, s) =>
        if r ≠ 0 then some (r, s)
        else
          match s.resolveRightSibling i with
          | none => none
          | some (i2, s) =>
            match s.resolveRightSibling j with
            | none => none
            | some (j2, s) => cmpWalkF fuel s i2 j2 consider

/-- `Element::compareWithBSONObj(other, considerFieldName)`: walk our
children against the iterator over a serialized object body. -/
def cmpObjWalkF : Nat → Impl → RepIdx → Buf → Nat → Bool → Option (Int × Impl)
  | 0, _, _, _, _, _ => none
  | fuel + 1, s, i, b2, off2, consider =>
    if ¬ repOk i then some (if byteAt b2 off2 = 0 then 0 else -1, s)
    else if byteAt b2 off2 = 0 then some (1, s)
    else
      match cmpWithEltF fuel s i b2 off2 consider with
      | none => none
      | some (r, s) =>
        if r ≠ 0 then some (r, s)
        else
          match eltSize b2 off2 with
          | none => none
          | some sz =>
            match s.resolveRightSibling i with
            | none => none
            | some (i2, s) => cmpObjWalkF fuel s i2 b2 (off2 + sz) consider

end

mutual

/-- Well-formed parsed values: a primitive never carries the Object or
Array type byte (`parseVal` builds containers for those).  The
comparison-order results are stated over this invariant. -/
def wfVal : BVal → Bool
  | .prim t _ => t ≠ tObject ∧ t ≠ tArray
  | .cont _ ch => wfEntries ch

/-- Every entry value of the list is well formed. -/
def wfEntries : BEntries → Bool
  | .nil => true
  | .cons _ v r => wfVal v && wfEntries r

end

mutual

/-- Structural size of a parsed value — the induction measure for the
comparison-order results. -/
def sizeVal : BVal → Nat
  | .prim _ _ => 1
  | .cont _ ch => sizeEntries ch + 1

/-- Structural size of an entry list. -/
def sizeEntries : BEntries → Nat
  | .nil => 1
  | .cons _ v r => sizeVal v + sizeEntries r + 1

end

/-! ## Supporting lemmas -/

theorem getRep_set_self (s : Impl) (i : RepIdx) (r : ElementRep)
    (h : i < s.elements.length) : (s.setElementRep i r).getElementRep i = r := by
  simp [Impl.setElementRep, Impl.getElementRep, List.getD, List.getElem?_set_self', h]

theorem getRep_set_other (s : Impl) (i j : RepIdx) (r : ElementRep) (h : i ≠ j) :
    (s.setElementRep i r).getElementRep j = s.getElementRep j := by
  simp [Impl.setElementRep, Impl.getElementRep, List.getD, List.getElem?_set_ne, h]

theorem getRep_out_of_range (s : Impl) (i : RepIdx) (h : s.elements.length ≤ i) :
    s.getElementRep i = makeRep := by
  simp [Impl.getElementRep, List.getD, List.getElem?_eq_none h]

theorem siblingRight_opaque_lt_length (s : Impl) (i : RepIdx)
    (h : (s.getElementRep i).siblingRight = kOpaqueRepIdx) : i < s.elements.length := by
  rcases Nat.lt_or_ge i s.elements.length with h1 | h1
  · exact h1
  · rw [getRep_out_of_range s i h1] at h
    simp [makeRep, kInvalidRepIdx, kOpaqueRepIdx] at h

theorem childLeft_opaque_lt_length (s : Impl) (i : RepIdx)
    (h : (s.getElementRep i).childLeft = kOpaqueRepIdx) : i < s.elements.length := by
  rcases Nat.lt_or_ge i s.elements.length with h1 | h1
  · exact h1
  · rw [getRep_out_of_range s i h1] at h
    simp [makeRep, kInvalidRepIdx, kOpaqueRepIdx] at h

theorem getRep_insert_lt (s : Impl) (r : ElementRep) (i : RepIdx)
    (h : i < s.elements.length) :
    ((s.insertElement r).2).getElementRep i = s.getElementRep i := by
  simp [Impl.insertElement, Impl.getElementRep, List.getD,
    List.getElem?_append_left h]

/-! ## C10: the root exposes no value -/

/-- C10: for every tree state, the root handle has no value, yields the
empty `BSONElement`, the empty field name, and type Object — even though
its record is marked serialized. -/
theorem c10_root_exposes_no_value (s : Impl) :
    s.hasValue kRootRepIdx = false ∧ s.getValueOpt kRootRepIdx = none ∧
      s.getFieldNameAt kRootRepIdx = [] ∧ s.getType kRootRepIdx = tObject := by
  refine ⟨?_, ?_, ?_, ?_⟩ <;>
    simp [Impl.hasValue, Impl.getValueOpt, Impl.getFieldNameAt, Impl.getType]

/-! ## C8: the field-name heap -/

/-- C8 counterexample: after the root's empty name (seeding offset 0) and
one name "a" have been inserted, appending another empty name returns
offset 3, not 0 — refuting "appending an empty name always returns offset
0 regardless of what names were appended earlier". -/
theorem c8_empty_name_not_offset_zero :
    (insertFieldNameHeap
        (insertFieldNameHeap (insertFieldNameHeap [] []).2 [97]).2 []).1 = 3 ∧
      (insertFieldNameHeap
        (insertFieldNameHeap (insertFieldNameHeap [] []).2 [97]).2 []).1 ≠ 0 := by
  decide

/-- C8 (amended): appending a name to the heap appends the name bytes
followed by a null terminator and returns the heap length before the
append — the starting offset of the appended bytes.  (For an empty name a
lone null byte is appended; the returned offset is 0 only for the very
first insertion, which is the root's empty name seeding offset 0.) -/
theorem c8_insert_field_name_amended (heap name : Buf) :
    insertFieldNameHeap heap name = (heap.length, heap ++ name ++ [0]) := by
  unfold insertFieldNameHeap
  rcases name with _ | ⟨x, xs⟩ <;> simp

/-! ## C7: `getInPlaceUpdates` -/

/-- C7: with in-place mode still enabled, `getInPlaceUpdates` moves the
accumulated damage out (leaving the internal log empty), hands out the
leaf-builder buffer and its size, and returns true; with it disabled it
clears the out-vector, nulls the source, and returns false. -/
theorem c7_get_in_place_updates (s : Impl) :
    (s.isInPlaceModeEnabled = true →
      ∃ d, s.damages = some d ∧
        s.getInPlaceUpdates =
          ({ ret := true, damages := d, source := some (s.getObject 0),
             sourceSize := some (decInt32 (s.getObject 0) 0) },
           { s with damages := some [] })) ∧
    (s.isInPlaceModeEnabled = false →
      s.getInPlaceUpdates =
        ({ ret := false, damages := [], source := none, sourceSize := none }, s)) := by
  cases h : s.damages with
  | none =>
    refine ⟨fun hen => ?_, fun _ => ?_⟩
    · simp [Impl.isInPlaceModeEnabled, h] at hen
    · simp [Impl.getInPlaceUpdates, h]
  | some d =>
    refine ⟨fun _ => ⟨d, rfl, ?_⟩, fun hdis => ?_⟩
    · simp [Impl.getInPlaceUpdates, h]
    · simp [Impl.isInPlaceModeEnabled, h] at hdis

/-- C7 witness: the enabled branch at a concrete freshly-constructed
in-place document. -/
theorem c7_witness :
    (Impl.mkImpl true).isInPlaceModeEnabled = true ∧
      ∃ d, (Impl.mkImpl true).damages = some d ∧
        (Impl.mkImpl true).getInPlaceUpdates =
          ({ ret := true, damages := d,
             source := some ((Impl.mkImpl true).getObject 0),
             sourceSize := some (decInt32 ((Impl.mkImpl true).getObject 0) 0) },
           { Impl.mkImpl true with damages := some [] }) :=
  ⟨by decide, (c7_get_in_place_updates (Impl.mkImpl true)).1 (by decide)⟩

/-! ## C6: monotone disabling of in-place mode -/

theorem damages_setElementRep (s : Impl) (i : RepIdx) (r : ElementRep) :
    (s.setElementRep i r).damages = s.damages := rfl

theorem damages_setIf (s : Impl) (c : Prop) [Decidable c] (i : RepIdx) (r : ElementRep) :
    (if c then s.setElementRep i r else s).damages = s.damages := by
  split <;> rfl

theorem damages_resolveLeftChild (s : Impl) (i : RepIdx) :
    ((s.resolveLeftChild i).2).damages = s.damages := by
  unfold Impl.resolveLeftChild
  dsimp only
  split
  · rfl
  · split_ifs <;> rfl

theorem damages_resolveRightSibling {s : Impl} {i r : RepIdx} {s' : Impl}
    (h : s.resolveRightSibling i = some (r, s')) : s'.damages = s.damages := by
  unfold Impl.resolveRightSibling at h
  dsimp only at h
  split at h
  · cases h; rfl
  · split at h
    · simp at h
    · split at h
      · cases h; rfl
      · cases h; rfl

theorem damages_rightChildWalk (fuel : Nat) :
    ∀ {s : Impl} {i r : RepIdx} {s' : Impl},
      Impl.rightChildWalk fuel s i = some (r, s') → s'.damages = s.damages := by
  induction fuel with
  | zero => intro s i r s' h; simp [Impl.rightChildWalk] at h
  | succ n ih =>
    intro s i r s' h
    unfold Impl.rightChildWalk at h
    split at h
    · cases h; rfl
    · split at h
      · simp at h
      · rename_i nxt s1 heq
        have h1 := damages_resolveRightSibling heq
        split at h
        · cases h; exact h1
        · exact (ih h).trans h1

theorem damages_resolveRightChild {fuel : Nat} {s : Impl} {i r : RepIdx} {s' : Impl}
    (h : Impl.resolveRightChild fuel s i = some (r, s')) : s'.damages = s.damages := by
  unfold Impl.resolveRightChild at h
  dsimp only at h
  split at h
  · cases h; rfl
  · exact (damages_rightChildWalk fuel h).trans (damages_resolveLeftChild s i)

theorem damages_deserialize (fuel : Nat) :
    ∀ (s : Impl) (i : RepIdx), (Impl.deserialize fuel s i).damages = s.damages := by
  induction fuel with
  | zero => intro s i; rfl
  | succ n ih =>
    intro s i
    unfold Impl.deserialize
    dsimp only
    split
    · rfl
    · split
      · rfl
      · rw [ih]; rfl

theorem damages_addSiblingLeft_none {s : Impl} (h : s.damages = none) (t e : RepIdx) :
    ((s.addSiblingLeft t e).2).damages = none := by
  unfold Impl.addSiblingLeft
  dsimp only
  split
  · exact h
  · split
    · exact h
    · rw [damages_deserialize, damages_setIf, damages_setElementRep, damages_setIf,
        damages_setElementRep]
      rfl

theorem damages_addSiblingRight_none {s : Impl} (h : s.damages = none) (t e : RepIdx)
    {res : OpStatus} {s' : Impl} (hr : s.addSiblingRight t e = some (res, s')) :
    s'.damages = none := by
  unfold Impl.addSiblingRight at hr
  dsimp only at hr
  split at hr
  · cases hr; exact h
  · split at hr
    · cases hr; exact h
    · split at hr
      · simp at hr
      · rename_i rsi s1 heq
        have h1 : s1.damages = none := by
          split at heq
          · exact damages_resolveRightSibling heq
          · cases heq; rfl
        cases hr
        rw [damages_deserialize, damages_setIf, damages_setIf, damages_setElementRep,
          damages_setElementRep]
        exact h1

theorem damages_removeOp_none {s : Impl} (h : s.damages = none) (i : RepIdx)
    {res : OpStatus} {s' : Impl} (hr : s.removeOp i = some (res, s')) :
    s'.damages = none := by
  unfold Impl.removeOp at hr
  split at hr
  · simp at hr
  · rename_i j1 s1 heq
    have h1 : s1.damages = none := (damages_resolveRightSibling heq).trans h
    dsimp only at hr
    split at hr
    · cases hr; exact h1
    · cases hr
      rw [damages_setElementRep, damages_deserialize, damages_setIf, damages_setIf,
        damages_setIf, damages_setIf]
      rfl

theorem damages_setValueOp_none {s : Impl} (h : s.damages = none) (i v : RepIdx)
    (inPlace : Bool) {res : OpStatus} {s' : Impl}
    (hr : s.setValueOp i v inPlace = some (res, s')) : s'.damages = none := by
  unfold Impl.setValueOp at hr
  dsimp only at hr
  split at hr
  · cases hr; exact h
  · have hbase : (if ¬ inPlace then s.disableInPlaceUpdates else s).damages = none := by
      split <;> [rfl; exact h]
    split at hr
    · simp at hr
    · rename_i j s1 heq
      have h1 : s1.damages = none := (damages_resolveRightSibling heq).trans hbase
      cases hr
      rw [damages_deserialize, damages_setElementRep, damages_setElementRep]
      exact h1

theorem isInPlaceModeEnabled_eq_false {s : Impl} (h : s.damages = none) :
    s.isInPlaceModeEnabled = false := by
  simp [Impl.isInPlaceModeEnabled, h]

theorem damages_makeLeafElt (s : Impl) (t : Nat) (name payload : Buf) :
    ((s.makeLeafElt t name payload).2).damages = s.damages := rfl

theorem damages_setValueFixed_none {s : Impl} (h : s.damages = none) (i : RepIdx)
    (t : Nat) (payload : Buf) {res : OpStatus} {s' : Impl}
    (hr : s.setValueFixed i t payload = some (res, s')) : s'.damages = none := by
  unfold Impl.setValueFixed at hr
  dsimp only at hr
  rw [isInPlaceModeEnabled_eq_false h] at hr
  simp only [Bool.false_eq_true, if_false] at hr
  exact damages_setValueOp_none ((damages_makeLeafElt s t _ payload).trans h) _ _ _ hr

theorem damages_addChild_none {s : Impl} (h : s.damages = none) (fuel : Nat)
    (t e : RepIdx) (front : Bool) {res : OpStatus} {s' : Impl}
    (hr : Impl.addChild fuel s t e front = some (res, s')) : s'.damages = none := by
  unfold Impl.addChild at hr
  dsimp only at hr
  split at hr
  · cases hr; exact h
  · split at hr
    · cases hr; exact h
    · have hd : (s.disableInPlaceUpdates).damages = none := rfl
      cases front with
      | true =>
        simp only [if_true] at hr
        split at hr
        · simp at hr
        · -- branch produced `some (some r, _)`: the addSiblingLeft delegate
          rename_i r sIg heq
          split at heq
          · simp only [Option.some_inj, Prod.mk.injEq] at heq
            obtain ⟨h1, h2⟩ := heq
            subst h1
            rw [Option.some_inj] at hr
            have h3 := congrArg Prod.snd hr
            dsimp only at h3
            rw [← h3]
            exact damages_addSiblingLeft_none
              ((damages_resolveLeftChild _ _).trans hd) _ _
          · simp at heq
        · -- branch produced `some (none, s1)`: the fall-through path
          rename_i s1 heq
          split at heq
          · simp at heq
          · simp only [Option.some_inj, Prod.mk.injEq, true_and] at heq
            cases hr
            rw [damages_deserialize, damages_setElementRep, damages_setElementRep]
            rw [← heq]
            exact (damages_resolveLeftChild _ _).trans hd
      | false =>
        simp only [Bool.false_eq_true, if_false] at hr
        split at hr
        · simp at hr
        · rename_i r sIg heq
          split at heq
          · simp at heq
          · rename_i rc s2 heq2
            have h2 : s2.damages = none := (damages_resolveRightChild heq2).trans hd
            split at heq
            · split at heq
              · simp at heq
              · rename_i rr heq3
                simp only [Option.some_inj, Prod.mk.injEq] at heq
                obtain ⟨h1, _⟩ := heq
                subst h1
                rw [Option.some_inj] at hr
                have h3 := congrArg Prod.snd hr
                dsimp only at h3
                rw [← h3]
                exact damages_addSiblingRight_none h2 _ _ heq3
            · simp at heq
        · rename_i s1 heq
          split at heq
          · simp at heq
          · rename_i rc s2 heq2
            have h2 : s2.damages = none := (damages_resolveRightChild heq2).trans hd
            split at heq
            · split at heq
              · simp at heq
              · simp at heq
            · simp only [Option.some_inj, Prod.mk.injEq, true_and] at heq
              cases hr
              rw [damages_deserialize, damages_setElementRep, damages_setElementRep]
              rw [← heq]
              exact h2

theorem damages_write (fuel : Nat) :
    (∀ {s : Impl} {i : RepIdx} {nm : Option Buf} {r : Impl × Buf},
      writeElementF fuel s i nm = some r → r.1.damages = s.damages) ∧
    (∀ {s : Impl} {i : RepIdx} {am : Bool} {r : Impl × Buf},
      writeChildrenF fuel s i am = some r → r.1.damages = s.damages) ∧
    (∀ {s : Impl} {i : RepIdx} {am : Bool} {c : Nat} {r : Impl × Buf},
      writeLoopF fuel s i am c = some r → r.1.damages = s.damages) := by
  induction fuel with
  | zero =>
    refine ⟨?_, ?_, ?_⟩ <;> intros <;>
      simp_all [writeElementF, writeChildrenF, writeLoopF]
  | succ n ih =>
    obtain ⟨ihE, ihC, ihL⟩ := ih
    refine ⟨?_, ?_, ?_⟩
    · intro s i nm r h
      unfold writeElementF at h
      dsimp only at h
      split at h
      · split at h
        · simp only [Option.map_eq_some'] at h
          obtain ⟨sz, _, hz⟩ := h
          rw [← hz]
        · split at h
          · simp at h
          · cases h; rfl
      · split at h
        · simp only [Option.map_eq_some'] at h
          obtain ⟨p, hp, hz⟩ := h
          rw [← hz]
          show p.1.damages = s.damages
          exact ihC hp
        · split at h
          · simp only [Option.map_eq_some'] at h
            obtain ⟨p, hp, hz⟩ := h
            rw [← hz]
            show p.1.damages = s.damages
            exact ihC hp
          · simp at h
    · intro s i am r h
      unfold writeChildrenF at h
      exact (ihL h).trans (damages_resolveLeftChild s i)
    · intro s i am c r h
      unfold writeLoopF at h
      split at h
      · cases h; rfl
      · split at h
        · simp at h
        · rename_i p hp
          split at h
          · simp at h
          · rename_i nxt s2 hrs
            simp only [Option.map_eq_some'] at h
            obtain ⟨q, hq, hz⟩ := h
            rw [← hz]
            show q.1.damages = s.damages
            exact ((ihL hq).trans (damages_resolveRightSibling hrs)).trans (ihE hp)

theorem damages_writeToF {fuel : Nat} {s : Impl} {i : RepIdx} {r : Impl × Buf}
    (h : writeToF fuel s i = some r) : r.1.damages = s.damages := by
  unfold writeToF at h
  split at h
  · simp at h
  · split at h
    · exact (damages_write fuel).2.1 h
    · exact (damages_write fuel).1 h

/-- Apply one reified operation: a tree with in-place updates already
disabled never re-acquires a damage vector. -/
theorem damages_applyDocOp {s : Impl} (h : s.damages = none) (op : DocOp) :
    (applyDocOp s op).damages = none := by
  cases op with
  | disableInPlace => rfl
  | getUpdates => simp [applyDocOp, Impl.getInPlaceUpdates, h]
  | siblingLeft t e => exact damages_addSiblingLeft_none h t e
  | siblingRight t e =>
    simp only [applyDocOp]
    split
    · exact h
    · rename_i p hp
      obtain ⟨r1, r2⟩ := p
      exact damages_addSiblingRight_none h t e hp
  | child fuel t e front =>
    simp only [applyDocOp]
    split
    · exact h
    · rename_i p hp
      obtain ⟨r1, r2⟩ := p
      exact damages_addChild_none h fuel t e front hp
  | removeElt i =>
    simp only [applyDocOp]
    split
    · exact h
    · rename_i p hp
      obtain ⟨r1, r2⟩ := p
      exact damages_removeOp_none h i hp
  | setFixed i t payload =>
    simp only [applyDocOp]
    split
    · exact h
    · rename_i p hp
      obtain ⟨r1, r2⟩ := p
      exact damages_setValueFixed_none h i t payload hp
  | resolveLC i => exact (damages_resolveLeftChild s i).trans h
  | resolveRS i =>
    simp only [applyDocOp]
    split
    · exact h
    · rename_i p hp
      obtain ⟨r1, r2⟩ := p
      exact (damages_resolveRightSibling hp).trans h
  | makeLeaf t name payload => exact (damages_makeLeafElt s t name payload).trans h
  | writeOut fuel i =>
    simp only [applyDocOp]
    split
    · exact h
    · rename_i p hp
      exact (damages_writeToF hp).trans h

/-- C6: in-place mode is monotonically disabled — once the damage vector
is gone (by `disableInPlaceUpdates`, a structural edit, or an ineligible
`setValue`), every subsequent operation leaves it gone and every
subsequent `getInPlaceUpdates` returns false. -/
theorem c6_monotone_disable (s : Impl) (ops : List DocOp)
    (h : s.isInPlaceModeEnabled = false) :
    (applyDocOps s ops).isInPlaceModeEnabled = false ∧
      ((applyDocOps s ops).getInPlaceUpdates).1.ret = false := by
  have hnone : s.damages = none := by
    cases hd : s.damages with
    | none => rfl
    | some d => rw [Impl.isInPlaceModeEnabled, hd] at h; simp at h
  have main : ∀ ops' s', s'.damages = none → (applyDocOps s' ops').damages = none := by
    intro ops'
    induction ops' with
    | nil => intro s' h'; exact h'
    | cons op rest ih =>
      intro s' h'
      exact ih (applyDocOp s' op) (damages_applyDocOp h' op)
  have hfin := main ops s hnone
  refine ⟨isInPlaceModeEnabled_eq_false hfin, ?_⟩
  rw [Impl.getInPlaceUpdates]
  split
  · rfl
  · rename_i d hd
    rw [hfin] at hd
    cases hd

/-- C6 witness: a concrete tree built in in-place mode, explicitly
disabled, then edited and queried. -/
theorem c6_witness :
    ((Impl.mkImpl true).disableInPlaceUpdates).isInPlaceModeEnabled = false ∧
      ((applyDocOps ((Impl.mkImpl true).disableInPlaceUpdates)
          [.makeLeaf tInt [97] [1, 0, 0, 0], .getUpdates]).isInPlaceModeEnabled = false ∧
        ((applyDocOps ((Impl.mkImpl true).disableInPlaceUpdates)
            [.makeLeaf tInt [97] [1, 0, 0, 0], .getUpdates]).getInPlaceUpdates).1.ret = false) :=
  ⟨by decide,
    c6_monotone_disable ((Impl.mkImpl true).disableInPlaceUpdates)
      [.makeLeaf tInt [97] [1, 0, 0, 0], .getUpdates] (by decide)⟩

/-! ## C3: right-sibling resolution at the end of a child list -/

/-- C3: on a materialized element whose right sibling is opaque, when the
byte just past its encoded element is the container terminator,
`resolveRightSibling` sets the element's right sibling to INVALID,
installs the element as its parent's right child, and returns INVALID —
which is a not-ok handle. -/
theorem c3_resolve_right_sibling_end (s : Impl) (i : RepIdx) (sz : Nat)
    (hp : (s.getElementRep i).parent < s.elements.length)
    (hop : (s.getElementRep i).siblingRight = kOpaqueRepIdx)
    (hsz : eltSize (s.getObject (s.getElementRep i).objIdx)
      (s.getElementRep i).offset = some sz)
    (hterm : byteAt (s.getObject (s.getElementRep i).objIdx)
      ((s.getElementRep i).offset + sz) = 0) :
    ∃ s', s.resolveRightSibling i = some (kInvalidRepIdx, s') ∧
      (s'.getElementRep i).siblingRight = kInvalidRepIdx ∧
      (s'.getElementRep (s.getElementRep i).parent).childRight = i ∧
      repOk kInvalidRepIdx = false := by
  have hlen : i < s.elements.length := siblingRight_opaque_lt_length s i hop
  have hres : s.resolveRightSibling i = some (kInvalidRepIdx,
      (s.setElementRep i
          { (s.getElementRep i) with siblingRight := kInvalidRepIdx }).setElementRep
        (s.getElementRep i).parent
        { ((s.setElementRep i
              { (s.getElementRep i) with
                siblingRight := kInvalidRepIdx }).getElementRep
            (s.getElementRep i).parent) with childRight := i }) := by
    unfold Impl.resolveRightSibling
    dsimp only
    rw [if_neg (by simp [hop]), hsz]
    dsimp only
    rw [if_neg (by simp [hterm])]
  refine ⟨_, hres, ?_, ?_, by decide⟩
  · by_cases hpi : (s.getElementRep i).parent = i
    · rw [hpi, getRep_set_self _ _ _ (by simpa [Impl.setElementRep] using hlen)]
      dsimp only
      rw [getRep_set_self _ _ _ hlen]
    · rw [getRep_set_other _ _ _ _ hpi, getRep_set_self _ _ _ hlen]
  · rw [getRep_set_self _ _ _ (by simpa [Impl.setElementRep] using hp)]

/-- C3 witness: the document built from `{"a": 1}` with its only child
materialized; resolving the child's right sibling hits the terminator. -/
theorem c3_witness :
    ∃ s', (((Document.mkDoc [12, 0, 0, 0, 16, 97, 0, 1, 0, 0, 0, 0]
          true).resolveLeftChild kRootRepIdx).2).resolveRightSibling 1 =
        some (kInvalidRepIdx, s') ∧
      (s'.getElementRep 1).siblingRight = kInvalidRepIdx ∧
      (s'.getElementRep
        ((((Document.mkDoc [12, 0, 0, 0, 16, 97, 0, 1, 0, 0, 0, 0]
            true).resolveLeftChild kRootRepIdx).2).getElementRep 1).parent).childRight = 1 ∧
      repOk kInvalidRepIdx = false :=
  c3_resolve_right_sibling_end
    (((Document.mkDoc [12, 0, 0, 0, 16, 97, 0, 1, 0, 0, 0, 0]
      true).resolveLeftChild kRootRepIdx).2) 1 7
    (by decide) (by decide) (by decide) (by decide)

/-! ## C4: attach operations require a detached non-root element -/

/-- C4: every attach operation (`pushFront`, `pushBack`, `addSiblingLeft`,
`addSiblingRight`) fails — leaving the tree unchanged — whenever the
element is not attachable, with the `IllegalOperation` kind of the first
violated condition (dangling left sibling, dangling right sibling,
dangling parent, then attaching the root); it can succeed only on a
detached non-root element. -/
theorem c4_attach_requires_detached (s : Impl) (p e : RepIdx) (fuel : Nat) :
    (canAttach e (s.getElementRep e) = false →
      s.addSiblingLeft p e = (.error (getAttachmentError (s.getElementRep e)), s) ∧
      s.addSiblingRight p e =
        some (.error (getAttachmentError (s.getElementRep e)), s) ∧
      Impl.pushFront fuel s p e =
        some (.error (getAttachmentError (s.getElementRep e)), s) ∧
      Impl.pushBack fuel s p e =
        some (.error (getAttachmentError (s.getElementRep e)), s)) ∧
    (∀ s' : Impl,
      ((s.addSiblingLeft p e).1 = .ok () ∨
        s.addSiblingRight p e = some (.ok (), s') ∨
        Impl.pushFront fuel s p e = some (.ok (), s') ∨
        Impl.pushBack fuel s p e = some (.ok (), s')) →
      canAttach e (s.getElementRep e) = true) ∧
    ((s.getElementRep e).siblingLeft ≠ kInvalidRepIdx →
      getAttachmentError (s.getElementRep e) = .danglingLeftSibling) ∧
    ((s.getElementRep e).siblingLeft = kInvalidRepIdx →
      (s.getElementRep e).siblingRight ≠ kInvalidRepIdx →
      getAttachmentError (s.getElementRep e) = .danglingRightSibling) ∧
    ((s.getElementRep e).siblingLeft = kInvalidRepIdx →
      (s.getElementRep e).siblingRight = kInvalidRepIdx →
      (s.getElementRep e).parent ≠ kInvalidRepIdx →
      getAttachmentError (s.getElementRep e) = .danglingParent) ∧
    (canAttach e (s.getElementRep e) = false →
      (s.getElementRep e).siblingLeft = kInvalidRepIdx →
      (s.getElementRep e).siblingRight = kInvalidRepIdx →
      (s.getElementRep e).parent = kInvalidRepIdx →
      e = kRootRepIdx ∧ getAttachmentError (s.getElementRep e) = .cannotAttachRoot) := by
  have herr : ∀ h : canAttach e (s.getElementRep e) = false,
      s.addSiblingLeft p e = (.error (getAttachmentError (s.getElementRep e)), s) ∧
      s.addSiblingRight p e =
        some (.error (getAttachmentError (s.getElementRep e)), s) ∧
      Impl.pushFront fuel s p e =
        some (.error (getAttachmentError (s.getElementRep e)), s) ∧
      Impl.pushBack fuel s p e =
        some (.error (getAttachmentError (s.getElementRep e)), s) := by
    intro h
    refine ⟨?_, ?_, ?_, ?_⟩ <;>
      simp [Impl.addSiblingLeft, Impl.addSiblingRight, Impl.pushFront,
        Impl.pushBack, Impl.addChild, h]
  refine ⟨herr, ?_, ?_, ?_, ?_, ?_⟩
  · intro s' hok
    cases hca : canAttach e (s.getElementRep e) with
    | true => rfl
    | false =>
      obtain ⟨h1, h2, h3, h4⟩ := herr hca
      rcases hok with hk | hk | hk | hk
      · rw [h1] at hk; cases hk
      · rw [h2] at hk; simp at hk
      · rw [h3] at hk; simp at hk
      · rw [h4] at hk; simp at hk
  · intro h; simp [getAttachmentError, h]
  · intro h1 h2; simp [getAttachmentError, h1, h2]
  · intro h1 h2 h3; simp [getAttachmentError, h1, h2, h3]
  · intro hca h1 h2 h3
    refine ⟨?_, by simp [getAttachmentError, h1, h2, h3]⟩
    simp [canAttach, h1, h2, h3] at hca
    exact hca

/-- C4 witness: attaching the root of a concrete document fails with
`cannot-attach-root` and leaves the state unchanged. -/
theorem c4_witness :
    (Document.mkDoc [12, 0, 0, 0, 16, 97, 0, 1, 0, 0, 0, 0]
        true).addSiblingLeft 1 kRootRepIdx =
      (.error .cannotAttachRoot,
        Document.mkDoc [12, 0, 0, 0, 16, 97, 0, 1, 0, 0, 0, 0] true) := by
  have h := (c4_attach_requires_detached
    (Document.mkDoc [12, 0, 0, 0, 16, 97, 0, 1, 0, 0, 0, 0] true) 1 kRootRepIdx
    5).1 (by decide)
  have he : getAttachmentError
      ((Document.mkDoc [12, 0, 0, 0, 16, 97, 0, 1, 0, 0, 0, 0]
        true).getElementRep kRootRepIdx) = .cannotAttachRoot := by decide
  rw [he] at h
  exact h.1

/-! ## C5: `remove` -/

theorem length_insertElement (s : Impl) (r : ElementRep) :
    ((s.insertElement r).2).elements.length = s.elements.length + 1 := by
  simp [Impl.insertElement]

theorem resolveRightSibling_resolved (s : Impl) (i : RepIdx)
    (h : (s.getElementRep i).siblingRight ≠ kOpaqueRepIdx) :
    s.resolveRightSibling i = some ((s.getElementRep i).siblingRight, s) := by
  unfold Impl.resolveRightSibling
  dsimp only
  rw [if_pos h]

theorem parent_after_set (t : Impl) (i : RepIdx) (r : ElementRep)
    (hr : r.parent = (t.getElementRep i).parent) :
    ((t.setElementRep i r).getElementRep i).parent = (t.getElementRep i).parent := by
  rcases Nat.lt_or_ge i t.elements.length with hl | hl
  · rw [getRep_set_self _ _ _ hl, hr]
  · rw [getRep_out_of_range _ _ (by simpa [Impl.setElementRep] using hl),
      getRep_out_of_range _ _ hl]

theorem parent_resolveRightSibling {s : Impl} {i r : RepIdx} {s' : Impl}
    (h : s.resolveRightSibling i = some (r, s')) :
    (s'.getElementRep i).parent = (s.getElementRep i).parent := by
  unfold Impl.resolveRightSibling at h
  dsimp only at h
  split at h
  · cases h; rfl
  · rename_i hnop
    have hop : (s.getElementRep i).siblingRight = kOpaqueRepIdx := not_ne_iff.mp hnop
    have hlen : i < s.elements.length := siblingRight_opaque_lt_length s i hop
    split at h
    · simp at h
    · split at h
      · cases h
        refine (parent_after_set _ _ _ ?_).trans
          (congrArg ElementRep.parent (getRep_insert_lt _ _ _ hlen))
        rfl
      · cases h
        by_cases hpi : (s.getElementRep i).parent = i
        · rw [hpi]
          refine (parent_after_set _ _ _ ?_).trans
            ((parent_after_set _ _ _ ?_).trans hpi)
          · rfl
          · exact hpi.symm
        · rw [getRep_set_other _ _ _ _ hpi]
          refine parent_after_set _ _ _ ?_
          rfl

theorem cleared_topology (t : Impl) (idx : RepIdx) :
    ((t.setElementRep idx
        { (t.getElementRep idx) with
          parent := kInvalidRepIdx, siblingLeft := kInvalidRepIdx,
          siblingRight := kInvalidRepIdx }).getElementRep idx).parent = kInvalidRepIdx ∧
    ((t.setElementRep idx
        { (t.getElementRep idx) with
          parent := kInvalidRepIdx, siblingLeft := kInvalidRepIdx,
          siblingRight := kInvalidRepIdx }).getElementRep idx).siblingLeft = kInvalidRepIdx ∧
    ((t.setElementRep idx
        { (t.getElementRep idx) with
          parent := kInvalidRepIdx, siblingLeft := kInvalidRepIdx,
          siblingRight := kInvalidRepIdx }).getElementRep idx).siblingRight = kInvalidRepIdx := by
  rcases Nat.lt_or_ge idx t.elements.length with hl | hl
  · rw [getRep_set_self _ _ _ hl]
    exact ⟨rfl, rfl, rfl⟩
  · have hmk : ((t.setElementRep idx
        { (t.getElementRep idx) with
          parent := kInvalidRepIdx, siblingLeft := kInvalidRepIdx,
          siblingRight := kInvalidRepIdx }).getElementRep idx) = makeRep := by
      apply getRep_out_of_range
      simpa [Impl.setElementRep] using hl
    rw [hmk]
    exact ⟨rfl, rfl, rfl⟩

theorem cleared_canAttach (t : Impl) (idx : RepIdx) (h : idx ≠ kRootRepIdx) :
    canAttach idx ((t.setElementRep idx
      { (t.getElementRep idx) with
        parent := kInvalidRepIdx, siblingLeft := kInvalidRepIdx,
        siblingRight := kInvalidRepIdx }).getElementRep idx) = true := by
  obtain ⟨h1, h2, h3⟩ := cleared_topology t idx
  simp [canAttach, h1, h2, h3, h]

/-- C5: `remove` fails with `IllegalOperation` exactly when the target is
parentless (and then — the target's right sibling being resolved, as it
always is for a parentless node — the state is unchanged); on an attached
node it succeeds and leaves the node fully detached (parent and both
siblings INVALID), hence attachable again when it is not the root. -/
theorem c5_remove (s : Impl) (idx : RepIdx) (res : OpStatus) (s' : Impl)
    (hrun : s.removeOp idx = some (res, s')) :
    (res = .error .removeParentless ↔
      (s.getElementRep idx).parent = kInvalidRepIdx) ∧
    ((s.getElementRep idx).parent = kInvalidRepIdx →
      (s.getElementRep idx).siblingRight ≠ kOpaqueRepIdx → s' = s) ∧
    ((s.getElementRep idx).parent ≠ kInvalidRepIdx →
      res = .ok () ∧
      (s'.getElementRep idx).parent = kInvalidRepIdx ∧
      (s'.getElementRep idx).siblingLeft = kInvalidRepIdx ∧
      (s'.getElementRep idx).siblingRight = kInvalidRepIdx ∧
      (idx ≠ kRootRepIdx → canAttach idx (s'.getElementRep idx) = true)) := by
  unfold Impl.removeOp at hrun
  split at hrun
  · simp at hrun
  · rename_i j1 s1 heq
    have hpar := parent_resolveRightSibling heq
    dsimp only at hrun
    split at hrun
    · rename_i hinv
      rw [hpar] at hinv
      cases hrun
      refine ⟨by simp [hinv], fun _ hnop => ?_, fun hne => absurd hinv hne⟩
      rw [resolveRightSibling_resolved s idx hnop] at heq
      exact (congrArg Prod.snd (Option.some_inj.mp heq)).symm
    · rename_i hninv
      rw [hpar] at hninv
      cases hrun
      refine ⟨by simp [hninv], fun hc => absurd hc hninv,
        fun _ => ⟨rfl, ?_, ?_, ?_, fun hroot => ?_⟩⟩
      · exact (cleared_topology _ idx).1
      · exact (cleared_topology _ idx).2.1
      · exact (cleared_topology _ idx).2.2
      · exact cleared_canAttach _ idx hroot

/-- C5 witness: removing the materialized only child of `{"a": 1}`
succeeds and detaches it. -/
theorem c5_witness :
    ((((Document.mkDoc [12, 0, 0, 0, 16, 97, 0, 1, 0, 0, 0, 0]
          true).resolveLeftChild kRootRepIdx).2).removeOp 1 =
        some ((((((Document.mkDoc [12, 0, 0, 0, 16, 97, 0, 1, 0, 0, 0, 0]
          true).resolveLeftChild kRootRepIdx).2).removeOp 1).get (by decide)).1,
          (((((Document.mkDoc [12, 0, 0, 0, 16, 97, 0, 1, 0, 0, 0, 0]
          true).resolveLeftChild kRootRepIdx).2).removeOp 1).get (by decide)).2)) ∧
    ((((((Document.mkDoc [12, 0, 0, 0, 16, 97, 0, 1, 0, 0, 0, 0]
          true).resolveLeftChild kRootRepIdx).2).removeOp 1).get (by decide)).1 =
        .error .removeParentless ↔
      ((((Document.mkDoc [12, 0, 0, 0, 16, 97, 0, 1, 0, 0, 0, 0]
          true).resolveLeftChild kRootRepIdx).2).getElementRep 1).parent =
        kInvalidRepIdx) :=
  ⟨(Option.some_get (by decide)).symm,
    (c5_remove (((Document.mkDoc [12, 0, 0, 0, 16, 97, 0, 1, 0, 0, 0, 0]
        true).resolveLeftChild kRootRepIdx).2) 1 _ _
      (Option.some_get (by decide)).symm).1⟩

/-! ## Byte-buffer lemmas -/

theorem encInt32_length (n : Nat) : (encInt32 n).length = 4 := rfl

theorem byteAt_append_cons (xs : Buf) (v : Nat) (ys : Buf) :
    byteAt (xs ++ v :: ys) xs.length = v := by
  induction xs with
  | nil => rfl
  | cons a as ih => simpa [byteAt, List.getD] using ih

theorem drop_append_cons (xs : Buf) (v : Nat) (ys : Buf) :
    (xs ++ v :: ys).drop (xs.length + 1) = ys := by
  have h1 : xs ++ v :: ys = (xs ++ [v]) ++ ys := by simp
  have h2 : xs.length + 1 = (xs ++ [v]).length := by simp
  rw [h1, h2, List.drop_left]

theorem takeWhile_name (name rest : Buf) (h : 0 ∉ name) :
    (name ++ 0 :: rest).takeWhile (· ≠ 0) = name := by
  induction name with
  | nil => simp [List.takeWhile]
  | cons x xs ih =>
    have hx : x ≠ 0 := fun hx0 => h (by simp [hx0])
    simp only [List.cons_append, List.takeWhile_cons]
    rw [if_pos (by simpa using hx)]
    rw [ih (fun hm => h (List.mem_cons_of_mem _ hm))]

theorem cstrLen_append_name (xs name rest : Buf) (h : 0 ∉ name) :
    cstrLen (xs ++ (name ++ 0 :: rest)) xs.length = name.length := by
  rw [cstrLen, List.drop_left, takeWhile_name name rest h]

theorem take_takeWhile_length (l : Buf) (p : Nat → Bool) :
    l.take (l.takeWhile p).length = l.takeWhile p := by
  induction l with
  | nil => rfl
  | cons x xs ih =>
    by_cases hx : p x
    · simp [List.takeWhile_cons, hx, ih]
    · simp [List.takeWhile_cons, hx]

theorem slice_cstr (b : Buf) (i : Nat) :
    slice b i (cstrLen b i) = (b.drop i).takeWhile (· ≠ 0) := by
  rw [slice, cstrLen, take_takeWhile_length]

theorem fieldName_no_zero (s : Impl) (idx : RepIdx) : 0 ∉ s.getFieldNameAt idx := by
  unfold Impl.getFieldNameAt
  split
  · simp
  · dsimp only
    split
    · rw [eltName, slice_cstr]
      intro hm
      have := List.mem_takeWhile_imp hm
      simp at this
    · rw [slice_cstr]
      intro hm
      have := List.mem_takeWhile_imp hm
      simp at this

theorem fixed_payloadSize (t : Nat) (payload : Buf) (h : FixedSized t payload)
    (b : Buf) (v : Nat) : payloadSize b t v = some payload.length := by
  rcases h with ⟨ht, hl⟩ | ⟨ht, hl⟩ | ⟨ht, hl⟩ | ⟨ht, hl⟩ <;> subst ht <;>
    simp [payloadSize, tInt, tLong, tDouble, tBool, tDate, tTimestamp, tString,
      tCode, tSymbol, tObject, tArray, tCodeWScope, tBinData, tUndefined, tNull,
      tMinKey, tMaxKey, tOID, hl]

theorem leafTempObj_decomp (elts enc : Buf) :
    leafTempObj (elts ++ enc) =
      (encInt32 (4 + (elts ++ enc).length + 1) ++ elts) ++ (enc ++ [0]) := by
  rw [leafTempObj]
  simp [List.append_assoc]

/-! ## C2: in-place eligibility and damage events of the fixed-size
`setValue` family -/

theorem lt_length_of_hasValue {s : Impl} {idx : RepIdx} (h : s.hasValue idx = true) :
    idx < s.elements.length := by
  unfold Impl.hasValue at h
  split at h
  · cases h
  · rcases Nat.lt_or_ge idx s.elements.length with hl | hl
    · exact hl
    · rw [getRep_out_of_range s idx hl] at h
      simp [makeRep] at h

theorem getD_append_self {α : Type} (l : List α) (r d : α) :
    (l ++ [r]).getD l.length d = r := by
  induction l with
  | nil => rfl
  | cons a as ih => simpa [List.getD] using ih

theorem getRep_makeLeafElt (s : Impl) (t : Nat) (name payload : Buf) (idx : RepIdx)
    (h : idx < s.elements.length) :
    ((s.makeLeafElt t name payload).2).getElementRep idx = s.getElementRep idx := by
  unfold Impl.makeLeafElt Impl.insertLeafElement
  dsimp only
  exact (getRep_insert_lt _ _ _ h).trans rfl

theorem getRep_makeLeafElt_fst (s : Impl) (t : Nat) (name payload : Buf) :
    ((s.makeLeafElt t name payload).2).getElementRep
        ((s.makeLeafElt t name payload).1) =
      { makeRep with
        objIdx := kLeafObjIdx, serialized := true,
        offset := 4 + s.leafElts.length } := by
  unfold Impl.makeLeafElt Impl.insertLeafElement Impl.insertElement
  dsimp only
  unfold Impl.getElementRep
  dsimp only
  exact getD_append_self _ _ _

theorem getObject_makeLeafElt_ne (s : Impl) (t : Nat) (name payload : Buf) (i : Nat)
    (h : i ≠ kLeafObjIdx) :
    ((s.makeLeafElt t name payload).2).getObject i = s.getObject i := by
  unfold Impl.makeLeafElt Impl.insertLeafElement Impl.insertElement Impl.getObject
  dsimp only
  simp [List.getD, List.getElem?_set_ne (Ne.symm h)]

theorem getObject_makeLeafElt_leaf (s : Impl) (t : Nat) (name payload : Buf)
    (h : 0 < s.objects.length) :
    ((s.makeLeafElt t name payload).2).getObject kLeafObjIdx =
      leafTempObj (s.leafElts ++ encodeElt t name payload) := by
  unfold Impl.makeLeafElt Impl.insertLeafElement Impl.insertElement Impl.getObject
  dsimp only
  simp [kLeafObjIdx, List.getD, List.getElem?_set_self', h]

theorem cstrLen_after_cons (xs : Buf) (v : Nat) (name rest : Buf) (h : 0 ∉ name) :
    cstrLen (xs ++ v :: (name ++ 0 :: rest)) (xs.length + 1) = name.length := by
  rw [cstrLen, drop_append_cons, takeWhile_name name rest h]

theorem encodeElt_append_zero (t : Nat) (name payload : Buf) :
    encodeElt t name payload ++ [0] = t :: (name ++ 0 :: (payload ++ [0])) := by
  simp [encodeElt]

theorem newElt_type (s : Impl) (t : Nat) (name payload : Buf)
    (h : 0 < s.objects.length) :
    eltType (((s.makeLeafElt t name payload).2).getObject kLeafObjIdx)
      (4 + s.leafElts.length) = t := by
  rw [getObject_makeLeafElt_leaf s t name payload h, leafTempObj_decomp,
    encodeElt_append_zero]
  have hl : (encInt32 (4 + (s.leafElts ++ encodeElt t name payload).length + 1) ++
      s.leafElts).length = 4 + s.leafElts.length := by
    simp [encInt32_length]
  rw [eltType, ← hl, byteAt_append_cons]

theorem newElt_cstrLen (s : Impl) (t : Nat) (name payload : Buf)
    (h : 0 < s.objects.length) (hn : 0 ∉ name) :
    cstrLen (((s.makeLeafElt t name payload).2).getObject kLeafObjIdx)
      (4 + s.leafElts.length + 1) = name.length := by
  rw [getObject_makeLeafElt_leaf s t name payload h, leafTempObj_decomp,
    encodeElt_append_zero]
  have hl : (encInt32 (4 + (s.leafElts ++ encodeElt t name payload).length + 1) ++
      s.leafElts).length = 4 + s.leafElts.length := by
    simp [encInt32_length]
  rw [← hl, cstrLen_after_cons _ _ _ _ hn]

theorem newElt_size (s : Impl) (t : Nat) (name payload : Buf)
    (h : 0 < s.objects.length) (hn : 0 ∉ name) (hfix : FixedSized t payload) :
    eltSize (((s.makeLeafElt t name payload).2).getObject kLeafObjIdx)
      (4 + s.leafElts.length) = some (2 + name.length + payload.length) := by
  have ht := newElt_type s t name payload h
  have hc := newElt_cstrLen s t name payload h hn
  have ht0 : t ≠ tEOO := by
    rcases hfix with ⟨h1, _⟩ | ⟨h1, _⟩ | ⟨h1, _⟩ | ⟨h1, _⟩ <;> subst h1 <;>
      simp [tInt, tLong, tDouble, tBool, tEOO]
  unfold eltSize eltValueSize eltFieldNameSize
  rw [ht, if_neg ht0, fixed_payloadSize t payload hfix, hc]
  simp only [Option.map_some']
  exact congrArg some (by omega)

theorem setValueOp_false_state {s : Impl} {i v : RepIdx} {res : OpStatus} {s' : Impl}
    (hr : s.setValueOp i v false = some (res, s')) :
    (i = kRootRepIdx ∧ s' = s ∧ res = .error .setValueRoot) ∨ s'.damages = none := by
  unfold Impl.setValueOp at hr
  dsimp only at hr
  split at hr
  · cases hr
    exact Or.inl ⟨‹_›, rfl, rfl⟩
  · right
    split at hr
    · simp at hr
    · rename_i j s1 heq
      cases hr
      rw [damages_deserialize, damages_setElementRep, damages_setElementRep]
      refine (damages_resolveRightSibling heq).trans ?_
      simp [Impl.disableInPlaceUpdates]

theorem damages_setValueOp_inPlace {s : Impl} {i v : RepIdx} {res : OpStatus}
    {s' : Impl} (hr : s.setValueOp i v true = some (res, s')) :
    s'.damages = s.damages := by
  unfold Impl.setValueOp at hr
  dsimp only at hr
  split at hr
  · cases hr; rfl
  · split at hr
    · simp at hr
    · rename_i j s1 heq
      cases hr
      rw [damages_deserialize, damages_setElementRep, damages_setElementRep]
      refine (damages_resolveRightSibling heq).trans ?_
      simp

theorem hasValue_ne_root {s : Impl} {idx : RepIdx} (h : s.hasValue idx = true) :
    idx ≠ kRootRepIdx := by
  intro h0
  rw [h0] at h
  simp [Impl.hasValue] at h

/-- C2: for a fixed-size replacement (the `setValueInt` / `setValueLong` /
`setValueDouble` / `setValueBool` payload shapes), the update is performed
in place — damage recorded while in-place mode stays enabled — exactly
when in-place mode is enabled, the target has a serialized value, its
backing object is not the leaf builder, and the old and new encoded
element sizes agree (the new element's size being type byte + field name +
terminator + payload); and in that case exactly one damage event covering
the value payload is appended, preceded by one 1-byte event for the type
byte precisely when the old and new type bytes differ. -/
theorem c2_set_value_in_place (s : Impl) (idx : RepIdx) (t : Nat) (payload : Buf)
    (res : OpStatus) (s' : Impl)
    (hfix : FixedSized t payload) (hobj : 0 < s.objects.length)
    (hrun : s.setValueFixed idx t payload = some (res, s')) :
    ((s.isInPlaceModeEnabled = true ∧ s.hasValue idx = true ∧
        (s.getElementRep idx).objIdx ≠ kLeafObjIdx ∧
        eltSize (s.getObject (s.getElementRep idx).objIdx)
            (s.getElementRep idx).offset =
          some (2 + (s.getFieldNameAt idx).length + payload.length)) ↔
      (s'.isInPlaceModeEnabled = true ∧
        ∃ d0 evs, s.damages = some d0 ∧ s'.damages = some (d0 ++ evs) ∧ evs ≠ [])) ∧
    (s.isInPlaceModeEnabled = true → s.hasValue idx = true →
      (s.getElementRep idx).objIdx ≠ kLeafObjIdx →
      eltSize (s.getObject (s.getElementRep idx).objIdx)
          (s.getElementRep idx).offset =
        some (2 + (s.getFieldNameAt idx).length + payload.length) →
      ∀ d0, s.damages = some d0 →
      ∃ vs, eltValueSize (s.getObject (s.getElementRep idx).objIdx)
          (s.getElementRep idx).offset = some vs ∧
        s'.damages = some (d0 ++
          ((if eltType (s.getObject (s.getElementRep idx).objIdx)
              (s.getElementRep idx).offset ≠ t then
            [⟨(s.getElementRep idx).offset, 4 + s.leafElts.length, 1⟩]
          else []) ++
          [⟨(s.getElementRep idx).offset +
              eltFieldNameSize (s.getObject (s.getElementRep idx).objIdx)
                (s.getElementRep idx).offset + 1,
            4 + s.leafElts.length +
              eltFieldNameSize (s.getObject (s.getElementRep idx).objIdx)
                (s.getElementRep idx).offset + 1, vs⟩]))) := by
  unfold Impl.setValueFixed at hrun
  dsimp only at hrun
  cases hen : s.isInPlaceModeEnabled with
  | false =>
    rw [hen] at hrun
    simp only [Bool.false_eq_true, if_false] at hrun
    have hsnone : s.damages = none := by
      cases hd : s.damages with
      | none => rfl
      | some d => rw [Impl.isInPlaceModeEnabled, hd] at hen; simp at hen
    have hdn : s'.damages = none := by
      rcases setValueOp_false_state hrun with ⟨_, hs', _⟩ | hd
      · rw [hs', damages_makeLeafElt]; exact hsnone
      · exact hd
    constructor
    · constructor
      · rintro ⟨h1, _⟩
        simp at h1
      · rintro ⟨h1, _⟩
        rw [isInPlaceModeEnabled_eq_false hdn] at h1
        cases h1
    · intro h1
      simp at h1
  | true =>
    rw [hen] at hrun
    simp only [if_true] at hrun
    obtain ⟨d0s, hd0s⟩ : ∃ d, s.damages = some d := by
      cases hd : s.damages with
      | none => rw [Impl.isInPlaceModeEnabled, hd] at hen; simp at hen
      | some d => exact ⟨d, rfl⟩
    by_cases hcond : s.hasValue idx = true ∧
        ¬ (s.getElementRep idx).objIdx = kLeafObjIdx
    · rw [if_pos hcond] at hrun
      have hidx := lt_length_of_hasValue hcond.1
      have hnroot := hasValue_ne_root hcond.1
      rw [getRep_makeLeafElt s t (s.getFieldNameAt idx) payload idx hidx,
        getRep_makeLeafElt_fst s t (s.getFieldNameAt idx) payload] at hrun
      dsimp only at hrun
      rw [getObject_makeLeafElt_ne s t (s.getFieldNameAt idx) payload _ hcond.2,
        newElt_size s t (s.getFieldNameAt idx) payload hobj
          (fieldName_no_zero s idx) hfix,
        newElt_type s t (s.getFieldNameAt idx) payload hobj] at hrun
      cases hvs : eltValueSize (s.getObject (s.getElementRep idx).objIdx)
          (s.getElementRep idx).offset with
      | none =>
        have hesz : eltSize (s.getObject (s.getElementRep idx).objIdx)
            (s.getElementRep idx).offset = none := by
          simp [eltSize, hvs]
        rw [hesz, hvs] at hrun
        simp at hrun
      | some vs =>
        by_cases ht0 : eltType (s.getObject (s.getElementRep idx).objIdx)
            (s.getElementRep idx).offset = tEOO
        · have hesz : eltSize (s.getObject (s.getElementRep idx).objIdx)
              (s.getElementRep idx).offset = none := by
            simp [eltSize, ht0]
          rw [hesz, hvs] at hrun
          simp at hrun
        · have hesz : eltSize (s.getObject (s.getElementRep idx).objIdx)
              (s.getElementRep idx).offset =
              some (1 + eltFieldNameSize (s.getObject (s.getElementRep idx).objIdx)
                (s.getElementRep idx).offset + vs) := by
            simp [eltSize, ht0, hvs]
          rw [hesz, hvs] at hrun
          dsimp only at hrun
          by_cases hsize :
              1 + eltFieldNameSize (s.getObject (s.getElementRep idx).objIdx)
                (s.getElementRep idx).offset + vs =
              2 + (s.getFieldNameAt idx).length + payload.length
          · rw [if_pos hsize] at hrun
            have hdam := damages_setValueOp_inPlace hrun
            have hd3 : s'.damages = some (d0s ++
                ((if eltType (s.getObject (s.getElementRep idx).objIdx)
                    (s.getElementRep idx).offset ≠ t then
                  [⟨(s.getElementRep idx).offset, 4 + s.leafElts.length, 1⟩]
                else []) ++
                [⟨(s.getElementRep idx).offset +
                    eltFieldNameSize (s.getObject (s.getElementRep idx).objIdx)
                      (s.getElementRep idx).offset + 1,
                  4 + s.leafElts.length +
                    eltFieldNameSize (s.getObject (s.getElementRep idx).objIdx)
                      (s.getElementRep idx).offset + 1, vs⟩])) := by
              rw [hdam]
              by_cases htd : eltType (s.getObject (s.getElementRep idx).objIdx)
                  (s.getElementRep idx).offset ≠ t
              · rw [if_pos htd]
                simp [Impl.recordDamageEvent, if_pos htd, damages_makeLeafElt,
                  hd0s]
              · rw [if_neg htd]
                simp [Impl.recordDamageEvent, if_neg htd, damages_makeLeafElt,
                  hd0s]
            refine ⟨⟨fun _ => ⟨?_, d0s, _, hd0s, hd3, by simp⟩, fun _ => ?_⟩, ?_⟩
            · rw [Impl.isInPlaceModeEnabled, hd3]; rfl
            · exact ⟨rfl, hcond.1, hcond.2, hesz.trans (congrArg some hsize)⟩
            · intro _ _ _ _ d0 hd0
              refine ⟨vs, rfl, ?_⟩
              rw [hd0] at hd0s
              cases hd0s
              exact hd3
          · rw [if_neg hsize] at hrun
            have hdn : s'.damages = none := by
              rcases setValueOp_false_state hrun with ⟨hroot, _, _⟩ | hd
              · exact absurd hroot hnroot
              · exact hd
            constructor
            · constructor
              · rintro ⟨_, _, _, h4⟩
                rw [hesz] at h4
                exact absurd (Option.some_inj.mp h4) hsize
              · rintro ⟨h1, _⟩
                rw [isInPlaceModeEnabled_eq_false hdn] at h1
                cases h1
            · intro _ _ _ h4
              rw [hesz] at h4
              exact absurd (Option.some_inj.mp h4) hsize
    · rw [if_neg hcond] at hrun
      have hstate := setValueOp_false_state hrun
      have hfalse : ¬ (s.hasValue idx = true ∧
          (s.getElementRep idx).objIdx ≠ kLeafObjIdx) := hcond
      constructor
      · constructor
        · rintro ⟨_, h2, h3, _⟩
          exact absurd ⟨h2, h3⟩ hfalse
        · rintro ⟨h1, d0, evs, hd0, hds, hne⟩
          rcases hstate with ⟨_, hs', _⟩ | hd
          · rw [hs', damages_makeLeafElt, hd0] at hds
            have : evs = [] := by
              have := Option.some_inj.mp hds
              simpa using this.symm
            exact absurd this hne
          · rw [isInPlaceModeEnabled_eq_false hd] at h1
            cases h1
      · intro _ h2 h3
        exact absurd ⟨h2, h3⟩ hfalse

/-- C2 witness: an in-place `setValueInt 99` on the materialized `"a"`
child of `{"a": 1}` keeps in-place mode enabled and appends damage. -/
theorem c2_witness :
    ((((((Document.mkDoc [12, 0, 0, 0, 16, 97, 0, 1, 0, 0, 0, 0]
        true).resolveLeftChild kRootRepIdx).2).setValueFixed 1 tInt
          (encInt32 99)).get (by decide)).2).isInPlaceModeEnabled = true ∧
      ∃ d0 evs,
        (((Document.mkDoc [12, 0, 0, 0, 16, 97, 0, 1, 0, 0, 0, 0]
          true).resolveLeftChild kRootRepIdx).2).damages = some d0 ∧
        ((((((Document.mkDoc [12, 0, 0, 0, 16, 97, 0, 1, 0, 0, 0, 0]
          true).resolveLeftChild kRootRepIdx).2).setValueFixed 1 tInt
            (encInt32 99)).get (by decide)).2).damages = some (d0 ++ evs) ∧
        evs ≠ [] :=
  ((c2_set_value_in_place
      (((Document.mkDoc [12, 0, 0, 0, 16, 97, 0, 1, 0, 0, 0, 0]
        true).resolveLeftChild kRootRepIdx).2) 1 tInt (encInt32 99) _ _
      (Or.inl ⟨rfl, rfl⟩) (by decide) (Option.some_get (by decide)).symm).1).mp
    ⟨by decide, by decide, by decide, by decide⟩

/-! ## C1: round-trip serialization of a well-formed buffer -/

/-- An encoded element occupies at least its type byte and name terminator. -/
theorem eltSize_ge_two {b : Buf} {off sz : Nat} (h : eltSize b off = some sz) :
    2 ≤ sz := by
  unfold eltSize at h
  split at h
  · exact absurd h (by simp)
  · rw [Option.map_eq_some'] at h
    obtain ⟨vs, _, hv⟩ := h
    unfold eltFieldNameSize at hv
    omega

/-- A decodable element does not start with the terminator byte. -/
theorem eltSize_byte_ne_zero {b : Buf} {off sz : Nat}
    (h : eltSize b off = some sz) : byteAt b off ≠ 0 := by
  intro h0
  unfold eltSize at h
  rw [if_pos (show eltType b off = tEOO from h0)] at h
  exact Option.noConfusion h

/-- Unfold one tile. -/
theorem tiles_cons {B : Buf} {o stop sz : Nat} {rest : List Nat}
    (h : tilesB B o stop (sz :: rest) = true) :
    eltSize B o = some sz ∧ tilesB B (o + sz) stop rest = true := by
  unfold tilesB at h
  rw [Bool.and_eq_true, beq_iff_eq] at h
  exact h

/-- An empty tiling covers an empty region. -/
theorem tiles_nil {B : Buf} {o stop : Nat} (h : tilesB B o stop [] = true) :
    o = stop := by
  unfold tilesB at h
  exact beq_iff_eq.mp h

/-- A tiling's start lies before its stop. -/
theorem tiles_start_le {B : Buf} : ∀ {sizes : List Nat} {o stop : Nat},
    tilesB B o stop sizes = true → o ≤ stop := by
  intro sizes
  induction sizes with
  | nil => intro o stop h; exact Nat.le_of_eq (tiles_nil h)
  | cons sz rest ih =>
    intro o stop h
    obtain ⟨h1, h2⟩ := tiles_cons h
    have := ih h2
    have := eltSize_ge_two h1
    omega

/-- The number of tiles is bounded by the width of the region. -/
theorem tiles_length_le {B : Buf} : ∀ {sizes : List Nat} {o stop : Nat},
    tilesB B o stop sizes = true → o + sizes.length ≤ stop ∨ sizes = [] := by
  intro sizes
  induction sizes with
  | nil => intro o stop _; exact Or.inr rfl
  | cons sz rest ih =>
    intro o stop h
    obtain ⟨h1, h2⟩ := tiles_cons h
    have hsz := eltSize_ge_two h1
    left
    rcases ih h2 with h3 | h3
    · simp only [List.length_cons]; omega
    · subst h3
      have := tiles_nil h2
      simp only [List.length_cons, List.length_nil]
      omega

/-- Slices concatenate over adjacent ranges. -/
theorem slice_add (B : Buf) (o a b : Nat) :
    slice B o (a + b) = slice B o a ++ slice B (o + a) b := by
  unfold slice
  rw [List.take_add]
  congr 1
  rw [List.drop_drop]

/-- Length of a slice fully inside the buffer. -/
theorem slice_length (B : Buf) (o len : Nat) (h : o + len ≤ B.length) :
    (slice B o len).length = len := by
  unfold slice
  rw [List.length_take, List.length_drop]
  omega

/-- A one-byte slice inside the buffer is the byte at its offset. -/
theorem slice_one (B : Buf) : ∀ (o : Nat), o < B.length → slice B o 1 = [byteAt B o] := by
  induction B with
  | nil => intro o h; simp at h
  | cons a l ih =>
    intro o h
    cases o with
    | zero => rfl
    | succ n =>
      have hn : n < l.length := by simpa using h
      have := ih n hn
      simpa [slice, byteAt, List.getD] using this

/-- The first four bytes of a byte-valued buffer are the little-endian
encoding of the `int32` they decode to. -/
theorem take4_enc (B : Buf) (hb : B.all (· < 256) = true) (h4 : 4 ≤ B.length) :
    B.take 4 = encInt32 (decInt32 B 0) := by
  match B, hb, h4 with
  | [], _, h4 => simp at h4
  | [_], _, h4 => simp at h4
  | [_, _], _, h4 => simp at h4
  | [_, _, _], _, h4 => simp at h4
  | b0 :: b1 :: b2 :: b3 :: rest, hb, _ =>
    simp only [List.all_cons, Bool.and_eq_true, decide_eq_true_eq] at hb
    obtain ⟨h0, h1, h2, h3, _⟩ := hb
    have hd : decInt32 (b0 :: b1 :: b2 :: b3 :: rest) 0
        = b0 + 256 * b1 + 256 ^ 2 * b2 + 256 ^ 3 * b3 := rfl
    show [b0, b1, b2, b3] = encInt32 (decInt32 (b0 :: b1 :: b2 :: b3 :: rest) 0)
    rw [hd]
    unfold encInt32
    have hp2 : (256 : Nat) ^ 2 = 65536 := by norm_num
    have hp3 : (256 : Nat) ^ 3 = 16777216 := by norm_num
    rw [hp2, hp3]
    have e0 : (b0 + 256 * b1 + 65536 * b2 + 16777216 * b3) % 256 = b0 := by omega
    have e1 : (b0 + 256 * b1 + 65536 * b2 + 16777216 * b3) / 256 % 256 = b1 := by
      omega
    have e2 : (b0 + 256 * b1 + 65536 * b2 + 16777216 * b3) / 65536 % 256 = b2 := by
      omega
    have e3 : (b0 + 256 * b1 + 65536 * b2 + 16777216 * b3) / 16777216 % 256 = b3 := by
      omega
    rw [e0, e1, e2, e3]

/-- `writeElement` on a rep with a serialized value and no name override:
the element bytes are copied verbatim and the state is untouched. -/
theorem writeElementF_hasValue (fuel : Nat) (s : Impl) (i : RepIdx) (sz : Nat)
    (hv : s.hasValue i = true)
    (hsz : eltSize (s.getObject (s.getElementRep i).objIdx)
      (s.getElementRep i).offset = some sz) :
    writeElementF (fuel + 1) s i none
      = some (s, slice (s.getObject (s.getElementRep i).objIdx)
          (s.getElementRep i).offset sz) := by
  unfold writeElementF
  rw [if_pos hv]
  dsimp only
  rw [hsz]
  rfl

/-- `resolveRightSibling` of an opaque sibling on the container terminator:
the result index is invalid. -/
theorem resolveRightSibling_term (s : Impl) (i : RepIdx) (sz : Nat)
    (hop : (s.getElementRep i).siblingRight = kOpaqueRepIdx)
    (hsz : eltSize (s.getObject (s.getElementRep i).objIdx)
      (s.getElementRep i).offset = some sz)
    (hterm : byteAt (s.getObject (s.getElementRep i).objIdx)
      ((s.getElementRep i).offset + sz) = 0) :
    ∃ s2, s.resolveRightSibling i = some (kInvalidRepIdx, s2) := by
  apply Exists.intro
  case h =>
    unfold Impl.resolveRightSibling
    dsimp only
    rw [if_neg (by simp [hop]), hsz]
    dsimp only
    rw [if_neg (by simp [hterm])]

/-- `resolveRightSibling` of an opaque sibling in the middle of a region:
a fresh serialized record for the next element is appended at the end of
the element arena. -/
theorem resolveRightSibling_mid (s : Impl) (i : RepIdx) (sz : Nat)
    (hop : (s.getElementRep i).siblingRight = kOpaqueRepIdx)
    (hsz : eltSize (s.getObject (s.getElementRep i).objIdx)
      (s.getElementRep i).offset = some sz)
    (hnz : byteAt (s.getObject (s.getElementRep i).objIdx)
      ((s.getElementRep i).offset + sz) ≠ 0) :
    ∃ s2, s.resolveRightSibling i = some (s.elements.length, s2) ∧
      s2.elements.length = s.elements.length + 1 ∧
      s2.objects = s.objects ∧
      (s2.getElementRep s.elements.length).objIdx = (s.getElementRep i).objIdx ∧
      (s2.getElementRep s.elements.length).serialized = true ∧
      (s2.getElementRep s.elements.length).offset
        = (s.getElementRep i).offset + sz ∧
      (s2.getElementRep s.elements.length).siblingRight = kOpaqueRepIdx := by
  have hlen : i < s.elements.length := siblingRight_opaque_lt_length s i hop
  apply Exists.intro
  case h =>
    refine ⟨?_, ?_, ?_, ?_, ?_, ?_, ?_⟩
    · unfold Impl.resolveRightSibling
      dsimp only
      rw [if_neg (by simp [hop]), hsz]
      dsimp only
      rw [if_pos hnz]
      dsimp only [Impl.insertElement]
    · simp [Impl.setElementRep]
    · rfl
    · rw [getRep_set_other _ _ _ _ (Nat.ne_of_lt hlen)]
      show (((s.elements ++ [_]).getD s.elements.length makeRep)).objIdx = _
      rw [getD_append_self]
      split <;> rfl
    · rw [getRep_set_other _ _ _ _ (Nat.ne_of_lt hlen)]
      show (((s.elements ++ [_]).getD s.elements.length makeRep)).serialized = _
      rw [getD_append_self]
      split <;> rfl
    · rw [getRep_set_other _ _ _ _ (Nat.ne_of_lt hlen)]
      show (((s.elements ++ [_]).getD s.elements.length makeRep)).offset = _
      rw [getD_append_self]
      split <;> rfl
    · rw [getRep_set_other _ _ _ _ (Nat.ne_of_lt hlen)]
      show (((s.elements ++ [_]).getD s.elements.length makeRep)).siblingRight = _
      rw [getD_append_self]
      split <;> rfl

/-- `resolveLeftChild` of an opaque left child on a valueless container
backed by a buffer whose first element starts at offset 4 (the root): a
fresh serialized record for that element is appended at the end of the
element arena. -/
theorem resolveLeftChild_mid (s : Impl) (i : RepIdx)
    (hop : (s.getElementRep i).childLeft = kOpaqueRepIdx)
    (hnv : s.hasValue i = false)
    (hnz : byteAt (s.getObject (s.getElementRep i).objIdx) 4 ≠ 0) :
    ∃ s2, s.resolveLeftChild i = (s.elements.length, s2) ∧
      s2.elements.length = s.elements.length + 1 ∧
      s2.objects = s.objects ∧
      (s2.getElementRep s.elements.length).objIdx = (s.getElementRep i).objIdx ∧
      (s2.getElementRep s.elements.length).serialized = true ∧
      (s2.getElementRep s.elements.length).offset = 4 ∧
      (s2.getElementRep s.elements.length).siblingRight = kOpaqueRepIdx := by
  have hlen : i < s.elements.length := childLeft_opaque_lt_length s i hop
  apply Exists.intro
  case h =>
    refine ⟨?_, ?_, ?_, ?_, ?_, ?_, ?_⟩
    · unfold Impl.resolveLeftChild
      dsimp only
      rw [if_neg (by simp [hop])]
      rw [hnv]
      rw [if_neg (show ¬(false = true) by simp)]
      rw [if_pos hnz]
      dsimp only [Impl.insertElement]
    · simp [Impl.setElementRep]
    · rfl
    · rw [getRep_set_other _ _ _ _ (Nat.ne_of_lt hlen)]
      show (((s.elements ++ [_]).getD s.elements.length makeRep)).objIdx = _
      rw [getD_append_self]
      split <;> rfl
    · rw [getRep_set_other _ _ _ _ (Nat.ne_of_lt hlen)]
      show (((s.elements ++ [_]).getD s.elements.length makeRep)).serialized = _
      rw [getD_append_self]
      split <;> rfl
    · rw [getRep_set_other _ _ _ _ (Nat.ne_of_lt hlen)]
      show (((s.elements ++ [_]).getD s.elements.length makeRep)).offset = _
      rw [getD_append_self]
      split <;> rfl
    · rw [getRep_set_other _ _ _ _ (Nat.ne_of_lt hlen)]
      show (((s.elements ++ [_]).getD s.elements.length makeRep)).siblingRight = _
      rw [getD_append_self]
      split <;> rfl

/-- `resolveLeftChild` of an opaque left child over an empty region (the
terminator at offset 4): both children become invalid. -/
theorem resolveLeftChild_empty (s : Impl) (i : RepIdx)
    (hop : (s.getElementRep i).childLeft = kOpaqueRepIdx)
    (hnv : s.hasValue i = false)
    (hz : byteAt (s.getObject (s.getElementRep i).objIdx) 4 = 0) :
    ∃ s2, s.resolveLeftChild i = (kInvalidRepIdx, s2) := by
  apply Exists.intro
  case h =>
    unfold Impl.resolveLeftChild
    dsimp only
    rw [if_neg (by simp [hop])]
    rw [hnv]
    rw [if_neg (show ¬(false = true) by simp)]
    rw [if_neg (by simp [hz])]

/-- The `writeChildren` loop stops immediately on an out-of-range index. -/
theorem writeLoopF_stop (fuel : Nat) (s : Impl) (cur : RepIdx) (am : Bool)
    (c : Nat) (h : repOk cur = false) :
    writeLoopF (fuel + 1) s cur am c = some (s, []) := by
  unfold writeLoopF
  rw [if_pos (by simp [h])]

/-- One productive iteration of the `writeChildren` while-loop (object
mode): the element's bytes are emitted, then the loop continues on the
resolved right sibling. -/
theorem writeLoopF_step (fuel : Nat) (s : Impl) (cur : RepIdx) (c : Nat)
    (hok : repOk cur = true) {s1 : Impl} {bytes : Buf}
    (hElt : writeElementF fuel s cur none = some (s1, bytes))
    {next : RepIdx} {s2 : Impl}
    (hSib : s1.resolveRightSibling cur = some (next, s2)) :
    writeLoopF (fuel + 1) s cur false c
      = (writeLoopF fuel s2 next false (c + 1)).map
          (fun r => (r.1, bytes ++ r.2)) := by
  unfold writeLoopF
  rw [if_neg (by simp [hok])]
  rw [if_neg (show ¬(false = true) by simp)]
  rw [hElt]
  dsimp only
  rw [hSib]
  dsimp only
  rw [← writeLoopF.eq_def]

/-- The `writeChildren` loop, started on a serialized element at offset `o`
of the registered input buffer with an opaque right sibling, emits exactly
the buffer's bytes from `o` up to the terminator of the region tiled by
`sizes`. -/
theorem writeLoop_tiles (B : Buf) (stop : Nat) (hterm : byteAt B stop = 0) :
    ∀ (sizes : List Nat), sizes ≠ [] →
    ∀ (fuel c : Nat) (s : Impl) (i o : Nat),
      sizes.length + 1 ≤ fuel →
      tilesB B o stop sizes = true →
      s.getObject 1 = B →
      i < s.elements.length →
      i ≠ kRootRepIdx →
      s.elements.length + sizes.length ≤ kMaxRepIdx + 1 →
      (s.getElementRep i).objIdx = 1 →
      (s.getElementRep i).serialized = true →
      (s.getElementRep i).offset = o →
      (s.getElementRep i).siblingRight = kOpaqueRepIdx →
      ∃ s', writeLoopF fuel s i false c = some (s', slice B o (stop - o)) := by
  intro sizes
  induction sizes with
  | nil => intro h; exact absurd rfl h
  | cons sz rest ih =>
    intro _ fuel c s i o hfuel htiles hB hi hi0 hbound hobj hser hoff hop
    obtain ⟨h1, h2⟩ := tiles_cons htiles
    obtain ⟨f, rfl⟩ : ∃ f, fuel = f + 1 := ⟨fuel - 1, by omega⟩
    have hfge : rest.length + 1 ≤ f := by
      simp only [List.length_cons] at hfuel
      omega
    obtain ⟨f1, rfl⟩ : ∃ f1, f = f1 + 1 := ⟨f - 1, by omega⟩
    have hbound' : s.elements.length + (rest.length + 1) ≤ kMaxRepIdx + 1 := by
      simpa [List.length_cons] using hbound
    have hok : repOk i = true := by
      unfold repOk
      simp only [decide_eq_true_eq]
      show (i : Nat) ≤ (kMaxRepIdx : Nat)
      omega
    have hv : s.hasValue i = true := by
      unfold Impl.hasValue
      rw [if_neg hi0, hser]
    have hsz' : eltSize (s.getObject (s.getElementRep i).objIdx)
        (s.getElementRep i).offset = some sz := by
      rw [hobj, hB, hoff]; exact h1
    cases rest with
    | nil =>
      have hstop : o + sz = stop := tiles_nil h2
      obtain ⟨s2, hres⟩ := resolveRightSibling_term s i sz hop hsz'
        (by rw [hobj, hB, hoff, hstop]; exact hterm)
      refine ⟨s2, ?_⟩
      rw [writeLoopF_step (f1 + 1) s i c hok
        (writeElementF_hasValue f1 s i sz hv hsz') hres]
      rw [writeLoopF_stop f1 s2 kInvalidRepIdx false (c + 1) (by decide)]
      simp only [Option.map_some']
      rw [hobj, hB, hoff]
      rw [List.append_nil]
      have h3 : stop - o = sz := by omega
      rw [h3]
    | cons sz2 rest' =>
      obtain ⟨h21, h22⟩ := tiles_cons h2
      have hnz : byteAt B (o + sz) ≠ 0 := eltSize_byte_ne_zero h21
      obtain ⟨s2, hres, hlen2, hobjs2, ho1, ho2, ho3, ho4⟩ :=
        resolveRightSibling_mid s i sz hop hsz'
          (by rw [hobj, hB, hoff]; exact hnz)
      have hB2 : s2.getObject 1 = B := by
        show s2.objects.getD 1 [] = B
        rw [hobjs2]; exact hB
      have hi2 : s.elements.length < s2.elements.length := by omega
      have hi02 : s.elements.length ≠ kRootRepIdx := by
        unfold kRootRepIdx
        omega
      have hbound2 : s2.elements.length + (sz2 :: rest').length ≤ kMaxRepIdx + 1 := by
        simp only [List.length_cons] at hbound' ⊢
        omega
      have hfuel2 : (sz2 :: rest').length + 1 ≤ f1 + 1 := by
        simp only [List.length_cons] at hfge ⊢
        omega
      obtain ⟨s', hloop⟩ := ih (by simp) (f1 + 1) (c + 1) s2 s.elements.length
        (o + sz) hfuel2 h2 hB2 hi2 hi02 hbound2 (ho1.trans hobj) ho2
        (by rw [ho3, hoff]) ho4
      refine ⟨s', ?_⟩
      rw [writeLoopF_step (f1 + 1) s i c hok
        (writeElementF_hasValue f1 s i sz hv hsz') hres]
      rw [hloop]
      simp only [Option.map_some']
      rw [hobj, hB, hoff]
      have h3 : stop - o = sz + (stop - (o + sz)) := by
        have := tiles_start_le h22
        omega
      rw [h3, slice_add]

/-- A well-formed buffer up to its total size is the builder's object
framing of its element region. -/
theorem take_total_decomp (B : Buf) (hbytes : B.all (· < 256) = true)
    (h5 : 5 ≤ totalSizeOf B) (hTB : totalSizeOf B ≤ B.length)
    (hterm : byteAt B (totalSizeOf B - 1) = 0) :
    B.take (totalSizeOf B) = objFrame (slice B 4 (totalSizeOf B - 1 - 4)) := by
  unfold objFrame
  rw [slice_length B 4 (totalSizeOf B - 1 - 4) (by omega)]
  have h1 : totalSizeOf B - 1 - 4 + 5 = totalSizeOf B := by omega
  rw [h1]
  have h2 : totalSizeOf B = 4 + (totalSizeOf B - 1 - 4 + 1) := by omega
  conv_lhs => rw [h2]
  rw [List.take_add]
  rw [(show (B.drop 4).take (totalSizeOf B - 1 - 4 + 1)
      = slice B 4 (totalSizeOf B - 1 - 4 + 1) from rfl)]
  rw [slice_add B 4 (totalSizeOf B - 1 - 4) 1]
  have h4 : 4 + (totalSizeOf B - 1 - 4) = totalSizeOf B - 1 := by omega
  rw [h4]
  rw [slice_one B (totalSizeOf B - 1) (by omega)]
  rw [hterm]
  rw [take4_enc B hbytes (by omega)]
  rw [(show decInt32 B 0 = totalSizeOf B from rfl)]
  rw [List.append_assoc]

/-- One unfolding step of `writeChildren`: resolve the left child and run
the sibling loop. -/
theorem writeChildrenF_succ (fuel : Nat) (s : Impl) (idx : RepIdx) (am : Bool) :
    writeChildrenF (fuel + 1) s idx am
      = writeLoopF fuel (s.resolveLeftChild idx).2 (s.resolveLeftChild idx).1
          am 0 := by
  unfold writeChildrenF
  rfl

/-- **C1.** Round-trip with no edits: building a document from a
well-formed wire-format buffer `B` and serializing it back through
`writeTo` reproduces `B` byte for byte, up to the bytes counted by its
total-size prefix (trailing padding of `B` is not reproduced). -/
theorem c1_round_trip (B : Buf) (sizes : List Nat) (mode : Bool)
    (h : wfBson B sizes = true) :
    ∃ s', serializeDoc (B.length + 2) (Document.mkDoc B mode)
      = some (s', B.take (totalSizeOf B)) := by
  unfold wfBson at h
  rw [Bool.and_eq_true, Bool.and_eq_true, Bool.and_eq_true, Bool.and_eq_true,
    Bool.and_eq_true] at h
  obtain ⟨⟨⟨⟨⟨hbytes, h5⟩, hTB⟩, hblen⟩, htiles⟩, hterm⟩ := h
  rw [decide_eq_true_eq] at h5 hTB hblen
  rw [beq_iff_eq] at hterm
  have hrep0 : (Document.mkDoc B mode).getElementRep kRootRepIdx
      = { objIdx := 1, serialized := true, array := false, offset := 0,
          siblingLeft := kInvalidRepIdx, siblingRight := kInvalidRepIdx,
          childLeft := kOpaqueRepIdx, childRight := kOpaqueRepIdx,
          parent := kInvalidRepIdx } := rfl
  have hgo : (Document.mkDoc B mode).getObject 1 = B := rfl
  have hlen0 : (Document.mkDoc B mode).elements.length = 1 := rfl
  have hnv : (Document.mkDoc B mode).hasValue kRootRepIdx = false := rfl
  have hty : (Document.mkDoc B mode).getType kRootRepIdx = tObject := rfl
  have htotal : B.take (totalSizeOf B)
      = objFrame (slice B 4 (totalSizeOf B - 1 - 4)) :=
    take_total_decomp B hbytes h5 hTB hterm
  unfold serializeDoc writeToF
  rw [if_neg (by simp [hty])]
  rw [if_pos (And.intro (by rw [hrep0]) rfl)]
  rw [(show B.length + 2 = B.length + 1 + 1 from rfl)]
  rw [writeChildrenF_succ (B.length + 1) (Document.mkDoc B mode) kRootRepIdx
    false]
  cases sizes with
  | nil =>
    have hT5 : totalSizeOf B = 5 := by
      have := tiles_nil htiles
      omega
    have hz4 : byteAt B 4 = 0 := by
      have h14 : totalSizeOf B - 1 = 4 := by omega
      rw [← h14]
      exact hterm
    obtain ⟨s2, hres⟩ := resolveLeftChild_empty (Document.mkDoc B mode)
      kRootRepIdx (by rw [hrep0]) hnv
      (by rw [hrep0]
          show byteAt ((Document.mkDoc B mode).getObject 1) 4 = 0
          rw [hgo]
          exact hz4)
    refine ⟨s2, ?_⟩
    rw [hres]
    dsimp only
    rw [writeLoopF_stop B.length s2 kInvalidRepIdx false 0 (by decide)]
    simp only [Option.map_some']
    rw [htotal]
    have h0 : totalSizeOf B - 1 - 4 = 0 := by omega
    rw [h0]
    rfl
  | cons sz0 rest =>
    obtain ⟨ht1, ht2⟩ := tiles_cons htiles
    have hnz4 : byteAt B 4 ≠ 0 := eltSize_byte_ne_zero ht1
    obtain ⟨s2, hres, hlen2, hobjs2, ho1, ho2, ho3, ho4⟩ :=
      resolveLeftChild_mid (Document.mkDoc B mode) kRootRepIdx
        (by rw [hrep0]) hnv
        (by rw [hrep0]
            show byteAt ((Document.mkDoc B mode).getObject 1) 4 ≠ 0
            rw [hgo]
            exact hnz4)
    have hslen : 4 + (sz0 :: rest).length ≤ totalSizeOf B - 1 := by
      rcases tiles_length_le htiles with hcl | hcl
      · exact hcl
      · exact absurd hcl (by simp)
    have hB2 : s2.getObject 1 = B := by
      show s2.objects.getD 1 [] = B
      rw [hobjs2]
      exact hgo
    have hi2 : (Document.mkDoc B mode).elements.length < s2.elements.length := by
      omega
    have hi0 : (Document.mkDoc B mode).elements.length ≠ kRootRepIdx := by
      rw [hlen0]
      decide
    have hl31 : (2 : Nat) ^ 31 = 2147483648 := by norm_num
    rw [hl31] at hblen
    have hkmax : kMaxRepIdx + 1 = 4294967294 := by norm_num [kMaxRepIdx]
    have hbound : s2.elements.length + (sz0 :: rest).length
        ≤ kMaxRepIdx + 1 := by
      rw [hlen2, hlen0, hkmax]
      omega
    have hfuel : (sz0 :: rest).length + 1 ≤ B.length + 1 := by omega
    obtain ⟨s', hloop⟩ := writeLoop_tiles B (totalSizeOf B - 1) hterm
      (sz0 :: rest) (by simp) (B.length + 1) 0 s2
      ((Document.mkDoc B mode).elements.length) 4 hfuel htiles hB2 hi2 hi0
      hbound (ho1.trans (by rw [hrep0])) ho2 ho3 ho4
    refine ⟨s', ?_⟩
    rw [hres]
    dsimp only
    rw [hloop]
    simp only [Option.map_some']
    rw [htotal]

/-- C1 witness: the document `{"a": 1}` round-trips byte for byte. -/
theorem c1_witness :
    wfBson [12, 0, 0, 0, 16, 97, 0, 1, 0, 0, 0, 0] [7] = true ∧
    ∃ s', serializeDoc (([12, 0, 0, 0, 16, 97, 0, 1, 0, 0, 0, 0] : Buf).length + 2)
        (Document.mkDoc [12, 0, 0, 0, 16, 97, 0, 1, 0, 0, 0, 0] true)
      = some (s', ([12, 0, 0, 0, 16, 97, 0, 1, 0, 0, 0, 0] : Buf).take
          (totalSizeOf [12, 0, 0, 0, 16, 97, 0, 1, 0, 0, 0, 0])) :=
  ⟨by decide, c1_round_trip [12, 0, 0, 0, 16, 97, 0, 1, 0, 0, 0, 0] [7] true
    (by decide)⟩

/-! ## C9: the comparison order on bytes and values -/

/-- Byte comparison is reflexive. -/
theorem lexBytes_refl : ∀ a : Buf, lexBytes a a = 0
  | [] => rfl
  | x :: xs => by
    simp only [lexBytes]
    rw [if_neg (by omega), if_neg (by omega)]
    exact lexBytes_refl xs

/-- Byte comparison separates points. -/
theorem lexBytes_eq_zero : ∀ {a b : Buf}, lexBytes a b = 0 → a = b
  | [], [], _ => rfl
  | [], _ :: _, h => absurd h (by simp [lexBytes])
  | _ :: _, [], h => absurd h (by simp [lexBytes])
  | x :: xs, y :: ys, h => by
    simp only [lexBytes] at h
    split at h
    · exact absurd h (by decide)
    · split at h
      · exact absurd h (by decide)
      · rename_i h1 h2
        have hxy : x = y := by omega
        rw [hxy, lexBytes_eq_zero h]

/-- Byte comparison is antisymmetric. -/
theorem lexBytes_antisym : ∀ a b : Buf, lexBytes a b = -lexBytes b a
  | [], [] => rfl
  | [], _ :: _ => rfl
  | _ :: _, [] => rfl
  | x :: xs, y :: ys => by
    simp only [lexBytes]
    rcases Nat.lt_trichotomy x y with h | h | h
    · rw [if_pos h, if_neg (show ¬ y < x by omega), if_pos h]
    · subst h
      rw [if_neg (show ¬ x < x by omega), if_neg (show ¬ x < x by omega),
        if_neg (show ¬ x < x by omega), if_neg (show ¬ x < x by omega)]
      exact lexBytes_antisym xs ys
    · rw [if_neg (show ¬ x < y by omega), if_pos h, if_pos h]
      decide

/-- One step of strict byte comparison. -/
theorem lexBytes_cons_lt {x y : Nat} {xs ys : Buf} :
    lexBytes (x :: xs) (y :: ys) < 0 ↔ x < y ∨ (x = y ∧ lexBytes xs ys < 0) := by
  simp only [lexBytes]
  split_ifs <;> omega

/-- Strict byte comparison is transitive. -/
theorem lexBytes_trans_lt : ∀ {a b c : Buf},
    lexBytes a b < 0 → lexBytes b c < 0 → lexBytes a c < 0
  | [], b, c, h1, h2 => by
    cases b with
    | nil => exact absurd h1 (by simp [lexBytes])
    | cons y ys =>
      cases c with
      | nil => exact absurd h2 (by simp only [lexBytes]; omega)
      | cons z zs => simp only [lexBytes]; omega
  | _ :: _, [], _, h1, _ => absurd h1 (by simp only [lexBytes]; omega)
  | a :: as, b :: bs, c, h1, h2 => by
    cases c with
    | nil => exact absurd h2 (by simp only [lexBytes]; omega)
    | cons z zs =>
      rw [lexBytes_cons_lt] at h1 h2 ⊢
      rcases h1 with h1 | ⟨h1e, h1t⟩
      · rcases h2 with h2 | ⟨h2e, h2t⟩
        · exact Or.inl (by omega)
        · exact Or.inl (by omega)
      · rcases h2 with h2 | ⟨h2e, h2t⟩
        · exact Or.inl (by omega)
        · exact Or.inr ⟨by omega, lexBytes_trans_lt h1t h2t⟩

/-- Non-strict byte comparison means strictly less or equal buffers. -/
theorem lexBytes_le_cases {a b : Buf} (h : lexBytes a b ≤ 0) :
    lexBytes a b < 0 ∨ a = b := by
  rcases lt_or_eq_of_le h with h1 | h1
  · exact Or.inl h1
  · exact Or.inr (lexBytes_eq_zero h1)

/-- `canonicalizeBSONType` yields the Object rank only for the Object
type byte. -/
theorem canonType_obj {t : Nat} (h : canonType t = 20) : t = tObject := by
  unfold canonType at h
  by_cases hc0 : t = tMinKey
  · rw [if_pos hc0] at h
    exact absurd h (by decide)
  rw [if_neg hc0] at h
  by_cases hc1 : t = tEOO ∨ t = tUndefined
  · rw [if_pos hc1] at h
    exact absurd h (by decide)
  rw [if_neg hc1] at h
  by_cases hc2 : t = tNull
  · rw [if_pos hc2] at h
    exact absurd h (by decide)
  rw [if_neg hc2] at h
  by_cases hc3 : t = tDouble ∨ t = tInt ∨ t = tLong
  · rw [if_pos hc3] at h
    exact absurd h (by decide)
  rw [if_neg hc3] at h
  by_cases hc4 : t = tString ∨ t = tSymbol
  · rw [if_pos hc4] at h
    exact absurd h (by decide)
  rw [if_neg hc4] at h
  by_cases hc5 : t = tObject
  · exact hc5
  rw [if_neg hc5] at h
  by_cases hc6 : t = tArray
  · rw [if_pos hc6] at h
    exact absurd h (by decide)
  rw [if_neg hc6] at h
  by_cases hc7 : t = tBinData
  · rw [if_pos hc7] at h
    exact absurd h (by decide)
  rw [if_neg hc7] at h
  by_cases hc8 : t = tOID
  · rw [if_pos hc8] at h
    exact absurd h (by decide)
  rw [if_neg hc8] at h
  by_cases hc9 : t = tBool
  · rw [if_pos hc9] at h
    exact absurd h (by decide)
  rw [if_neg hc9] at h
  by_cases hc10 : t = tDate ∨ t = tTimestamp
  · rw [if_pos hc10] at h
    exact absurd h (by decide)
  rw [if_neg hc10] at h
  by_cases hc11 : t = tRegex
  · rw [if_pos hc11] at h
    exact absurd h (by decide)
  rw [if_neg hc11] at h
  by_cases hc12 : t = tDBRef
  · rw [if_pos hc12] at h
    exact absurd h (by decide)
  rw [if_neg hc12] at h
  by_cases hc13 : t = tCode
  · rw [if_pos hc13] at h
    exact absurd h (by decide)
  rw [if_neg hc13] at h
  by_cases hc14 : t = tCodeWScope
  · rw [if_pos hc14] at h
    exact absurd h (by decide)
  rw [if_neg hc14] at h
  by_cases hc15 : t = tMaxKey
  · rw [if_pos hc15] at h
    exact absurd h (by decide)
  rw [if_neg hc15] at h
  exact absurd h (by decide)
/-- `canonicalizeBSONType` yields the Array rank only for the Array type
byte. -/
theorem canonType_arr {t : Nat} (h : canonType t = 25) : t = tArray := by
  unfold canonType at h
  by_cases hc0 : t = tMinKey
  · rw [if_pos hc0] at h
    exact absurd h (by decide)
  rw [if_neg hc0] at h
  by_cases hc1 : t = tEOO ∨ t = tUndefined
  · rw [if_pos hc1] at h
    exact absurd h (by decide)
  rw [if_neg hc1] at h
  by_cases hc2 : t = tNull
  · rw [if_pos hc2] at h
    exact absurd h (by decide)
  rw [if_neg hc2] at h
  by_cases hc3 : t = tDouble ∨ t = tInt ∨ t = tLong
  · rw [if_pos hc3] at h
    exact absurd h (by decide)
  rw [if_neg hc3] at h
  by_cases hc4 : t = tString ∨ t = tSymbol
  · rw [if_pos hc4] at h
    exact absurd h (by decide)
  rw [if_neg hc4] at h
  by_cases hc5 : t = tObject
  · rw [if_pos hc5] at h
    exact absurd h (by decide)
  rw [if_neg hc5] at h
  by_cases hc6 : t = tArray
  · exact hc6
  rw [if_neg hc6] at h
  by_cases hc7 : t = tBinData
  · rw [if_pos hc7] at h
    exact absurd h (by decide)
  rw [if_neg hc7] at h
  by_cases hc8 : t = tOID
  · rw [if_pos hc8] at h
    exact absurd h (by decide)
  rw [if_neg hc8] at h
  by_cases hc9 : t = tBool
  · rw [if_pos hc9] at h
    exact absurd h (by decide)
  rw [if_neg hc9] at h
  by_cases hc10 : t = tDate ∨ t = tTimestamp
  · rw [if_pos hc10] at h
    exact absurd h (by decide)
  rw [if_neg hc10] at h
  by_cases hc11 : t = tRegex
  · rw [if_pos hc11] at h
    exact absurd h (by decide)
  rw [if_neg hc11] at h
  by_cases hc12 : t = tDBRef
  · rw [if_pos hc12] at h
    exact absurd h (by decide)
  rw [if_neg hc12] at h
  by_cases hc13 : t = tCode
  · rw [if_pos hc13] at h
    exact absurd h (by decide)
  rw [if_neg hc13] at h
  by_cases hc14 : t = tCodeWScope
  · rw [if_pos hc14] at h
    exact absurd h (by decide)
  rw [if_neg hc14] at h
  by_cases hc15 : t = tMaxKey
  · rw [if_pos hc15] at h
    exact absurd h (by decide)
  rw [if_neg hc15] at h
  exact absurd h (by decide)

/-- Well-formed values with equal canonical type ranks have the same
shape: both primitives, or both containers of the same kind. -/
theorem canon_shape : ∀ {a b : BVal}, wfVal a = true → wfVal b = true →
    canonType a.typeOf = canonType b.typeOf →
    (∃ t x u y, a = .prim t x ∧ b = .prim u y) ∨
    (∃ ar ch ch2, a = .cont ar ch ∧ b = .cont ar ch2) := by
  intro a b ha hb h
  cases a with
  | prim t x =>
    cases b with
    | prim u y => exact Or.inl ⟨t, x, u, y, rfl, rfl⟩
    | cont ar2 ch2 =>
      exfalso
      simp only [wfVal, Bool.and_eq_true, decide_eq_true_eq] at ha
      cases ar2 with
      | true =>
        have h25 : canonType t = 25 := by
          simpa [BVal.typeOf, (show canonType tArray = 25 from rfl)] using h
        exact ha.2 (canonType_arr h25)
      | false =>
        have h20 : canonType t = 20 := by
          simpa [BVal.typeOf, (show canonType tObject = 20 from rfl)] using h
        exact ha.1 (canonType_obj h20)
  | cont ar ch =>
    cases b with
    | prim u y =>
      exfalso
      simp only [wfVal, Bool.and_eq_true, decide_eq_true_eq] at hb
      cases ar with
      | true =>
        have h25 : canonType u = 25 := by
          simpa [BVal.typeOf, (show canonType tArray = 25 from rfl)] using h.symm
        exact hb.2 (canonType_arr h25)
      | false =>
        have h20 : canonType u = 20 := by
          simpa [BVal.typeOf, (show canonType tObject = 20 from rfl)] using h.symm
        exact hb.1 (canonType_obj h20)
    | cont ar2 ch2 =>
      cases ar with
      | true =>
        cases ar2 with
        | true => exact Or.inr ⟨true, ch, ch2, rfl, rfl⟩
        | false =>
          exfalso
          simp only [BVal.typeOf, if_pos, if_neg] at h
          exact absurd h (by decide)
      | false =>
        cases ar2 with
        | true =>
          exfalso
          simp only [BVal.typeOf] at h
          exact absurd h (by decide)
        | false => exact Or.inr ⟨false, ch, ch2, rfl, rfl⟩

/-- Unfolded form of `entryCompare`. -/
theorem entryCompare_eq (cs : Bool) (n1 : Buf) (v1 : BVal) (n2 : Buf)
    (v2 : BVal) :
    entryCompare cs n1 v1 n2 v2
      = if canonType v1.typeOf - canonType v2.typeOf ≠ 0 then
          canonType v1.typeOf - canonType v2.typeOf
        else if cs ∧ lexBytes n1 n2 ≠ 0 then lexBytes n1 n2
        else valueCompare v1 v2 := by
  unfold entryCompare
  rfl

/-- `entriesCompare` on two empty lists. -/
theorem entriesCompare_nil : ∀ cs : Bool, entriesCompare cs .nil .nil = 0 := by
  intro cs
  unfold entriesCompare
  rfl

/-- `entriesCompare` on two non-empty lists compares the head entries
first. -/
theorem entriesCompare_cons_eq (cs : Bool) (n1 : Buf) (v1 : BVal)
    (r1 : BEntries) (n2 : Buf) (v2 : BVal) (r2 : BEntries) :
    entriesCompare cs (.cons n1 v1 r1) (.cons n2 v2 r2)
      = if entryCompare cs n1 v1 n2 v2 ≠ 0 then entryCompare cs n1 v1 n2 v2
        else entriesCompare cs r1 r2 := rfl

/-- `entriesCompare` stops on an unequal head pair. -/
theorem entriesCompare_cons_ne {cs : Bool} {n1 : Buf} {v1 : BVal}
    {r1 : BEntries} {n2 : Buf} {v2 : BVal} {r2 : BEntries}
    (h : entryCompare cs n1 v1 n2 v2 ≠ 0) :
    entriesCompare cs (.cons n1 v1 r1) (.cons n2 v2 r2)
      = entryCompare cs n1 v1 n2 v2 := by
  rw [entriesCompare_cons_eq, if_pos h]

/-- `entriesCompare` recurses past an equal head pair. -/
theorem entriesCompare_cons_zero {cs : Bool} {n1 : Buf} {v1 : BVal}
    {r1 : BEntries} {n2 : Buf} {v2 : BVal} {r2 : BEntries}
    (h : entryCompare cs n1 v1 n2 v2 = 0) :
    entriesCompare cs (.cons n1 v1 r1) (.cons n2 v2 r2)
      = entriesCompare cs r1 r2 := by
  rw [entriesCompare_cons_eq, if_neg (by omega)]

/-- Reflexivity of the comparison family, by structural size. -/
theorem compare_refl_all : ∀ N : Nat,
    (∀ es, sizeEntries es ≤ N → ∀ cs, entriesCompare cs es es = 0) ∧
    (∀ v, sizeVal v ≤ N → valueCompare v v = 0) ∧
    (∀ v, sizeVal v ≤ N → ∀ cs n, entryCompare cs n v n v = 0) := by
  intro N
  induction N using Nat.strong_induction_on with
  | _ N ih =>
    have hV : ∀ v, sizeVal v ≤ N → valueCompare v v = 0 := by
      intro v hv
      cases v with
      | prim t x => simp [valueCompare, lexBytes_refl]
      | cont ar ch =>
        simp only [valueCompare]
        simp only [sizeVal] at hv
        exact (ih (sizeEntries ch) (by omega)).1 ch le_rfl _
    have hY : ∀ v, sizeVal v ≤ N → ∀ cs n, entryCompare cs n v n v = 0 := by
      intro v hv cs n
      rw [entryCompare_eq]
      rw [if_neg (by omega)]
      rw [if_neg (by simp [lexBytes_refl])]
      exact hV v hv
    refine ⟨?_, hV, hY⟩
    intro es he cs
    cases es with
    | nil => exact entriesCompare_nil cs
    | cons n v r =>
      simp only [sizeEntries] at he
      rw [entriesCompare_cons_zero ((ih (sizeVal v) (by omega)).2.2 v le_rfl cs n)]
      exact (ih (sizeEntries r) (by omega)).1 r le_rfl cs

/-- `entriesCompare`: the empty list is less than a non-empty one. -/
theorem entriesCompare_nil_cons (cs : Bool) (n : Buf) (v : BVal)
    (r : BEntries) : entriesCompare cs .nil (.cons n v r) = -1 := by
  unfold entriesCompare
  rfl

/-- `entriesCompare`: a non-empty list exceeds the empty one. -/
theorem entriesCompare_cons_nil (cs : Bool) (n : Buf) (v : BVal)
    (r : BEntries) : entriesCompare cs (.cons n v r) .nil = 1 := by
  unfold entriesCompare
  rfl

/-- Antisymmetry of the comparison family, by structural size. -/
theorem compare_antisym_all : ∀ N : Nat,
    (∀ cs e1 e2, sizeEntries e1 + sizeEntries e2 ≤ N →
      entriesCompare cs e1 e2 = -entriesCompare cs e2 e1) ∧
    (∀ v1 v2, sizeVal v1 + sizeVal v2 ≤ N →
      valueCompare v1 v2 = -valueCompare v2 v1) ∧
    (∀ cs n1 n2 v1 v2, sizeVal v1 + sizeVal v2 ≤ N →
      entryCompare cs n1 v1 n2 v2 = -entryCompare cs n2 v2 n1 v1) := by
  intro N
  induction N using Nat.strong_induction_on with
  | _ N ih =>
    have hV : ∀ v1 v2, sizeVal v1 + sizeVal v2 ≤ N →
        valueCompare v1 v2 = -valueCompare v2 v1 := by
      intro v1 v2 hv
      cases v1 with
      | prim t x =>
        cases v2 with
        | prim u y =>
          simp only [valueCompare]
          exact lexBytes_antisym x y
        | cont ar ch => simp [valueCompare]
      | cont ar ch =>
        cases v2 with
        | prim u y => simp [valueCompare]
        | cont ar2 ch2 =>
          simp only [sizeVal] at hv
          cases ar <;> cases ar2 <;>
            (simp only [valueCompare];
              exact (ih (sizeEntries ch + sizeEntries ch2)
                (by omega)).1 _ ch ch2 (by omega))
    have hY : ∀ cs n1 n2 v1 v2, sizeVal v1 + sizeVal v2 ≤ N →
        entryCompare cs n1 v1 n2 v2 = -entryCompare cs n2 v2 n1 v1 := by
      intro cs n1 n2 v1 v2 hv
      rw [entryCompare_eq, entryCompare_eq]
      by_cases hd : canonType v1.typeOf - canonType v2.typeOf = 0
      · rw [if_neg (show ¬ (canonType v1.typeOf - canonType v2.typeOf ≠ 0)
            by omega),
          if_neg (show ¬ (canonType v2.typeOf - canonType v1.typeOf ≠ 0)
            by omega)]
        cases cs with
        | false =>
          rw [if_neg (by simp), if_neg (by simp)]
          exact hV v1 v2 hv
        | true =>
          by_cases hm : lexBytes n1 n2 = 0
          · have hm2 : lexBytes n2 n1 = 0 := by
              have := lexBytes_antisym n2 n1
              omega
            rw [if_neg (by simp [hm]), if_neg (by simp [hm2])]
            exact hV v1 v2 hv
          · have hm2 : lexBytes n2 n1 ≠ 0 := by
              have := lexBytes_antisym n2 n1
              omega
            rw [if_pos ⟨rfl, hm⟩, if_pos ⟨rfl, hm2⟩]
            exact lexBytes_antisym n1 n2
      · rw [if_pos hd,
          if_pos (show canonType v2.typeOf - canonType v1.typeOf ≠ 0 by omega)]
        omega
    refine ⟨?_, hV, hY⟩
    intro cs e1 e2 he
    cases e1 with
    | nil =>
      cases e2 with
      | nil =>
        rw [entriesCompare_nil]
        decide
      | cons n v r =>
        rw [entriesCompare_nil_cons, entriesCompare_cons_nil]
    | cons n1 v1 r1 =>
      cases e2 with
      | nil =>
        rw [entriesCompare_cons_nil, entriesCompare_nil_cons]
        decide
      | cons n2 v2 r2 =>
        simp only [sizeEntries] at he
        by_cases hz : entryCompare cs n1 v1 n2 v2 = 0
        · have hz2 : entryCompare cs n2 v2 n1 v1 = 0 := by
            have := hY cs n1 n2 v1 v2 (by omega)
            omega
          rw [entriesCompare_cons_zero hz, entriesCompare_cons_zero hz2]
          exact (ih (sizeEntries r1 + sizeEntries r2) (by omega)).1 cs r1 r2
            (by omega)
        · have hz2 : entryCompare cs n2 v2 n1 v1 ≠ 0 := by
            have := hY cs n1 n2 v1 v2 (by omega)
            omega
          rw [entriesCompare_cons_ne hz, entriesCompare_cons_ne hz2]
          exact hY cs n1 n2 v1 v2 (by omega)

/-- Non-strict byte comparison is transitive. -/
theorem lexBytes_trans_le {a b c : Buf} (h1 : lexBytes a b ≤ 0)
    (h2 : lexBytes b c ≤ 0) : lexBytes a c ≤ 0 := by
  rcases lexBytes_le_cases h1 with hl1 | rfl
  · rcases lexBytes_le_cases h2 with hl2 | rfl
    · exact le_of_lt (lexBytes_trans_lt hl1 hl2)
    · exact le_of_lt hl1
  · exact h2

/-- Transitivity of the comparison family on well-formed values, by
structural size. -/
theorem compare_trans_all : ∀ N : Nat,
    (∀ cs e1 e2 e3, sizeEntries e1 + sizeEntries e2 + sizeEntries e3 ≤ N →
      wfEntries e1 = true → wfEntries e2 = true → wfEntries e3 = true →
      entriesCompare cs e1 e2 ≤ 0 → entriesCompare cs e2 e3 ≤ 0 →
      entriesCompare cs e1 e3 ≤ 0) ∧
    (∀ v1 v2 v3, sizeVal v1 + sizeVal v2 + sizeVal v3 ≤ N →
      wfVal v1 = true → wfVal v2 = true → wfVal v3 = true →
      canonType v1.typeOf = canonType v2.typeOf →
      canonType v2.typeOf = canonType v3.typeOf →
      valueCompare v1 v2 ≤ 0 → valueCompare v2 v3 ≤ 0 →
      valueCompare v1 v3 ≤ 0) ∧
    (∀ cs n1 n2 n3 v1 v2 v3, sizeVal v1 + sizeVal v2 + sizeVal v3 ≤ N →
      wfVal v1 = true → wfVal v2 = true → wfVal v3 = true →
      entryCompare cs n1 v1 n2 v2 ≤ 0 → entryCompare cs n2 v2 n3 v3 ≤ 0 →
      entryCompare cs n1 v1 n3 v3 ≤ 0) := by
  intro N
  induction N using Nat.strong_induction_on with
  | _ N ih =>
    have hV : ∀ v1 v2 v3, sizeVal v1 + sizeVal v2 + sizeVal v3 ≤ N →
        wfVal v1 = true → wfVal v2 = true → wfVal v3 = true →
        canonType v1.typeOf = canonType v2.typeOf →
        canonType v2.typeOf = canonType v3.typeOf →
        valueCompare v1 v2 ≤ 0 → valueCompare v2 v3 ≤ 0 →
        valueCompare v1 v3 ≤ 0 := by
      intro v1 v2 v3 hs w1 w2 w3 hk12 hk23 h12 h23
      rcases canon_shape w1 w2 hk12 with ⟨t, x, u, y, rfl, rfl⟩ |
        ⟨ar, ch, ch2, rfl, rfl⟩
      · rcases canon_shape w2 w3 hk23 with ⟨t2, x2, u2, y2, heq, rfl⟩ |
          ⟨ar2, ch2, ch3, heq, rfl⟩
        · cases heq
          simp only [valueCompare] at h12 h23 ⊢
          exact lexBytes_trans_le h12 h23
        · exact absurd heq (by simp)
      · rcases canon_shape w2 w3 hk23 with ⟨t2, x2, u2, y2, heq, rfl⟩ |
          ⟨ar2, chb, ch3, heq, rfl⟩
        · exact absurd heq (by simp)
        · cases heq
          simp only [valueCompare] at h12 h23 ⊢
          simp only [sizeVal] at hs
          simp only [wfVal] at w1 w2 w3
          exact (ih (sizeEntries ch + sizeEntries ch2 + sizeEntries ch3)
            (by omega)).1 _ ch ch2 ch3 (by omega) w1 w2 w3 h12 h23
    have hY : ∀ cs n1 n2 n3 v1 v2 v3,
        sizeVal v1 + sizeVal v2 + sizeVal v3 ≤ N →
        wfVal v1 = true → wfVal v2 = true → wfVal v3 = true →
        entryCompare cs n1 v1 n2 v2 ≤ 0 → entryCompare cs n2 v2 n3 v3 ≤ 0 →
        entryCompare cs n1 v1 n3 v3 ≤ 0 := by
      intro cs n1 n2 n3 v1 v2 v3 hs w1 w2 w3 h12 h23
      rw [entryCompare_eq] at h12 h23 ⊢
      by_cases hd12 : canonType v1.typeOf - canonType v2.typeOf = 0
      · rw [if_neg (by omega)] at h12
        by_cases hd23 : canonType v2.typeOf - canonType v3.typeOf = 0
        · rw [if_neg (by omega)] at h23
          rw [if_neg (by omega)]
          cases cs with
          | false =>
            rw [if_neg (by simp)] at h12 h23 ⊢
            exact hV v1 v2 v3 hs w1 w2 w3 (by omega) (by omega) h12 h23
          | true =>
            by_cases hm12 : lexBytes n1 n2 = 0
            · have e12 : n1 = n2 := lexBytes_eq_zero hm12
              subst e12
              rw [if_neg (by simp [hm12])] at h12
              by_cases hm23 : lexBytes n1 n3 = 0
              · rw [if_neg (by simp [hm23])] at h23
                rw [if_neg (by simp [hm23])]
                exact hV v1 v2 v3 hs w1 w2 w3 (by omega) (by omega) h12 h23
              · rw [if_pos ⟨rfl, hm23⟩] at h23
                rw [if_pos ⟨rfl, hm23⟩]
                exact h23
            · rw [if_pos ⟨rfl, hm12⟩] at h12
              by_cases hm23 : lexBytes n2 n3 = 0
              · have e23 : n2 = n3 := lexBytes_eq_zero hm23
                subst e23
                rw [if_pos ⟨rfl, hm12⟩]
                exact h12
              · rw [if_pos ⟨rfl, hm23⟩] at h23
                have hlt : lexBytes n1 n3 < 0 :=
                  @lexBytes_trans_lt n1 n2 n3 (by omega) (by omega)
                rw [if_pos ⟨rfl, by omega⟩]
                omega
        · rw [if_pos hd23] at h23
          rw [if_pos (show canonType v1.typeOf - canonType v3.typeOf ≠ 0
            by omega)]
          omega
      · rw [if_pos hd12] at h12
        by_cases hd23 : canonType v2.typeOf - canonType v3.typeOf = 0
        · rw [if_pos (show canonType v1.typeOf - canonType v3.typeOf ≠ 0
            by omega)]
          omega
        · rw [if_pos hd23] at h23
          rw [if_pos (show canonType v1.typeOf - canonType v3.typeOf ≠ 0
            by omega)]
          omega
    refine ⟨?_, hV, hY⟩
    intro cs e1 e2 e3 hs w1 w2 w3 h12 h23
    cases e1 with
    | nil =>
      cases e3 with
      | nil =>
        rw [entriesCompare_nil]
      | cons n3 v3 r3 =>
        rw [entriesCompare_nil_cons]
        decide
    | cons n1 v1 r1 =>
      cases e2 with
      | nil =>
        rw [entriesCompare_cons_nil] at h12
        exact absurd h12 (by decide)
      | cons n2 v2 r2 =>
        cases e3 with
        | nil =>
          rw [entriesCompare_cons_nil] at h23
          exact absurd h23 (by decide)
        | cons n3 v3 r3 =>
          simp only [sizeEntries] at hs
          simp only [wfEntries, Bool.and_eq_true] at w1 w2 w3
          have hTY : ∀ (na nb nc : Buf) (va vb vc : BVal),
              sizeVal va + sizeVal vb + sizeVal vc <
                sizeVal v1 + sizeVal v2 + sizeVal v3 + 1 →
              wfVal va = true → wfVal vb = true → wfVal vc = true →
              entryCompare cs na va nb vb ≤ 0 →
              entryCompare cs nb vb nc vc ≤ 0 →
              entryCompare cs na va nc vc ≤ 0 := by
            intro na nb nc va vb vc hlt wa wb wc ha hb
            exact (ih (sizeVal va + sizeVal vb + sizeVal vc) (by omega)).2.2
              cs na nb nc va vb vc le_rfl wa wb wc ha hb
          have a12 := (compare_antisym_all (sizeVal v1 + sizeVal v2)).2.2
            cs n1 n2 v1 v2 le_rfl
          have a23 := (compare_antisym_all (sizeVal v2 + sizeVal v3)).2.2
            cs n2 n3 v2 v3 le_rfl
          have a13 := (compare_antisym_all (sizeVal v1 + sizeVal v3)).2.2
            cs n1 n3 v1 v3 le_rfl
          by_cases hz12 : entryCompare cs n1 v1 n2 v2 = 0
          · rw [entriesCompare_cons_zero hz12] at h12
            by_cases hz23 : entryCompare cs n2 v2 n3 v3 = 0
            · rw [entriesCompare_cons_zero hz23] at h23
              have ht13le : entryCompare cs n1 v1 n3 v3 ≤ 0 :=
                hTY n1 n2 n3 v1 v2 v3 (by omega) w1.1 w2.1 w3.1 (by omega)
                  (by omega)
              have ht31le : entryCompare cs n3 v3 n1 v1 ≤ 0 :=
                hTY n3 n2 n1 v3 v2 v1 (by omega) w3.1 w2.1 w1.1 (by omega)
                  (by omega)
              have ht13 : entryCompare cs n1 v1 n3 v3 = 0 := by omega
              rw [entriesCompare_cons_zero ht13]
              exact (ih (sizeEntries r1 + sizeEntries r2 + sizeEntries r3)
                (by omega)).1 cs r1 r2 r3 (by omega) w1.2 w2.2 w3.2 h12 h23
            · rw [entriesCompare_cons_ne hz23] at h23
              have ht13le : entryCompare cs n1 v1 n3 v3 ≤ 0 :=
                hTY n1 n2 n3 v1 v2 v3 (by omega) w1.1 w2.1 w3.1 (by omega) h23
              have ht13ne : entryCompare cs n1 v1 n3 v3 ≠ 0 := by
                intro h0
                have h32 : entryCompare cs n3 v3 n2 v2 ≤ 0 :=
                  hTY n3 n1 n2 v3 v1 v2 (by omega) w3.1 w1.1 w2.1 (by omega)
                    (by omega)
                have a32 := (compare_antisym_all (sizeVal v3 + sizeVal v2)).2.2
                  cs n3 n2 v3 v2 le_rfl
                omega
              rw [entriesCompare_cons_ne ht13ne]
              omega
          · rw [entriesCompare_cons_ne hz12] at h12
            have h23le : entryCompare cs n2 v2 n3 v3 ≤ 0 := by
              by_cases hz23 : entryCompare cs n2 v2 n3 v3 = 0
              · omega
              · rw [entriesCompare_cons_ne hz23] at h23
                exact h23
            have ht13le : entryCompare cs n1 v1 n3 v3 ≤ 0 :=
              hTY n1 n2 n3 v1 v2 v3 (by omega) w1.1 w2.1 w3.1 h12 h23le
            have ht13ne : entryCompare cs n1 v1 n3 v3 ≠ 0 := by
              intro h0
              have h21 : entryCompare cs n2 v2 n1 v1 ≤ 0 :=
                hTY n2 n3 n1 v2 v3 v1 (by omega) w2.1 w3.1 w1.1 h23le
                  (by omega)
              omega
            rw [entriesCompare_cons_ne ht13ne]
            omega

/-! ## C9: parsing and denotation are fuel-monotone and deterministic -/

/-- Success of the parser is preserved by one more unit of fuel. -/
theorem parse_mono : ∀ fuel : Nat,
    (∀ b off v, parseVal fuel b off = some v →
      parseVal (fuel + 1) b off = some v) ∧
    (∀ b off es, parseEntries fuel b off = some es →
      parseEntries (fuel + 1) b off = some es) := by
  intro fuel
  induction fuel with
  | zero =>
    constructor <;> intro b off x h <;>
      exact absurd h (by simp [parseVal, parseEntries])
  | succ n ih =>
    obtain ⟨ihV, ihE⟩ := ih
    constructor
    · intro b off v h
      unfold parseVal at h ⊢
      dsimp only at h ⊢
      by_cases ht : eltType b off = tObject ∨ eltType b off = tArray
      · rw [if_pos ht] at h ⊢
        rw [Option.map_eq_some'] at h
        obtain ⟨es, hes, hv⟩ := h
        rw [Option.map_eq_some']
        exact ⟨es, ihE _ _ es hes, hv⟩
      · rw [if_neg ht] at h ⊢
        exact h
    · intro b off es h
      unfold parseEntries at h ⊢
      by_cases hz : byteAt b off = 0
      · rw [if_pos hz] at h ⊢
        exact h
      · rw [if_neg hz] at h ⊢
        cases hsz : eltSize b off with
        | none =>
          rw [hsz] at h
          exact absurd h (by simp)
        | some sz =>
          rw [hsz] at h
          dsimp only at h ⊢
          cases hv : parseVal n b off with
          | none =>
            rw [hv] at h
            dsimp only at h
            exact absurd h (by simp)
          | some v =>
            cases he : parseEntries n b (off + sz) with
            | none =>
              rw [hv, he] at h
              dsimp only at h
              exact absurd h (by simp)
            | some rest =>
              rw [hv, he] at h
              rw [ihV _ _ v hv, ihE _ _ rest he]
              exact h

/-- Success of the parser is preserved by more fuel. -/
theorem parseVal_le {m n : Nat} (h : m ≤ n) {b : Buf} {off : Nat} {v : BVal}
    (hp : parseVal m b off = some v) : parseVal n b off = some v := by
  induction n, h using Nat.le_induction with
  | base => exact hp
  | succ n hmn ih => exact (parse_mono n).1 b off v ih

/-- Success of the entries parser is preserved by more fuel. -/
theorem parseEntries_le {m n : Nat} (h : m ≤ n) {b : Buf} {off : Nat}
    {es : BEntries} (hp : parseEntries m b off = some es) :
    parseEntries n b off = some es := by
  induction n, h using Nat.le_induction with
  | base => exact hp
  | succ n hmn ih => exact (parse_mono n).2 b off es ih

/-- The parse of an element's value does not depend on the fuel. -/
theorem parseVal_det {m n : Nat} {b : Buf} {off : Nat} {v w : BVal}
    (h1 : parseVal m b off = some v) (h2 : parseVal n b off = some w) :
    v = w := by
  rcases Nat.le_total m n with h | h
  · rw [parseVal_le h h1] at h2
    exact Option.some_inj.mp h2
  · rw [parseVal_le h h2] at h1
    exact (Option.some_inj.mp h1).symm

/-- The parse of a container body does not depend on the fuel. -/
theorem parseEntries_det {m n : Nat} {b : Buf} {off : Nat} {es fs : BEntries}
    (h1 : parseEntries m b off = some es) (h2 : parseEntries n b off = some fs) :
    es = fs := by
  rcases Nat.le_total m n with h | h
  · rw [parseEntries_le h h1] at h2
    exact Option.some_inj.mp h2
  · rw [parseEntries_le h h2] at h1
    exact (Option.some_inj.mp h1).symm

/-- Success of denotation is preserved by one more unit of fuel. -/
theorem denote_mono : ∀ fuel : Nat,
    (∀ s i v, denoteIdx fuel s i = some v → denoteIdx (fuel + 1) s i = some v) ∧
    (∀ s i es, denoteChildren fuel s i = some es →
      denoteChildren (fuel + 1) s i = some es) := by
  intro fuel
  induction fuel with
  | zero =>
    constructor <;> intro s i x h <;>
      exact absurd h (by simp [denoteIdx, denoteChildren])
  | succ n ih =>
    obtain ⟨ihV, ihE⟩ := ih
    constructor
    · intro s i v h
      unfold denoteIdx at h ⊢
      by_cases hv : s.hasValue i = true
      · rw [if_pos hv] at h ⊢
        exact (parse_mono n).1 _ _ _ h
      · rw [if_neg hv] at h ⊢
        dsimp only at h ⊢
        by_cases ht : s.getType i = tObject ∨ s.getType i = tArray
        · rw [if_pos ht] at h ⊢
          rw [Option.map_eq_some'] at h
          obtain ⟨es, hes, hv2⟩ := h
          rw [Option.map_eq_some']
          exact ⟨es, ihE _ _ es hes, hv2⟩
        · rw [if_neg ht] at h
          exact absurd h (by simp)
    · intro s i es h
      unfold denoteChildren at h ⊢
      by_cases hinv : i = kInvalidRepIdx
      · rw [if_pos hinv] at h ⊢
        exact h
      · rw [if_neg hinv] at h ⊢
        by_cases hok : repOk i = true
        · rw [if_neg (by simp [hok])] at h ⊢
          cases hv : denoteIdx n s i with
          | none =>
            rw [hv] at h
            dsimp only at h
            exact absurd h (by simp)
          | some v =>
            cases he : denoteChildren n s (s.getElementRep i).siblingRight with
            | none =>
              rw [hv, he] at h
              dsimp only at h
              exact absurd h (by simp)
            | some rest =>
              rw [hv, he] at h
              rw [ihV _ _ v hv, ihE _ _ rest he]
              dsimp only at h ⊢
              exact h
        · rw [if_pos hok] at h
          exact absurd h (by simp)

/-- Success of denotation is preserved by more fuel. -/
theorem denoteIdx_le {m n : Nat} (h : m ≤ n) {s : Impl} {i : RepIdx}
    {v : BVal} (hp : denoteIdx m s i = some v) : denoteIdx n s i = some v := by
  induction n, h using Nat.le_induction with
  | base => exact hp
  | succ n hmn ih => exact (denote_mono n).1 s i v ih

/-- Success of children denotation is preserved by more fuel. -/
theorem denoteChildren_le {m n : Nat} (h : m ≤ n) {s : Impl} {i : RepIdx}
    {es : BEntries} (hp : denoteChildren m s i = some es) :
    denoteChildren n s i = some es := by
  induction n, h using Nat.le_induction with
  | base => exact hp
  | succ n hmn ih => exact (denote_mono n).2 s i es ih

/-- The denotation of a rep does not depend on the fuel. -/
theorem denoteIdx_det {m n : Nat} {s : Impl} {i : RepIdx} {v w : BVal}
    (h1 : denoteIdx m s i = some v) (h2 : denoteIdx n s i = some w) :
    v = w := by
  rcases Nat.le_total m n with h | h
  · rw [denoteIdx_le h h1] at h2
    exact Option.some_inj.mp h2
  · rw [denoteIdx_le h h2] at h1
    exact (Option.some_inj.mp h1).symm

/-- The denotation of a sibling chain does not depend on the fuel. -/
theorem denoteChildren_det {m n : Nat} {s : Impl} {i : RepIdx}
    {es fs : BEntries} (h1 : denoteChildren m s i = some es)
    (h2 : denoteChildren n s i = some fs) : es = fs := by
  rcases Nat.le_total m n with h | h
  · rw [denoteChildren_le h h1] at h2
    exact Option.some_inj.mp h2
  · rw [denoteChildren_le h h2] at h1
    exact (Option.some_inj.mp h1).symm

/-! ## C9: structural facts about parses and denotations -/

/-- A parsed value presents the type byte of its encoding. -/
theorem parseVal_typeOf {n : Nat} {b : Buf} {off : Nat} {v : BVal}
    (h : parseVal n b off = some v) : v.typeOf = eltType b off := by
  obtain ⟨m, rfl⟩ : ∃ m, n = m + 1 := by
    cases n with
    | zero => exact absurd h (by simp [parseVal])
    | succ m => exact ⟨m, rfl⟩
  unfold parseVal at h
  dsimp only at h
  by_cases ht : eltType b off = tObject ∨ eltType b off = tArray
  · rw [if_pos ht] at h
    rw [Option.map_eq_some'] at h
    obtain ⟨es, hes, rfl⟩ := h
    rcases ht with ht | ht
    · rw [ht]
      rfl
    · rw [ht]
      rfl
  · rw [if_neg ht] at h
    by_cases he : eltType b off = tEOO
    · rw [if_pos he] at h
      exact absurd h (by simp)
    · rw [if_neg he] at h
      cases hvs : eltValueSize b off with
      | none =>
        rw [hvs] at h
        exact absurd h (by simp)
      | some vs =>
        rw [hvs] at h
        dsimp only at h
        obtain rfl := Option.some_inj.mp h
        rfl

/-- Every parsed value is well formed. -/
theorem parse_wf : ∀ fuel : Nat,
    (∀ b off v, parseVal fuel b off = some v → wfVal v = true) ∧
    (∀ b off es, parseEntries fuel b off = some es → wfEntries es = true) := by
  intro fuel
  induction fuel with
  | zero =>
    constructor <;> intro b off x h <;>
      exact absurd h (by simp [parseVal, parseEntries])
  | succ n ih =>
    obtain ⟨ihV, ihE⟩ := ih
    constructor
    · intro b off v h
      unfold parseVal at h
      dsimp only at h
      by_cases ht : eltType b off = tObject ∨ eltType b off = tArray
      · rw [if_pos ht] at h
        rw [Option.map_eq_some'] at h
        obtain ⟨es, hes, rfl⟩ := h
        simp only [wfVal]
        exact ihE _ _ es hes
      · rw [if_neg ht] at h
        by_cases he : eltType b off = tEOO
        · rw [if_pos he] at h
          exact absurd h (by simp)
        · rw [if_neg he] at h
          cases hvs : eltValueSize b off with
          | none =>
            rw [hvs] at h
            exact absurd h (by simp)
          | some vs =>
            rw [hvs] at h
            dsimp only at h
            obtain rfl := Option.some_inj.mp h
            simp only [wfVal, decide_eq_true_eq]
            push_neg at ht
            exact ht
    · intro b off es h
      unfold parseEntries at h
      by_cases hz : byteAt b off = 0
      · rw [if_pos hz] at h
        obtain rfl := Option.some_inj.mp h
        rfl
      · rw [if_neg hz] at h
        cases hsz : eltSize b off with
        | none =>
          rw [hsz] at h
          exact absurd h (by simp)
        | some sz =>
          rw [hsz] at h
          dsimp only at h
          cases hv : parseVal n b off with
          | none =>
            rw [hv] at h
            dsimp only at h
            exact absurd h (by simp)
          | some v =>
            cases he : parseEntries n b (off + sz) with
            | none =>
              rw [hv, he] at h
              dsimp only at h
              exact absurd h (by simp)
            | some rest =>
              rw [hv, he] at h
              dsimp only at h
              obtain rfl := Option.some_inj.mp h
              simp only [wfEntries, Bool.and_eq_true]
              exact ⟨ihV _ _ v hv, ihE _ _ rest he⟩

/-- A rep with a value is marked serialized. -/
theorem hasValue_serialized {s : Impl} {i : RepIdx}
    (h : s.hasValue i = true) : (s.getElementRep i).serialized = true := by
  unfold Impl.hasValue at h
  rw [if_neg (by
    intro h0
    rw [h0] at h
    simp [Impl.hasValue] at h)] at h
  exact h

/-- A rep with a value reads its type byte from its serialized bytes. -/
theorem hasValue_getType {s : Impl} {i : RepIdx} (h : s.hasValue i = true) :
    s.getType i = eltType (s.getObject (s.getElementRep i).objIdx)
      (s.getElementRep i).offset := by
  unfold Impl.getType
  rw [if_neg (hasValue_ne_root h)]
  unfold Impl.typeOfRep
  rw [if_pos (Or.inl (hasValue_serialized h))]
  rfl

/-- A rep with a value reads its field name from its serialized bytes. -/
theorem hasValue_fieldName {s : Impl} {i : RepIdx} (h : s.hasValue i = true) :
    s.getFieldNameAt i
      = eltName (s.getObject (s.getElementRep i).objIdx)
        (s.getElementRep i).offset := by
  unfold Impl.getFieldNameAt
  rw [if_neg (hasValue_ne_root h)]
  dsimp only
  rw [if_pos (Or.inl (hasValue_serialized h))]

/-- A denotable sibling-chain head is the end marker or a real rep. -/
theorem denoteChildren_ok {n : Nat} {s : Impl} {i : RepIdx} {es : BEntries}
    (h : denoteChildren n s i = some es) :
    i = kInvalidRepIdx ∨ repOk i = true := by
  obtain ⟨m, rfl⟩ : ∃ m, n = m + 1 := by
    cases n with
    | zero => exact absurd h (by simp [denoteChildren])
    | succ m => exact ⟨m, rfl⟩
  unfold denoteChildren at h
  by_cases hinv : i = kInvalidRepIdx
  · exact Or.inl hinv
  · rw [if_neg hinv] at h
    by_cases hok : repOk i = true
    · exact Or.inr hok
    · rw [if_pos hok] at h
      exact absurd h (by simp)

/-- A denotable sibling-chain head is never the opaque sentinel. -/
theorem denoteChildren_head_ok {n : Nat} {s : Impl} {i : RepIdx}
    {es : BEntries} (h : denoteChildren n s i = some es) :
    i ≠ kOpaqueRepIdx := by
  rcases denoteChildren_ok h with h1 | h1
  · rw [h1]
    decide
  · intro h2
    rw [h2] at h1
    exact absurd h1 (by decide)

/-- The end marker denotes the empty entry list. -/
theorem denoteChildren_invalid {n : Nat} {s : Impl} {es : BEntries}
    (h : denoteChildren n s kInvalidRepIdx = some es) : es = .nil := by
  obtain ⟨m, rfl⟩ : ∃ m, n = m + 1 := by
    cases n with
    | zero => exact absurd h (by simp [denoteChildren])
    | succ m => exact ⟨m, rfl⟩
  unfold denoteChildren at h
  rw [if_pos rfl] at h
  exact (Option.some_inj.mp h).symm

/-- Decomposition of a denotable non-empty sibling chain. -/
theorem denoteChildren_cons {n : Nat} {s : Impl} {i : RepIdx} {es : BEntries}
    (hne : i ≠ kInvalidRepIdx) (h : denoteChildren n s i = some es) :
    ∃ m v rest, n = m + 1 ∧ repOk i = true ∧ denoteIdx m s i = some v ∧
      denoteChildren m s (s.getElementRep i).siblingRight = some rest ∧
      es = .cons (s.getFieldNameAt i) v rest := by
  obtain ⟨m, rfl⟩ : ∃ m, n = m + 1 := by
    cases n with
    | zero => exact absurd h (by simp [denoteChildren])
    | succ m => exact ⟨m, rfl⟩
  unfold denoteChildren at h
  rw [if_neg hne] at h
  by_cases hok : repOk i = true
  · rw [if_neg (by simp [hok])] at h
    cases hv : denoteIdx m s i with
    | none =>
      rw [hv] at h
      dsimp only at h
      exact absurd h (by simp)
    | some v =>
      cases he : denoteChildren m s (s.getElementRep i).siblingRight with
      | none =>
        rw [hv, he] at h
        dsimp only at h
        exact absurd h (by simp)
      | some rest =>
        rw [hv, he] at h
        dsimp only at h
        exact ⟨m, v, rest, rfl, hok, hv, he, (Option.some_inj.mp h).symm⟩
  · rw [if_pos hok] at h
    exact absurd h (by simp)

/-- `resolveLeftChild` is the identity on an already-resolved child link. -/
theorem resolveLeftChild_resolved {s : Impl} {i : RepIdx}
    (h : (s.getElementRep i).childLeft ≠ kOpaqueRepIdx) :
    s.resolveLeftChild i = ((s.getElementRep i).childLeft, s) := by
  unfold Impl.resolveLeftChild
  dsimp only
  rw [if_pos h]

/-- Denotation of a rep with a serialized value parses its bytes. -/
theorem denoteIdx_hasValue {n : Nat} {s : Impl} {i : RepIdx}
    (h : s.hasValue i = true) :
    denoteIdx (n + 1) s i
      = parseVal n (s.getObject (s.getElementRep i).objIdx)
          (s.getElementRep i).offset := by
  unfold denoteIdx
  rw [if_pos h]

/-- Decomposition of the denotation of a dirty container. -/
theorem denoteIdx_dirty {n : Nat} {s : Impl} {i : RepIdx} {v : BVal}
    (hnv : s.hasValue i = false) (h : denoteIdx (n + 1) s i = some v) :
    (s.getType i = tObject ∨ s.getType i = tArray) ∧
    ∃ es, denoteChildren n s (s.getElementRep i).childLeft = some es ∧
      v = .cont (decide (s.getType i = tArray)) es := by
  unfold denoteIdx at h
  rw [if_neg (by simp [hnv])] at h
  dsimp only at h
  by_cases ht : s.getType i = tObject ∨ s.getType i = tArray
  · rw [if_pos ht] at h
    rw [Option.map_eq_some'] at h
    obtain ⟨es, hes, hv⟩ := h
    exact ⟨ht, es, hes, hv.symm⟩
  · rw [if_neg ht] at h
    exact absurd h (by simp)

/-- A denoted value presents the type `getType` reports. -/
theorem denoteIdx_typeOf {n : Nat} {s : Impl} {i : RepIdx} {v : BVal}
    (h : denoteIdx n s i = some v) : v.typeOf = s.getType i := by
  obtain ⟨m, rfl⟩ : ∃ m, n = m + 1 := by
    cases n with
    | zero => exact absurd h (by simp [denoteIdx])
    | succ m => exact ⟨m, rfl⟩
  by_cases hv : s.hasValue i = true
  · rw [denoteIdx_hasValue hv] at h
    rw [parseVal_typeOf h]
    exact (hasValue_getType hv).symm
  · obtain ⟨ht, es, hes, rfl⟩ :=
      denoteIdx_dirty (by simpa using hv) h
    rcases ht with ht | ht
    · rw [ht]
      rfl
    · rw [ht]
      rfl

/-- Every denoted value is well formed. -/
theorem denote_wf : ∀ fuel : Nat,
    (∀ s i v, denoteIdx fuel s i = some v → wfVal v = true) ∧
    (∀ s i es, denoteChildren fuel s i = some es → wfEntries es = true) := by
  intro fuel
  induction fuel with
  | zero =>
    constructor <;> intro s i x h <;>
      exact absurd h (by simp [denoteIdx, denoteChildren])
  | succ n ih =>
    obtain ⟨ihV, ihE⟩ := ih
    constructor
    · intro s i v h
      by_cases hv : s.hasValue i = true
      · rw [denoteIdx_hasValue hv] at h
        exact (parse_wf n).1 _ _ _ h
      · obtain ⟨ht, es, hes, rfl⟩ :=
          denoteIdx_dirty (by simpa using hv) h
        simp only [wfVal]
        exact ihE _ _ es hes
    · intro s i es h
      by_cases hinv : i = kInvalidRepIdx
      · subst hinv
        obtain rfl := denoteChildren_invalid h
        rfl
      · obtain ⟨m, v, rest, hm, hok, hv, he, rfl⟩ := denoteChildren_cons hinv h
        obtain rfl := Nat.succ_injective hm
        simp only [wfEntries, Bool.and_eq_true]
        exact ⟨ihV _ _ v hv, ihE _ _ rest he⟩

/-- Decomposition of the parse of an Object or Array element. -/
theorem parseVal_cont {n : Nat} {b : Buf} {off : Nat} {v : BVal}
    (ht : eltType b off = tObject ∨ eltType b off = tArray)
    (h : parseVal (n + 1) b off = some v) :
    ∃ es, parseEntries n b (eltValueOff b off + 4) = some es ∧
      v = .cont (decide (eltType b off = tArray)) es := by
  unfold parseVal at h
  dsimp only at h
  rw [if_pos ht] at h
  rw [Option.map_eq_some'] at h
  obtain ⟨es, hes, hv⟩ := h
  exact ⟨es, hes, hv.symm⟩

/-- A parsed container body starting on the terminator is empty. -/
theorem parseEntries_zero {n : Nat} {b : Buf} {off : Nat} {es : BEntries}
    (hz : byteAt b off = 0) (h : parseEntries n b off = some es) :
    es = .nil := by
  obtain ⟨m, rfl⟩ : ∃ m, n = m + 1 := by
    cases n with
    | zero => exact absurd h (by simp [parseEntries])
    | succ m => exact ⟨m, rfl⟩
  unfold parseEntries at h
  rw [if_pos hz] at h
  exact (Option.some_inj.mp h).symm

/-- Decomposition of a parsed non-empty container body. -/
theorem parseEntries_cons {n : Nat} {b : Buf} {off : Nat} {es : BEntries}
    (hnz : byteAt b off ≠ 0) (h : parseEntries n b off = some es) :
    ∃ m sz v rest, n = m + 1 ∧ eltSize b off = some sz ∧
      parseVal m b off = some v ∧ parseEntries m b (off + sz) = some rest ∧
      es = .cons (eltName b off) v rest := by
  obtain ⟨m, rfl⟩ : ∃ m, n = m + 1 := by
    cases n with
    | zero => exact absurd h (by simp [parseEntries])
    | succ m => exact ⟨m, rfl⟩
  unfold parseEntries at h
  rw [if_neg hnz] at h
  cases hsz : eltSize b off with
  | none =>
    rw [hsz] at h
    exact absurd h (by simp)
  | some sz =>
    rw [hsz] at h
    dsimp only at h
    cases hv : parseVal m b off with
    | none =>
      rw [hv] at h
      dsimp only at h
      exact absurd h (by simp)
    | some v =>
      cases he : parseEntries m b (off + sz) with
      | none =>
        rw [hv, he] at h
        dsimp only at h
        exact absurd h (by simp)
      | some rest =>
        rw [hv, he] at h
        dsimp only at h
        exact ⟨m, sz, v, rest, rfl, rfl, hv, he, (Option.some_inj.mp h).symm⟩

/-- **Equivalence.** A successful run of the `compareWithElement` family on
nodes whose denotations are defined leaves the state unchanged and returns
the native comparison of the denotations. -/
theorem cmp_denote : ∀ fuel : Nat,
    (∀ s a b cs r s1, cmpElemsF fuel s a b cs = some (r, s1) →
      ∀ n va m vb, denoteIdx n s a = some va → denoteIdx m s b = some vb →
      s1 = s ∧ r = entryCompare cs (s.getFieldNameAt a) va
        (s.getFieldNameAt b) vb) ∧
    (∀ s a b2 off2 cs r s1, cmpWithEltF fuel s a b2 off2 cs = some (r, s1) →
      ∀ n va m v2, denoteIdx n s a = some va → parseVal m b2 off2 = some v2 →
      s1 = s ∧ r = entryCompare cs (s.getFieldNameAt a) va
        (eltName b2 off2) v2) ∧
    (∀ s i j cs r s1, cmpWalkF fuel s i j cs = some (r, s1) →
      ∀ n ei m ej, denoteChildren n s i = some ei →
        denoteChildren m s j = some ej →
      s1 = s ∧ r = entriesCompare cs ei ej) ∧
    (∀ s i b2 off2 cs r s1, cmpObjWalkF fuel s i b2 off2 cs = some (r, s1) →
      ∀ n ei m e2, denoteChildren n s i = some ei →
        parseEntries m b2 off2 = some e2 →
      s1 = s ∧ r = entriesCompare cs ei e2) := by
  intro fuel
  induction fuel with
  | zero =>
    refine ⟨?_, ?_, ?_, ?_⟩
    · intro s a b cs r s1 h
      exact absurd h (by simp [cmpElemsF])
    · intro s a b2 off2 cs r s1 h
      exact absurd h (by simp [cmpWithEltF])
    · intro s i j cs r s1 h
      exact absurd h (by simp [cmpWalkF])
    · intro s i b2 off2 cs r s1 h
      exact absurd h (by simp [cmpObjWalkF])
  | succ fuel ih =>
    obtain ⟨ihE, ihW, ihK, ihO⟩ := ih
    refine ⟨?_, ?_, ?_, ?_⟩
    · -- cmpElemsF
      intro s a b cs r s1 h n va m vb ha hb
      unfold cmpElemsF at h
      by_cases hab : a = b
      · rw [if_pos hab] at h
        have h' := Option.some_inj.mp h
        rw [Prod.mk.injEq] at h'
        obtain ⟨hr, hs⟩ := h'
        subst hab
        obtain rfl := denoteIdx_det ha hb
        refine ⟨hs.symm, ?_⟩
        rw [← hr]
        exact ((compare_refl_all (sizeVal va)).2.2 va le_rfl cs _).symm
      · rw [if_neg hab] at h
        by_cases hva : s.hasValue a = true
        · rw [if_pos hva] at h
          rw [Option.map_eq_some'] at h
          obtain ⟨⟨r0, s0⟩, h0, hmap⟩ := h
          dsimp only at hmap
          rw [Prod.mk.injEq] at hmap
          obtain ⟨hr, hs1⟩ := hmap
          obtain ⟨n0, rfl⟩ : ∃ n0, n = n0 + 1 := by
            cases n with
            | zero => exact absurd ha (by simp [denoteIdx])
            | succ n0 => exact ⟨n0, rfl⟩
          rw [denoteIdx_hasValue hva] at ha
          obtain ⟨hs0, hr0⟩ := ihW s b _ _ cs r0 s0 h0 m vb n0 va hb ha
          refine ⟨hs1.symm.trans hs0, ?_⟩
          rw [← hr, hr0, ← hasValue_fieldName hva]
          have := (compare_antisym_all (sizeVal va + sizeVal vb)).2.2 cs
            (s.getFieldNameAt a) (s.getFieldNameAt b) va vb le_rfl
          omega
        · rw [if_neg hva] at h
          by_cases hvb : s.hasValue b = true
          · rw [if_pos hvb] at h
            obtain ⟨m0, rfl⟩ : ∃ m0, m = m0 + 1 := by
              cases m with
              | zero => exact absurd hb (by simp [denoteIdx])
              | succ m0 => exact ⟨m0, rfl⟩
            rw [denoteIdx_hasValue hvb] at hb
            obtain ⟨hs0, hr0⟩ := ihW s a _ _ cs r s1 h n va m0 vb ha hb
            refine ⟨hs0, ?_⟩
            rw [hr0, ← hasValue_fieldName hvb]
          · rw [if_neg hvb] at h
            dsimp only at h
            obtain ⟨n0, rfl⟩ : ∃ n0, n = n0 + 1 := by
              cases n with
              | zero => exact absurd ha (by simp [denoteIdx])
              | succ n0 => exact ⟨n0, rfl⟩
            obtain ⟨m0, rfl⟩ : ∃ m0, m = m0 + 1 := by
              cases m with
              | zero => exact absurd hb (by simp [denoteIdx])
              | succ m0 => exact ⟨m0, rfl⟩
            have hTa := denoteIdx_typeOf ha
            have hTb := denoteIdx_typeOf hb
            obtain ⟨hta, esa, hesa, rfl⟩ :=
              denoteIdx_dirty (by simpa using hva) ha
            obtain ⟨htb, esb, hesb, rfl⟩ :=
              denoteIdx_dirty (by simpa using hvb) hb
            by_cases hd : canonType (s.getType a) - canonType (s.getType b) = 0
            · rw [if_neg (by omega)] at h
              by_cases hnm : cs = true ∧
                  lexBytes (s.getFieldNameAt a) (s.getFieldNameAt b) ≠ 0
              · rw [if_pos hnm] at h
                have h' := Option.some_inj.mp h
                rw [Prod.mk.injEq] at h'
                obtain ⟨hr, hs⟩ := h'
                refine ⟨hs.symm, ?_⟩
                rw [entryCompare_eq, hTa, hTb]
                rw [if_neg (by omega), if_pos hnm]
                exact hr.symm
              · rw [if_neg hnm] at h
                have hnea := denoteChildren_head_ok hesa
                have hneb := denoteChildren_head_ok hesb
                rw [resolveLeftChild_resolved hnea] at h
                dsimp only at h
                rw [resolveLeftChild_resolved hneb] at h
                dsimp only at h
                obtain ⟨hs1, hr⟩ := ihK s _ _ _ r s1 h n0 esa m0 esb hesa hesb
                refine ⟨hs1, ?_⟩
                rw [entryCompare_eq, hTa, hTb]
                rw [if_neg (by omega), if_neg hnm]
                rw [hr]
                simp only [valueCompare]
                congr 1
                simp only [decide_eq_true_eq, ne_eq]
            · rw [if_pos hd] at h
              have h' := Option.some_inj.mp h
              rw [Prod.mk.injEq] at h'
              obtain ⟨hr, hs⟩ := h'
              refine ⟨hs.symm, ?_⟩
              rw [entryCompare_eq, hTa, hTb]
              rw [if_pos hd]
              exact hr.symm
    · -- cmpWithEltF
      intro s a b2 off2 cs r s1 h n va m v2 ha h2
      unfold cmpWithEltF at h
      by_cases hva : s.hasValue a = true
      · rw [if_pos hva] at h
        rw [Option.map_eq_some'] at h
        obtain ⟨r0, h0, hmap⟩ := h
        rw [Prod.mk.injEq] at hmap
        obtain ⟨hr, hs1⟩ := hmap
        obtain ⟨n0, rfl⟩ : ∃ n0, n = n0 + 1 := by
          cases n with
          | zero => exact absurd ha (by simp [denoteIdx])
          | succ n0 => exact ⟨n0, rfl⟩
        rw [denoteIdx_hasValue hva] at ha
        unfold woCompareF at h0
        cases hp1 : parseVal fuel (s.getObject (s.getElementRep a).objIdx)
            (s.getElementRep a).offset with
        | none =>
          rw [hp1] at h0
          exact absurd h0 (by simp)
        | some w1 =>
          cases hp2 : parseVal fuel b2 off2 with
          | none =>
            rw [hp1, hp2] at h0
            dsimp only at h0
            exact absurd h0 (by simp)
          | some w2 =>
            rw [hp1, hp2] at h0
            dsimp only at h0
            obtain rfl := Option.some_inj.mp h0
            refine ⟨hs1.symm, ?_⟩
            rw [← hr]
            obtain rfl := parseVal_det hp1 ha
            obtain rfl := parseVal_det hp2 h2
            rw [hasValue_fieldName hva]
      · rw [if_neg hva] at h
        dsimp only at h
        obtain ⟨n0, rfl⟩ : ∃ n0, n = n0 + 1 := by
          cases n with
          | zero => exact absurd ha (by simp [denoteIdx])
          | succ n0 => exact ⟨n0, rfl⟩
        have hTa := denoteIdx_typeOf ha
        have hT2 := parseVal_typeOf h2
        obtain ⟨hta, esa, hesa, rfl⟩ :=
          denoteIdx_dirty (by simpa using hva) ha
        by_cases hd : canonType (s.getType a) - canonType (eltType b2 off2) = 0
        · rw [if_neg (by omega)] at h
          by_cases hnm : cs = true ∧
              lexBytes (s.getFieldNameAt a) (eltName b2 off2) ≠ 0
          · rw [if_pos hnm] at h
            have h' := Option.some_inj.mp h
            rw [Prod.mk.injEq] at h'
            obtain ⟨hr, hs⟩ := h'
            refine ⟨hs.symm, ?_⟩
            rw [entryCompare_eq, hTa, hT2]
            rw [if_neg (by omega), if_pos hnm]
            exact hr.symm
          · rw [if_neg hnm] at h
            have ht2' : eltType b2 off2 = tObject ∨ eltType b2 off2 = tArray := by
              rcases hta with hta1 | hta1
              · left
                apply canonType_obj
                rw [hta1] at hd
                have h20 : canonType tObject = 20 := rfl
                omega
              · right
                apply canonType_arr
                rw [hta1] at hd
                have h25 : canonType tArray = 25 := rfl
                omega
            obtain ⟨m0, rfl⟩ : ∃ m0, m = m0 + 1 := by
              cases m with
              | zero => exact absurd h2 (by simp [parseVal])
              | succ m0 => exact ⟨m0, rfl⟩
            obtain ⟨e2, he2, rfl⟩ := parseVal_cont ht2' h2
            have hnea := denoteChildren_head_ok hesa
            rw [resolveLeftChild_resolved hnea] at h
            dsimp only at h
            obtain ⟨hs1, hr⟩ := ihO s _ b2 _ _ r s1 h n0 esa m0 e2 hesa he2
            refine ⟨hs1, ?_⟩
            rw [entryCompare_eq, hTa, hT2]
            rw [if_neg (by omega), if_neg hnm]
            rw [hr]
            simp only [valueCompare]
            congr 1
            simp only [decide_eq_true_eq, ne_eq]
        · rw [if_pos hd] at h
          have h' := Option.some_inj.mp h
          rw [Prod.mk.injEq] at h'
          obtain ⟨hr, hs⟩ := h'
          refine ⟨hs.symm, ?_⟩
          rw [entryCompare_eq, hTa, hT2]
          rw [if_pos hd]
          exact hr.symm
    · -- cmpWalkF
      intro s i j cs r s1 h n ei m ej hi hj
      unfold cmpWalkF at h
      by_cases hoki : repOk i = true
      · rw [if_neg (by simp [hoki])] at h
        have hine : i ≠ kInvalidRepIdx := by
          intro h0
          rw [h0] at hoki
          exact absurd hoki (by decide)
        obtain ⟨n0, vi, resti, hn, _, hvi, hei, rfl⟩ := denoteChildren_cons hine hi
        by_cases hokj : repOk j = true
        · rw [if_neg (by simp [hokj])] at h
          have hjne : j ≠ kInvalidRepIdx := by
            intro h0
            rw [h0] at hokj
            exact absurd hokj (by decide)
          obtain ⟨m0, vj, restj, hm, _, hvj, hej, rfl⟩ :=
            denoteChildren_cons hjne hj
          cases hc : cmpElemsF fuel s i j cs with
          | none =>
            rw [hc] at h
            exact absurd h (by simp)
          | some p =>
            obtain ⟨r0, s0⟩ := p
            rw [hc] at h
            dsimp only at h
            obtain ⟨hs0, hr0⟩ := ihE s i j cs r0 s0 hc n0 vi m0 vj hvi hvj
            rw [hs0] at h
            by_cases hz : r0 = 0
            · subst hz
              rw [if_neg (by simp)] at h
              have hsi := denoteChildren_head_ok hei
              rw [resolveRightSibling_resolved s i hsi] at h
              dsimp only at h
              have hsj := denoteChildren_head_ok hej
              rw [resolveRightSibling_resolved s j hsj] at h
              dsimp only at h
              obtain ⟨hs1, hr⟩ := ihK s _ _ cs r s1 h n0 resti m0 restj hei hej
              rw [entriesCompare_cons_zero hr0.symm]
              exact ⟨hs1, hr⟩
            · rw [if_pos hz] at h
              have h' := Option.some_inj.mp h
              rw [Prod.mk.injEq] at h'
              obtain ⟨hr, hs⟩ := h'
              rw [entriesCompare_cons_ne (by rw [← hr0]; exact hz)]
              exact ⟨hs.symm, hr.symm.trans hr0⟩
        · rw [if_pos hokj] at h
          have h' := Option.some_inj.mp h
          rw [Prod.mk.injEq] at h'
          obtain ⟨hr, hs⟩ := h'
          have hjinv : j = kInvalidRepIdx := by
            rcases denoteChildren_ok hj with h1 | h1
            · exact h1
            · exact absurd h1 hokj
          subst hjinv
          obtain rfl := denoteChildren_invalid hj
          rw [entriesCompare_cons_nil]
          exact ⟨hs.symm, hr.symm⟩
      · rw [if_pos hoki] at h
        have h' := Option.some_inj.mp h
        rw [Prod.mk.injEq] at h'
        obtain ⟨hr, hs⟩ := h'
        have hiinv : i = kInvalidRepIdx := by
          rcases denoteChildren_ok hi with h1 | h1
          · exact h1
          · exact absurd h1 hoki
        subst hiinv
        obtain rfl := denoteChildren_invalid hi
        by_cases hokj : repOk j = true
        · rw [if_neg (by simp [hokj])] at hr
          have hjne : j ≠ kInvalidRepIdx := by
            intro h0
            rw [h0] at hokj
            exact absurd hokj (by decide)
          obtain ⟨m0, vj, restj, hm, _, hvj, hej, rfl⟩ :=
            denoteChildren_cons hjne hj
          rw [entriesCompare_nil_cons]
          exact ⟨hs.symm, hr.symm⟩
        · rw [if_pos hokj] at hr
          have hjinv : j = kInvalidRepIdx := by
            rcases denoteChildren_ok hj with h1 | h1
            · exact h1
            · exact absurd h1 hokj
          subst hjinv
          obtain rfl := denoteChildren_invalid hj
          rw [entriesCompare_nil]
          exact ⟨hs.symm, hr.symm⟩
    · -- cmpObjWalkF
      intro s i b2 off2 cs r s1 h n ei m e2 hi h2
      unfold cmpObjWalkF at h
      by_cases hoki : repOk i = true
      · rw [if_neg (by simp [hoki])] at h
        have hine : i ≠ kInvalidRepIdx := by
          intro h0
          rw [h0] at hoki
          exact absurd hoki (by decide)
        obtain ⟨n0, vi, resti, hn, _, hvi, hei, rfl⟩ := denoteChildren_cons hine hi
        by_cases hz2 : byteAt b2 off2 = 0
        · rw [if_pos hz2] at h
          have h' := Option.some_inj.mp h
          rw [Prod.mk.injEq] at h'
          obtain ⟨hr, hs⟩ := h'
          obtain rfl := parseEntries_zero hz2 h2
          rw [entriesCompare_cons_nil]
          exact ⟨hs.symm, hr.symm⟩
        · rw [if_neg hz2] at h
          obtain ⟨m0, sz, v2, rest2, rfl, hsz2, hv2, hrest2, rfl⟩ :=
            parseEntries_cons hz2 h2
          cases hc : cmpWithEltF fuel s i b2 off2 cs with
          | none =>
            rw [hc] at h
            exact absurd h (by simp)
          | some p =>
            obtain ⟨r0, s0⟩ := p
            rw [hc] at h
            dsimp only at h
            obtain ⟨hs0, hr0⟩ := ihW s i b2 off2 cs r0 s0 hc n0 vi m0 v2 hvi hv2
            rw [hs0] at h
            by_cases hz : r0 = 0
            · subst hz
              rw [if_neg (by simp)] at h
              rw [hsz2] at h
              dsimp only at h
              have hsi := denoteChildren_head_ok hei
              rw [resolveRightSibling_resolved s i hsi] at h
              dsimp only at h
              obtain ⟨hs1, hr⟩ := ihO s _ b2 _ cs r s1 h n0 resti m0 rest2
                hei hrest2
              rw [entriesCompare_cons_zero hr0.symm]
              exact ⟨hs1, hr⟩
            · rw [if_pos hz] at h
              have h' := Option.some_inj.mp h
              rw [Prod.mk.injEq] at h'
              obtain ⟨hr, hs⟩ := h'
              rw [entriesCompare_cons_ne (by rw [← hr0]; exact hz)]
              exact ⟨hs.symm, hr.symm.trans hr0⟩
      · rw [if_pos hoki] at h
        have h' := Option.some_inj.mp h
        rw [Prod.mk.injEq] at h'
        obtain ⟨hr, hs⟩ := h'
        have hiinv : i = kInvalidRepIdx := by
          rcases denoteChildren_ok hi with h1 | h1
          · exact h1
          · exact absurd h1 hoki
        subst hiinv
        obtain rfl := denoteChildren_invalid hi
        by_cases hz2 : byteAt b2 off2 = 0
        · rw [if_pos hz2] at hr
          obtain rfl := parseEntries_zero hz2 h2
          rw [entriesCompare_nil]
          exact ⟨hs.symm, hr.symm⟩
        · rw [if_neg hz2] at hr
          obtain ⟨m0, sz, v2, rest2, rfl, hsz2, hv2, hrest2, rfl⟩ :=
            parseEntries_cons hz2 h2
          rw [entriesCompare_nil_cons]
          exact ⟨hs.symm, hr.symm⟩

/-- **C9.** `compareWithElement` (at a fixed `considerFieldNames` flag)
is transitive on nodes of a document whose denotations are defined: when
successful comparison runs report `a ≤ b` and `b ≤ c`, any successful run
comparing `a` with `c` reports `a ≤ c` — and none of the three runs
mutates the tree. -/
theorem c9_compare_transitive (s : Impl) (a b c : RepIdx) (cs : Bool)
    (na nb nc : Nat) (va vb vc : BVal)
    (ha : denoteIdx na s a = some va) (hb : denoteIdx nb s b = some vb)
    (hc : denoteIdx nc s c = some vc)
    (f1 f2 f3 : Nat) (r1 r2 r3 : Int) (s1 s2 s3 : Impl)
    (h1 : cmpElemsF f1 s a b cs = some (r1, s1))
    (h2 : cmpElemsF f2 s b c cs = some (r2, s2))
    (h3 : cmpElemsF f3 s a c cs = some (r3, s3))
    (hle1 : r1 ≤ 0) (hle2 : r2 ≤ 0) :
    r3 ≤ 0 ∧ s1 = s ∧ s2 = s ∧ s3 = s := by
  obtain ⟨hs1, hr1⟩ := (cmp_denote f1).1 s a b cs r1 s1 h1 na va nb vb ha hb
  obtain ⟨hs2, hr2⟩ := (cmp_denote f2).1 s b c cs r2 s2 h2 nb vb nc vc hb hc
  obtain ⟨hs3, hr3⟩ := (cmp_denote f3).1 s a c cs r3 s3 h3 na va nc vc ha hc
  refine ⟨?_, hs1, hs2, hs3⟩
  rw [hr3]
  have w1 := (denote_wf na).1 s a va ha
  have w2 := (denote_wf nb).1 s b vb hb
  have w3 := (denote_wf nc).1 s c vc hc
  exact (compare_trans_all (sizeVal va + sizeVal vb + sizeVal vc)).2.2 cs
    (s.getFieldNameAt a) (s.getFieldNameAt b) (s.getFieldNameAt c)
    va vb vc le_rfl w1 w2 w3 (by rw [← hr1]; exact hle1)
    (by rw [← hr2]; exact hle2)

/-- C9 witness: in the document `{"a": 1, "b": 2}` with both children
materialized, the runs comparing node 1 with node 2, node 2 with itself,
and node 1 with node 2 again instantiate the transitivity theorem. -/
theorem c9_witness :
    (-1 : Int) ≤ 0 ∧
    ((((Document.mkDoc
        [19, 0, 0, 0, 16, 97, 0, 1, 0, 0, 0, 16, 98, 0, 2, 0, 0, 0, 0]
        true).resolveLeftChild kRootRepIdx).2.resolveRightSibling 1).getD
          (0, Impl.mkImpl false)).2
      = ((((Document.mkDoc
        [19, 0, 0, 0, 16, 97, 0, 1, 0, 0, 0, 16, 98, 0, 2, 0, 0, 0, 0]
        true).resolveLeftChild kRootRepIdx).2.resolveRightSibling 1).getD
          (0, Impl.mkImpl false)).2 ∧
    ((((Document.mkDoc
        [19, 0, 0, 0, 16, 97, 0, 1, 0, 0, 0, 16, 98, 0, 2, 0, 0, 0, 0]
        true).resolveLeftChild kRootRepIdx).2.resolveRightSibling 1).getD
          (0, Impl.mkImpl false)).2
      = ((((Document.mkDoc
        [19, 0, 0, 0, 16, 97, 0, 1, 0, 0, 0, 16, 98, 0, 2, 0, 0, 0, 0]
        true).resolveLeftChild kRootRepIdx).2.resolveRightSibling 1).getD
          (0, Impl.mkImpl false)).2 ∧
    ((((Document.mkDoc
        [19, 0, 0, 0, 16, 97, 0, 1, 0, 0, 0, 16, 98, 0, 2, 0, 0, 0, 0]
        true).resolveLeftChild kRootRepIdx).2.resolveRightSibling 1).getD
          (0, Impl.mkImpl false)).2
      = ((((Document.mkDoc
        [19, 0, 0, 0, 16, 97, 0, 1, 0, 0, 0, 16, 98, 0, 2, 0, 0, 0, 0]
        true).resolveLeftChild kRootRepIdx).2.resolveRightSibling 1).getD
          (0, Impl.mkImpl false)).2 :=
  c9_compare_transitive
    ((((Document.mkDoc
        [19, 0, 0, 0, 16, 97, 0, 1, 0, 0, 0, 16, 98, 0, 2, 0, 0, 0, 0]
        true).resolveLeftChild kRootRepIdx).2.resolveRightSibling 1).getD
          (0, Impl.mkImpl false)).2
    1 2 2 true 2 2 2 (.prim 16 [1, 0, 0, 0]) (.prim 16 [2, 0, 0, 0])
    (.prim 16 [2, 0, 0, 0]) (by decide) (by decide) (by decide)
    3 1 3 (-1) 0 (-1)
    ((((Document.mkDoc
        [19, 0, 0, 0, 16, 97, 0, 1, 0, 0, 0, 16, 98, 0, 2, 0, 0, 0, 0]
        true).resolveLeftChild kRootRepIdx).2.resolveRightSibling 1).getD
          (0, Impl.mkImpl false)).2
    ((((Document.mkDoc
        [19, 0, 0, 0, 16, 97, 0, 1, 0, 0, 0, 16, 98, 0, 2, 0, 0, 0, 0]
        true).resolveLeftChild kRootRepIdx).2.resolveRightSibling 1).getD
          (0, Impl.mkImpl false)).2
    ((((Document.mkDoc
        [19, 0, 0, 0, 16, 97, 0, 1, 0, 0, 0, 16, 98, 0, 2, 0, 0, 0, 0]
        true).resolveLeftChild kRootRepIdx).2.resolveRightSibling 1).getD
          (0, Impl.mkImpl false)).2
    (by decide) (by decide) (by decide) (by decide) (by decide)

end MutableBson
